import Mathlib

/-!
SimpleBVH: a verification development

A shallow embedding of `SimpleBVH/BVH.hpp` (the class `SimpleBVH::BVH`) and proofs about it.

* Coordinates are elements of an arbitrary linearly ordered field `K` (exact arithmetic);
  every finite `double` is a rational number, so `K = ℚ` covers every input the program can
  receive, and all definitions evaluate there.
* The IEEE special values that the program relies on (`1.0 / 0.0`, `0 * inf`) are kept
  symbolically in the type `Dbl K`.
* Rounding and the sign of zero are outside exact arithmetic. A second embedding of
  `ray_triangle_intersection` computes on binary64 numbers (`F64`), every operation rounded,
  for the behaviour of the compiled function on degenerate triangles.
* Counts, positions and node indices (of the types `int` and `size_t`) are natural numbers.
  The program forms no negative one, and none of its sums or products leaves the range of
  `int` while the index has at most `2^30` primitives (node indices then stay below `2^31`).
  The one wrap-around that is part of the program's behaviour, `size_t n_corners = -1`, is
  explicit (`size_t_of_int`).
* Undefined behaviour of the C++ program (reading or writing a `std::vector` out of range,
  a recursion that never returns, a failed `assert`) is a value of `Fault`.
* The header declares `init`, `init_boxes_recursive`, `box_search_recursive`,
  `box_intersects_box`, `ray_intersection_recursive` and `max_node_index` but their bodies are
  not part of the sources at hand; those are modelled from the specification and marked so.
-/

namespace SimpleBVH

/-! ## Vectors -/

/-- An `Eigen::Vector3d` with exact coordinates. -/
structure Vec3 (K : Type) where
  x : K
  y : K
  z : K
deriving DecidableEq

/-- An `Eigen::Vector2d` with exact coordinates. -/
structure Vec2 (K : Type) where
  x : K
  y : K
deriving DecidableEq

section Vectors

variable {K : Type} [LinearOrderedField K]

/-- The coefficient `v[i]`; the program only ever uses `i = 0, 1, 2`. -/
def Vec3.coord (v : Vec3 K) (i : Nat) : K :=
  match i with
  | 0 => v.x
  | 1 => v.y
  | _ => v.z

/-- The vector `Eigen::Vector3d::Zero()`. -/
def Vec3.zero : Vec3 K := ⟨0, 0, 0⟩

/-- Componentwise difference `a - b`. -/
def Vec3.sub (a b : Vec3 K) : Vec3 K := ⟨a.x - b.x, a.y - b.y, a.z - b.z⟩

/-- Componentwise sum `a + b`. -/
def Vec3.add (a b : Vec3 K) : Vec3 K := ⟨a.x + b.x, a.y + b.y, a.z + b.z⟩

/-- The scaled vector `t * a`. -/
def Vec3.smul (t : K) (a : Vec3 K) : Vec3 K := ⟨t * a.x, t * a.y, t * a.z⟩

/-- The negated vector `-a`. -/
def Vec3.neg (a : Vec3 K) : Vec3 K := ⟨-a.x, -a.y, -a.z⟩

/-- The scalar product `a.dot(b)`. -/
def Vec3.dot (a b : Vec3 K) : K := a.x * b.x + a.y * b.y + a.z * b.z

/-- The vector product `a.cross(b)`. -/
def Vec3.cross (a b : Vec3 K) : Vec3 K :=
  ⟨a.y * b.z - a.z * b.y, a.z * b.x - a.x * b.z, a.x * b.y - a.y * b.x⟩

end Vectors

/-! ## Doubles with the IEEE special values -/

/-- A `double`: an exact finite value, one of the two infinities, or NaN. -/
inductive Dbl (K : Type) where
  | fin (v : K)
  | pinf
  | ninf
  | nan
deriving DecidableEq

section Doubles

variable {K : Type} [LinearOrderedField K]

/-- The quotient `1.0 / d` of a finite `d` in exact arithmetic. The exact numbers have one
zero, which stands for `+0.0`: dividing by it gives `+inf`. The program divides by `-0.0` as
well (`det = -D.dot(N)` is `-0.0` when `D.dot(N)` is `+0.0`) and then gets `-inf`; that sign
is part of the binary64 embedding (`F64.div`), not of this one, whose theorems depend on the
quotient by zero only through its being infinite. -/
def Dbl.recip (d : K) : Dbl K := if d = 0 then .pinf else .fin (1 / d)

/-- IEEE negation. -/
def Dbl.neg : Dbl K → Dbl K
  | .fin a => .fin (-a)
  | .pinf => .ninf
  | .ninf => .pinf
  | .nan => .nan

/-- The product of a finite value and an infinity of sign `pos`: zero times infinity is NaN. -/
def Dbl.inf_times (pos : Bool) (a : K) : Dbl K :=
  if 0 < a then (if pos then .pinf else .ninf)
  else if a < 0 then (if pos then .ninf else .pinf)
  else .nan

/-- IEEE multiplication, exact on finite values. -/
def Dbl.mul : Dbl K → Dbl K → Dbl K
  | .fin a, .fin b => .fin (a * b)
  | .fin a, .pinf => Dbl.inf_times true a
  | .fin a, .ninf => Dbl.inf_times false a
  | .pinf, .fin b => Dbl.inf_times true b
  | .ninf, .fin b => Dbl.inf_times false b
  | .pinf, .pinf => .pinf
  | .pinf, .ninf => .ninf
  | .ninf, .pinf => .ninf
  | .ninf, .ninf => .pinf
  | .nan, _ => .nan
  | _, .nan => .nan

/-- IEEE addition, exact on finite values: `inf + (-inf)` is NaN. -/
def Dbl.add : Dbl K → Dbl K → Dbl K
  | .fin a, .fin b => .fin (a + b)
  | .fin _, .pinf => .pinf
  | .fin _, .ninf => .ninf
  | .pinf, .fin _ => .pinf
  | .ninf, .fin _ => .ninf
  | .pinf, .pinf => .pinf
  | .ninf, .ninf => .ninf
  | .pinf, .ninf => .nan
  | .ninf, .pinf => .nan
  | .nan, _ => .nan
  | _, .nan => .nan

/-- The comparison `a < b` of two doubles: false as soon as one of them is NaN. -/
def Dbl.lt : Dbl K → Dbl K → Bool
  | .fin a, .fin b => decide (a < b)
  | .fin _, .pinf => true
  | .ninf, .fin _ => true
  | .ninf, .pinf => true
  | _, _ => false

/-- The comparison `a <= b` of two doubles: false as soon as one of them is NaN. -/
def Dbl.le : Dbl K → Dbl K → Bool
  | .fin a, .fin b => decide (a ≤ b)
  | .fin _, .pinf => true
  | .ninf, .fin _ => true
  | .ninf, .pinf => true
  | .pinf, .pinf => true
  | .ninf, .ninf => true
  | _, _ => false

/-- The function `std::max(a, b)`, which is `(a < b) ? b : a`. -/
def Dbl.max (a b : Dbl K) : Dbl K := if Dbl.lt a b then b else a

/-- The function `std::min(a, b)`, which is `(b < a) ? b : a`. -/
def Dbl.min (a b : Dbl K) : Dbl K := if Dbl.lt b a then b else a

end Doubles

/-! ## The exact ray-triangle predicate -/

/-- The value returned by `ray_triangle_intersection` together with its four outputs. -/
structure TriHit (K : Type) where
  hit : Bool
  t : Dbl K
  u : Dbl K
  v : Dbl K
  N : Vec3 K

section Triangle

variable {K : Type} [LinearOrderedField K]

/-- The threshold `1e-20` of the determinant guard, read as the real number `10^-20` as in
the statements over exact arithmetic. The `double` that the program compares with is the
binary64 number nearest to it, `6646139978924579 / 2^119`, just below `10^-20`; that one is
`F64.det_eps`, the threshold of the binary64 embedding. -/
def det_eps : K := 1 / 10 ^ 20

/-- The function `BVH::ray_triangle_intersection`: every statement of the body in order; the
division `1.0 / det` is an IEEE division. -/
def ray_triangle_intersection (O D A B C : Vec3 K) : TriHit K :=
  let E1 := B.sub A
  let E2 := C.sub A
  let N := E1.cross E2
  let det := -(D.dot N)
  let invdet := Dbl.recip det
  let AO := O.sub A
  let DAO := AO.cross D
  let u := Dbl.mul (.fin (E2.dot DAO)) invdet
  let v := Dbl.mul (.fin (-(E1.dot DAO))) invdet
  let t := Dbl.mul (.fin (AO.dot N)) invdet
  { hit := decide (det_eps ≤ |det|) && Dbl.le (.fin 0) t && Dbl.le (.fin 0) u
      && Dbl.le (.fin 0) v && Dbl.le (Dbl.add u v) (.fin 1)
    t := t, u := u, v := v, N := N }

end Triangle

/-! ## The index -/

/-- An axis-aligned box `std::array<Eigen::Vector3d, 2>`: element `[0]` is the minimum corner
`lo`, element `[1]` the maximum corner `hi`. -/
structure Box (K : Type) where
  lo : Vec3 K
  hi : Vec3 K
deriving DecidableEq

/-- The ways in which a call can fail to return normally. -/
inductive Fault where
  /-- An `assert` of the program does not hold. -/
  | assertion
  /-- An element of a `std::vector` is read or written at a position that does not exist. -/
  | out_of_range
  /-- The recursion never reaches a base case. -/
  | no_return
deriving DecidableEq

/-- The data members of `class BVH`: `boxlist` is indexed by node, `new2old` by position, and
`n_corners` is a `size_t`, kept as its value in `[0, 2^64)`. -/
structure BVH (K : Type) where
  boxlist : List (Box K)
  new2old : List Nat
  n_corners : Nat

/-- A ray `struct Ray`. -/
structure Ray (K : Type) where
  origin : Vec3 K
  direction : Vec3 K

/-- The conversion of an `int` to `size_t`: reduction modulo `2^64`. -/
def size_t_of_int (i : Int) : Nat := (i % 2 ^ 64).toNat

section Index

variable {K : Type} [LinearOrderedField K]

/-- A default-constructed `BVH`: two empty vectors and `size_t n_corners = -1`. -/
def BVH.default : BVH K := { boxlist := [], new2old := [], n_corners := size_t_of_int (-1) }

/-- The member function `BVH::clear`. -/
def BVH.clear (_s : BVH K) : BVH K :=
  { boxlist := [], new2old := [], n_corners := size_t_of_int (-1) }

/-- Modelled from the spec: the box-box overlap test behind `box_intersects_box`, whose body is
not in the sources. The query box `[bbd0, bbd1]` and the box `bx` overlap unless on some axis
the two intervals are disjoint. -/
def box_box_overlap (bbd0 bbd1 : Vec3 K) (bx : Box K) : Bool :=
  (List.range 3).all fun i =>
    !(decide (bbd1.coord i < bx.lo.coord i) || decide (bx.hi.coord i < bbd0.coord i))

/-- Modelled from the spec: `BVH::box_intersects_box`, declared in the header without a body:
the overlap test of the query box against the box stored for node `index`. -/
def box_intersects_box (boxlist : List (Box K)) (bbd0 bbd1 : Vec3 K) (index : Nat) :
    Except Fault Bool :=
  match boxlist[index]? with
  | none => .error .out_of_range
  | some bx => .ok (box_box_overlap bbd0 bbd1 bx)

/-- Modelled from the spec: `BVH::box_search_recursive`, declared in the header without a body.
At node `n` over the range `[b, e)`: a node whose box fails the overlap test is pruned, a leaf
(`b + 1 == e`) emits its position `b`, any other node recurses into `2n` over `[b, m)` and into
`2n + 1` over `[m, e)` with `m = (b + e) / 2`. On node `0` with an empty range the recursion
would go on for ever. -/
def box_search_recursive (boxlist : List (Box K)) (bbd0 bbd1 : Vec3 K)
    (n b e : Nat) (list : List Nat) : Except Fault (List Nat) :=
  match h : box_intersects_box boxlist bbd0 bbd1 n with
  | .error f => .error f
  | .ok cut =>
    if cut = false then .ok list
    else if b + 1 = e then .ok (list ++ [b])
    else if hn : n = 0 ∧ e ≤ b then .error .no_return
    else
      match box_search_recursive boxlist bbd0 bbd1 (2 * n) b ((b + e) / 2) list with
      | .error f => .error f
      | .ok l1 => box_search_recursive boxlist bbd0 bbd1 (2 * n + 1) ((b + e) / 2) e l1
termination_by (boxlist.length - n, e - b)
decreasing_by
  · have hlt : n < boxlist.length := by
      by_contra hc
      have hnone : boxlist[n]? = none := List.getElem?_eq_none (by omega)
      simp [box_intersects_box, hnone] at h
    rw [Prod.lex_def]; simp only; omega
  · have hlt : n < boxlist.length := by
      by_contra hc
      have hnone : boxlist[n]? = none := List.getElem?_eq_none (by omega)
      simp [box_intersects_box, hnone] at h
    rw [Prod.lex_def]; simp only; omega

/-- The loop `for (i = 0; i < tmp.size(); ++i) list[i] = new2old[tmp[i]];` of
`intersect_3D_box`, with `k` iterations left from index `i` on. -/
def intersect_3D_box_loop (new2old tmp : List Nat) : Nat → Nat → List Nat →
    Except Fault (List Nat)
  | 0, _, list => .ok list
  | k + 1, i, list =>
    match tmp[i]? with
    | none => .error .out_of_range
    | some p =>
      match new2old[p]? with
      | none => .error .out_of_range
      | some o =>
        if i < list.length then intersect_3D_box_loop new2old tmp k (i + 1) (list.set i o)
        else .error .out_of_range

/-- The call `list.resize(k)` on a `std::vector<unsigned int>`: cut to `k` elements or padded
with zeros. -/
def vector_resize (list : List Nat) (k : Nat) : List Nat :=
  list.take k ++ List.replicate (k - list.length) 0

/-- The member function `BVH::intersect_3D_box`; `list` is the caller's vector, the result its
content after the call. The assertion compares the unsigned `n_corners` with zero. The count
is handed on as the end of the range; the traversal reads the box of node `1` before it looks
at the range. -/
def BVH.intersect_3D_box (s : BVH K) (bbd0 bbd1 : Vec3 K) (list : List Nat) :
    Except Fault (List Nat) :=
  if ¬ (0 ≤ s.n_corners) then .error .assertion
  else
    match box_search_recursive s.boxlist bbd0 bbd1 1 0 s.n_corners [] with
    | .error f => .error f
    | .ok tmp => intersect_3D_box_loop s.new2old tmp tmp.length 0 (vector_resize list tmp.length)

/-- The member function `BVH::intersect_2D_box`: both corners get a zero third coordinate. -/
def BVH.intersect_2D_box (s : BVH K) (bbd0 bbd1 : Vec2 K) (list : List Nat) :
    Except Fault (List Nat) :=
  let bbd0_3D : Vec3 K := { (Vec3.zero : Vec3 K) with x := bbd0.x, y := bbd0.y }
  let bbd1_3D : Vec3 K := { (Vec3.zero : Vec3 K) with x := bbd1.x, y := bbd1.y }
  s.intersect_3D_box bbd0_3D bbd1_3D list

/-- The assignment `v3.head(v.size()) = v.head(v.size())` into a zero vector, for a
`VectorMax3d` given by its coefficients (at most three). -/
def head_into_zero (v : List K) : Vec3 K :=
  match v with
  | [] => Vec3.zero
  | [a] => { (Vec3.zero : Vec3 K) with x := a }
  | [a, b] => { (Vec3.zero : Vec3 K) with x := a, y := b }
  | a :: b :: c :: _ => ⟨a, b, c⟩

/-- The member function `BVH::intersect_box` on two `VectorMax3d` corners. -/
def BVH.intersect_box (s : BVH K) (bbd0 bbd1 : List K) (list : List Nat) :
    Except Fault (List Nat) :=
  s.intersect_3D_box (head_into_zero bbd0) (head_into_zero bbd1) list

end Index

/-! ## Ray queries -/

section RayQuery

variable {K : Type} [LinearOrderedField K]

/-- Modelled from the spec: one axis of the slab test behind `ray_intersection_recursive`.
The entry and exit parameters are `(lo - o) * inv` and `(hi - o) * inv`, swapped when the
reciprocal `inv` is negative, and the running interval `I = (tmin, tmax)` is intersected with
them by `tmin = std::max(tmin, entry)` and `tmax = std::min(tmax, exit)`. On an axis the ray
is parallel to, `inv` is `+inf` and the two parameters are infinities, or NaN where the
difference is zero; a NaN parameter leaves the interval as it is. -/
def slab_axis (o lo hi : K) (inv : Dbl K) (I : Dbl K × Dbl K) : Dbl K × Dbl K :=
  let t1 := Dbl.mul (.fin (lo - o)) inv
  let t2 := Dbl.mul (.fin (hi - o)) inv
  let t_in := if Dbl.lt inv (.fin 0) then t2 else t1
  let t_out := if Dbl.lt inv (.fin 0) then t1 else t2
  (Dbl.max I.1 t_in, Dbl.min I.2 t_out)

/-- Modelled from the spec: the ray-box slab test. The three per-axis intervals are intersected
against the running interval `[0, tmax]`; the test fails as soon as that interval is empty. -/
def ray_box_intersection (R : Ray K) (dirinv : Vec3 (Dbl K)) (bx : Box K) (tmax : K) : Bool :=
  let I0 : Dbl K × Dbl K := (.fin 0, .fin tmax)
  let I1 := slab_axis R.origin.x bx.lo.x bx.hi.x dirinv.x I0
  if Dbl.lt I1.2 I1.1 then false
  else
    let I2 := slab_axis R.origin.y bx.lo.y bx.hi.y dirinv.y I1
    if Dbl.lt I2.2 I2.1 then false
    else
      let I3 := slab_axis R.origin.z bx.lo.z bx.hi.z dirinv.z I2
      if Dbl.lt I3.2 I3.1 then false else true

/-- Modelled from the spec: `BVH::ray_intersection_recursive`, declared in the header without a
body. At node `n` over `[b, e)`: a node whose box fails the slab test is pruned, a leaf emits
its position `b`, any other node recurses into both children with the midpoint rule
`m = (b + e) / 2`. -/
def ray_intersection_recursive (boxlist : List (Box K)) (R : Ray K) (dirinv : Vec3 (Dbl K))
    (tmax : K) (n b e : Nat) (list : List Nat) : Except Fault (List Nat) :=
  if h : n < boxlist.length then
    if ray_box_intersection R dirinv boxlist[n] tmax = false then .ok list
    else if b + 1 = e then .ok (list ++ [b])
    else if hn : n = 0 ∧ e ≤ b then .error .no_return
    else
      match ray_intersection_recursive boxlist R dirinv tmax (2 * n) b ((b + e) / 2) list with
      | .error f => .error f
      | .ok l1 =>
        ray_intersection_recursive boxlist R dirinv tmax (2 * n + 1) ((b + e) / 2) e l1
  else .error .out_of_range
termination_by (boxlist.length - n, e - b)
decreasing_by
  · rw [Prod.lex_def]; simp only; omega
  · rw [Prod.lex_def]; simp only; omega

/-- The loop `for (i = 0; i < list.size(); ++i) list[i] = new2old[list[i]];` of
`ray_intersection`, with `k` iterations left from index `i` on. -/
def ray_intersection_loop (new2old : List Nat) : Nat → Nat → List Nat →
    Except Fault (List Nat)
  | 0, _, list => .ok list
  | k + 1, i, list =>
    match list[i]? with
    | none => .error .out_of_range
    | some p =>
      match new2old[p]? with
      | none => .error .out_of_range
      | some o => ray_intersection_loop new2old k (i + 1) (list.set i o)

/-- The value `std::numeric_limits<double>::max()`, the default of `tmax`. -/
def DBL_MAX : K := (2 ^ 53 - 1) * 2 ^ 971

/-- The member function `BVH::ray_intersection`; `list` is the caller's vector, the result its
content after the call. The traversal appends to `list` as it is handed in. -/
def BVH.ray_intersection (s : BVH K) (R : Ray K) (list : List Nat) (tmax : K) :
    Except Fault (List Nat) :=
  let dirinv : Vec3 (Dbl K) :=
    ⟨Dbl.recip R.direction.x, Dbl.recip R.direction.y, Dbl.recip R.direction.z⟩
  match ray_intersection_recursive s.boxlist R dirinv tmax 1 0 s.n_corners list with
  | .error f => .error f
  | .ok list1 => ray_intersection_loop s.new2old list1.length 0 list1

end RayQuery

/-! ## Construction -/

/-- Modelled from the spec: the selection procedure that partitions a range around its median
position (in the manner of `std::nth_element`). `run key nth l` reorders `l`; afterwards every
element before position `nth` has a key no larger than every element from `nth` on. Ties and
the order inside the two parts are up to the procedure. -/
structure Selection (K : Type) [LinearOrderedField K] where
  run : (Nat → K) → Nat → List Nat → List Nat
  perm : ∀ key nth l, (run key nth l).Perm l
  partitions : ∀ key nth l i j, i < nth → nth ≤ j → j < (run key nth l).length →
    key ((run key nth l).getD i 0) ≤ key ((run key nth l).getD j 0)

section Construction

variable {K : Type} [LinearOrderedField K]

/-- Modelled from the spec: the union of two boxes, used by the builder whose body is not in
the sources: minimum of the minima, maximum of the maxima, axis by axis. -/
def Box.union (a b : Box K) : Box K :=
  { lo := ⟨min a.lo.x b.lo.x, min a.lo.y b.lo.y, min a.lo.z b.lo.z⟩
    hi := ⟨max a.hi.x b.hi.x, max a.hi.y b.hi.y, max a.hi.z b.hi.z⟩ }

/-- The box a `std::vector` holds in the slots added by `resize`: both corners zero. Slots
that are not nodes of the tree are never read. -/
def Box.zero : Box K := ⟨Vec3.zero, Vec3.zero⟩

/-- Modelled from the spec: the split axis of the builder, the axis of greatest extent of a
box (the first one among equals). -/
def split_axis (bx : Box K) : Nat :=
  let ex := bx.hi.x - bx.lo.x
  let ey := bx.hi.y - bx.lo.y
  let ez := bx.hi.z - bx.lo.z
  if ey ≤ ex ∧ ez ≤ ex then 0 else if ez ≤ ey then 1 else 2

/-- Modelled from the spec: the key of the builder's selection, the coordinate of the centroid
of primitive `p`'s box along `axis`. The builder has read the boxes of the range before it
compares them, so the fall-back box of `getD` is never used. -/
def centroid_key (cornerlist : List (Box K)) (axis : Nat) (p : Nat) : K :=
  let bx := cornerlist.getD p Box.zero
  (bx.lo.coord axis + bx.hi.coord axis) / 2

/-- Modelled from the spec: the builder's union box of a range, here of the primitives at the
positions `b, b + 1, ..., b + k - 1`, each box read as `cornerlist[new2old[position]]`,
joined to `acc`. -/
def range_union (cornerlist : List (Box K)) (new2old : List Nat) : Nat → Nat → Box K →
    Except Fault (Box K)
  | 0, _, acc => .ok acc
  | k + 1, b, acc =>
    match new2old[b]? with
    | none => .error .out_of_range
    | some p =>
      match cornerlist[p]? with
      | none => .error .out_of_range
      | some bx => range_union cornerlist new2old k (b + 1) (acc.union bx)

/-- Modelled from the spec: `BVH::max_node_index`, declared in the header without a body: the
highest node index below node `node_index` over `[b, e)`, by the midpoint rule of the builder.
On an empty range the recursion never reaches a leaf. -/
def max_node_index (node_index b e : Nat) : Except Fault Nat :=
  if e ≤ b then .error .no_return
  else if b + 1 = e then .ok node_index
  else
    match max_node_index (2 * node_index) b ((b + e) / 2) with
    | .error f => .error f
    | .ok l =>
      match max_node_index (2 * node_index + 1) ((b + e) / 2) e with
      | .error f => .error f
      | .ok r => .ok (max l r)
termination_by e - b
decreasing_by
  · omega
  · omega

/-- Modelled from the spec: `BVH::init_boxes_recursive`, declared in the header without a body.
A range of one element makes node `node_index` a leaf holding that primitive's box. Otherwise
the union box of the range gives the split axis, the range of the permutation is partitioned
in place around `m = (b + e) / 2` by centroid coordinate, the two halves are built at the nodes
`2 * node_index` and `2 * node_index + 1`, and the node's box is the union of its children's
boxes. -/
def init_boxes_recursive (S : Selection K) (cornerlist : List (Box K))
    (node_index b e : Nat) (s : BVH K) : Except Fault (BVH K) :=
  if e ≤ b then .error .no_return
  else if b + 1 = e then
    match s.new2old[b]? with
    | none => .error .out_of_range
    | some p =>
      match cornerlist[p]? with
      | none => .error .out_of_range
      | some bx =>
        if node_index < s.boxlist.length then
          .ok { s with boxlist := s.boxlist.set node_index bx }
        else .error .out_of_range
  else
    match s.new2old[b]? with
    | none => .error .out_of_range
    | some p0 =>
      match cornerlist[p0]? with
      | none => .error .out_of_range
      | some bx0 =>
        match range_union cornerlist s.new2old (e - (b + 1)) (b + 1) bx0 with
        | .error f => .error f
        | .ok ub =>
          let axis := split_axis ub
          let m := (b + e) / 2
          let seg := (s.new2old.drop b).take (e - b)
          let s1 : BVH K :=
            { s with new2old := s.new2old.take b
                ++ S.run (centroid_key cornerlist axis) (m - b) seg ++ s.new2old.drop e }
          match init_boxes_recursive S cornerlist (2 * node_index) b m s1 with
          | .error f => .error f
          | .ok s2 =>
            match init_boxes_recursive S cornerlist (2 * node_index + 1) m e s2 with
            | .error f => .error f
            | .ok s3 =>
              match s3.boxlist[2 * node_index]?, s3.boxlist[2 * node_index + 1]? with
              | some l, some r =>
                if node_index < s3.boxlist.length then
                  .ok { s3 with boxlist := s3.boxlist.set node_index (l.union r) }
                else .error .out_of_range
              | _, _ => .error .out_of_range
termination_by e - b
decreasing_by
  · omega
  · omega

/-- Modelled from the spec: the sizing of the node array in `init`, the call
`boxlist.resize(k)`: cut to `k` boxes or padded with zero boxes. -/
def boxlist_resize (boxlist : List (Box K)) (k : Nat) : List (Box K) :=
  boxlist.take k ++ List.replicate (k - boxlist.length) Box.zero

/-- Modelled from the spec: `BVH::init` on a list of boxes, declared in the header without a
body. The count is recorded, the permutation starts as the identity, the node array is sized
to `max_node_index(1, 0, count) + 1`, and the tree is built from node `1` over `[0, count)`. -/
def BVH.init (S : Selection K) (s : BVH K) (cornerlist : List (Box K)) :
    Except Fault (BVH K) :=
  match max_node_index 1 0 cornerlist.length with
  | .error f => .error f
  | .ok k =>
    init_boxes_recursive S cornerlist 1 0 cornerlist.length
      { boxlist := boxlist_resize s.boxlist (k + 1)
        new2old := List.range cornerlist.length
        n_corners := cornerlist.length }

/-- Modelled from the spec: the box of one face in the geometry adapter, whose body is not in
the sources: componentwise minimum and maximum of the three vertices, moved outwards by `tol`
on every axis. -/
def face_box (a b c : Vec3 K) (tol : K) : Box K :=
  { lo := ⟨min (min a.x b.x) c.x - tol, min (min a.y b.y) c.y - tol, min (min a.z b.z) c.z - tol⟩
    hi := ⟨max (max a.x b.x) c.x + tol, max (max a.y b.y) c.y + tol, max (max a.z b.z) c.z + tol⟩ }

/-- Modelled from the spec: the vertex a face refers to in the geometry adapter, the row
`V.row(i)` for an `int` index `i`. -/
def vertex_at (V : List (Vec3 K)) (i : Int) : Except Fault (Vec3 K) :=
  if i < 0 then .error .out_of_range
  else
    match V[i.toNat]? with
    | none => .error .out_of_range
    | some v => .ok v

/-- Modelled from the spec: the geometry adapter's boxes of all faces `F` over the vertices
`V`, in face order. -/
def face_boxes (V : List (Vec3 K)) (tol : K) : List (Int × Int × Int) →
    Except Fault (List (Box K))
  | [] => .ok []
  | (i, j, k) :: F =>
    match vertex_at V i, vertex_at V j, vertex_at V k with
    | .ok a, .ok b, .ok c =>
      match face_boxes V tol F with
      | .error f => .error f
      | .ok rest => .ok (face_box a b c tol :: rest)
    | _, _, _ => .error .out_of_range

/-- Modelled from the spec: `BVH::init` on a mesh, declared in the header without a body: one
inflated box per face, handed to the construction from boxes. -/
def BVH.init_mesh (S : Selection K) (s : BVH K) (V : List (Vec3 K))
    (F : List (Int × Int × Int)) (tol : K) : Except Fault (BVH K) :=
  match face_boxes V tol F with
  | .error f => .error f
  | .ok cornerlist => BVH.init S s cornerlist

/-- A selection procedure to run the construction with: sort the range completely by key
(insertion sort), which partitions it around every position. -/
def sort_selection : Selection K where
  run key _ l := l.insertionSort (fun a b => key a ≤ key b)
  perm key _ l := List.perm_insertionSort _ l
  partitions key nth l i j hi hj hjl := by
    have hs : (l.insertionSort (fun a b => key a ≤ key b)).Sorted (fun a b => key a ≤ key b) :=
      @List.sorted_insertionSort _ (fun a b => key a ≤ key b) _
        ⟨fun a b => le_total (key a) (key b)⟩ ⟨fun a b c h1 h2 => le_trans h1 h2⟩ l
    have hij : i < j := lt_of_lt_of_le hi hj
    rw [List.getD_eq_getElem _ _ (lt_trans hij hjl), List.getD_eq_getElem _ _ hjl]
    exact (List.pairwise_iff_getElem.mp hs) i j (lt_trans hij hjl) hjl hij

end Construction

/-! ## Quantities named by the specification -/

section SpecQuantities

variable {K : Type} [LinearOrderedField K]

/-- The face normal `N = (B - A) x (C - A)` of the specification. -/
def tri_normal (A B C : Vec3 K) : Vec3 K := (B.sub A).cross (C.sub A)

/-- The determinant `det = -(D . N)` of the specification. -/
def tri_det (D A B C : Vec3 K) : K := -(D.dot (tri_normal A B C))

/-- The hit distance `t = ((O - A) . N) / det` of the specification. -/
def tri_t (O D A B C : Vec3 K) : K := (O.sub A).dot (tri_normal A B C) / tri_det D A B C

/-- The weight `u = ((C - A) . ((O - A) x D)) / det` of the specification. -/
def tri_u (O D A B C : Vec3 K) : K := (C.sub A).dot ((O.sub A).cross D) / tri_det D A B C

/-- The weight `v = -((B - A) . ((O - A) x D)) / det` of the specification. -/
def tri_v (O D A B C : Vec3 K) : K := -((B.sub A).dot ((O.sub A).cross D)) / tri_det D A B C

end SpecQuantities

/-! ## Predicates used to state the properties -/

section Predicates

variable {K : Type} [LinearOrderedField K]

/-- The point `p` lies in the closed box `bx`. -/
def Box.Mem (p : Vec3 K) (bx : Box K) : Prop :=
  (bx.lo.x ≤ p.x ∧ p.x ≤ bx.hi.x) ∧ (bx.lo.y ≤ p.y ∧ p.y ≤ bx.hi.y)
    ∧ (bx.lo.z ≤ p.z ∧ p.z ≤ bx.hi.z)

/-- The box has `min <= max` on each axis. -/
def Box.Valid (bx : Box K) : Prop :=
  bx.lo.x ≤ bx.hi.x ∧ bx.lo.y ≤ bx.hi.y ∧ bx.lo.z ≤ bx.hi.z

/-- The box `inner` lies inside the box `outer`, corner by corner. -/
def Box.Within (inner outer : Box K) : Prop :=
  (outer.lo.x ≤ inner.lo.x ∧ inner.hi.x ≤ outer.hi.x)
    ∧ (outer.lo.y ≤ inner.lo.y ∧ inner.hi.y ≤ outer.hi.y)
    ∧ (outer.lo.z ≤ inner.lo.z ∧ inner.hi.z ≤ outer.hi.z)

/-- The query box with corners `q0`, `q1` and the box `bx` overlap on all three axes, as closed
intervals: on each axis the two intervals have a common point. -/
def Box.Overlaps (q0 q1 : Vec3 K) (bx : Box K) : Prop :=
  (∃ x, (q0.x ≤ x ∧ x ≤ q1.x) ∧ (bx.lo.x ≤ x ∧ x ≤ bx.hi.x))
    ∧ (∃ y, (q0.y ≤ y ∧ y ≤ q1.y) ∧ (bx.lo.y ≤ y ∧ y ≤ bx.hi.y))
    ∧ (∃ z, (q0.z ≤ z ∧ z ≤ q1.z) ∧ (bx.lo.z ≤ z ∧ z ≤ bx.hi.z))

/-- The box `bx` contains a point `O + t * D` of the ray with `t` in `[0, tmax]`. -/
def Ray.Hits (R : Ray K) (tmax : K) (bx : Box K) : Prop :=
  ∃ t : K, 0 ≤ t ∧ t ≤ tmax ∧ Box.Mem (R.origin.add (R.direction.smul t)) bx

/-- The box of the primitive placed at position `p`: `cornerlist[new2old[p]]`. -/
def leaf_box (cornerlist : List (Box K)) (new2old : List Nat) (p : Nat) : Option (Box K) :=
  match new2old[p]? with
  | none => none
  | some i => cornerlist[i]?

/-- The node `k` is `n` or lies below `n` in the implicit tree with children `2k`, `2k + 1`. -/
def Below (n k : Nat) : Prop := ∃ j : Nat, k / 2 ^ j = n

/-- The node array holds a tree at node `n` over the positions `[b, e)`: a range of one
position is a leaf holding the box of that position, a longer range splits at `(b + e) / 2`
into the children `2n` and `2n + 1`, and the node holds the union of its children's boxes. -/
inductive IsTree (boxlist : List (Box K)) (leaf : Nat → Option (Box K)) :
    Nat → Nat → Nat → Prop
  | leaf (n b : Nat) (bx : Box K) :
      boxlist[n]? = some bx → leaf b = some bx → IsTree boxlist leaf n b (b + 1)
  | node (n b e : Nat) (l r : Box K) :
      b + 1 < e →
      IsTree boxlist leaf (2 * n) b ((b + e) / 2) →
      IsTree boxlist leaf (2 * n + 1) ((b + e) / 2) e →
      boxlist[2 * n]? = some l → boxlist[2 * n + 1]? = some r →
      boxlist[n]? = some (l.union r) →
      IsTree boxlist leaf n b e

/-- Both traversals in one: the pruned descent from node `n` over `[b, e)` with an arbitrary
test on the node's box. -/
def pruned_search (test : Box K → Bool) (boxlist : List (Box K))
    (n b e : Nat) (list : List Nat) : Except Fault (List Nat) :=
  if h : n < boxlist.length then
    if test boxlist[n] = false then .ok list
    else if b + 1 = e then .ok (list ++ [b])
    else if hn : n = 0 ∧ e ≤ b then .error .no_return
    else
      match pruned_search test boxlist (2 * n) b ((b + e) / 2) list with
      | .error f => .error f
      | .ok l1 => pruned_search test boxlist (2 * n + 1) ((b + e) / 2) e l1
  else .error .out_of_range
termination_by (boxlist.length - n, e - b)
decreasing_by
  · rw [Prod.lex_def]; simp only; omega
  · rw [Prod.lex_def]; simp only; omega

/-- The test applied to the box of the primitive at position `p`. -/
def leaf_test (test : Box K → Bool) (leaf : Nat → Option (Box K)) (p : Nat) : Bool :=
  match leaf p with
  | none => false
  | some bx => test bx

/-- The original index found at position `p`. -/
def old_index (new2old : List Nat) (p : Nat) : Nat := new2old.getD p 0

end Predicates

section BuildPredicates

variable {K : Type} [LinearOrderedField K]

/-- What a call of the builder at node `node_index` over `[b, e)` leaves behind, from the
state `s` to the state `s'`: the sizes are kept, the permutation is rearranged inside `[b, e)`
only, the node array changes at or below the node only, and the nodes form a tree over the
boxes of the positions in `[b, e)`. -/
structure BuildResult (cornerlist : List (Box K)) (node_index b e : Nat) (s s' : BVH K) :
    Prop where
  boxlen : s'.boxlist.length = s.boxlist.length
  count : s'.n_corners = s.n_corners
  perm : s'.new2old.Perm s.new2old
  outside : ∀ p, (p < b ∨ e ≤ p) → s'.new2old[p]? = s.new2old[p]?
  frame : ∀ k, ¬ Below node_index k → s'.boxlist[k]? = s.boxlist[k]?
  tree : IsTree s'.boxlist (leaf_box cornerlist s'.new2old) node_index b e

end BuildPredicates

section IndexPredicate

variable {K : Type} [LinearOrderedField K]

/-- The state `s` is an index built over the boxes `cornerlist`: the count is recorded, the
permutation rearranges `0, ..., count - 1`, and the node array holds a tree from node `1` over
all positions. -/
structure IsIndex (cornerlist : List (Box K)) (s : BVH K) : Prop where
  count : s.n_corners = cornerlist.length
  perm : s.new2old.Perm (List.range cornerlist.length)
  tree : IsTree s.boxlist (leaf_box cornerlist s.new2old) 1 0 cornerlist.length

/-- The positions of an index over `cornerlist` whose box passes `test`, in increasing
order. -/
def passing_positions (test : Box K → Bool) (cornerlist : List (Box K)) (new2old : List Nat) :
    List Nat :=
  (List.range' 0 cornerlist.length).filter (leaf_test test (leaf_box cornerlist new2old))

end IndexPredicate

/-! ## Concrete inputs: the meshes and rays of the tests and scenarios -/

section Scenarios

/-- The vertices of the tetrahedron of `test_tree` and `test_ray_mesh_intersection`. -/
def tetra_V : List (Vec3 ℚ) := [⟨0, 0, 0⟩, ⟨3, 0, 0⟩, ⟨0, 3, 0⟩, ⟨0, 3, 3⟩]

/-- The faces of the tetrahedron of the tests. -/
def tetra_F : List (Int × Int × Int) := [(0, 1, 2), (0, 1, 3), (0, 2, 3), (1, 2, 3)]

/-- The tolerance `1e-10` of the tests. -/
def tetra_tol : ℚ := 1 / 10 ^ 10

/-- The inflated boxes of the four faces of the tetrahedron. -/
def tetra_boxes : List (Box ℚ) :=
  [face_box ⟨0, 0, 0⟩ ⟨3, 0, 0⟩ ⟨0, 3, 0⟩ tetra_tol,
   face_box ⟨0, 0, 0⟩ ⟨3, 0, 0⟩ ⟨0, 3, 3⟩ tetra_tol,
   face_box ⟨0, 0, 0⟩ ⟨0, 3, 0⟩ ⟨0, 3, 3⟩ tetra_tol,
   face_box ⟨3, 0, 0⟩ ⟨0, 3, 0⟩ ⟨0, 3, 3⟩ tetra_tol]

/-- The ray of `test_ray_mesh_intersection`: origin `(1.5, -1, 1.5)`, direction `(0, 1, 0)`. -/
def tetra_ray : Ray ℚ := ⟨⟨3 / 2, -1, 3 / 2⟩, ⟨0, 1, 0⟩⟩

/-- Two unit boxes side by side, a small list of boxes to build an index from. -/
def two_boxes : List (Box ℚ) := [⟨⟨0, 0, 0⟩, ⟨1, 1, 1⟩⟩, ⟨⟨2, 0, 0⟩, ⟨3, 1, 1⟩⟩]

end Scenarios

/-! ## The recursion of the builder, node by node -/

section Recursion

/-- The node indices at which `init_boxes_recursive(node_index, b, e)` stores a box, in the
order of the stores: a range of one position stores at the node itself, a longer range first
runs the two halves at `2 * node_index` and `2 * node_index + 1` and then stores at the node.
An empty range stores nothing. -/
def builder_nodes (node_index b e : Nat) : List Nat :=
  if e ≤ b then []
  else if b + 1 = e then [node_index]
  else
    builder_nodes (2 * node_index) b ((b + e) / 2)
      ++ builder_nodes (2 * node_index + 1) ((b + e) / 2) e ++ [node_index]
termination_by e - b
decreasing_by
  · omega
  · omega

/-- The node indices of the leaves of the recursion that splits `[b, e)` at `m = (b + e) / 2`
into `[b, m)` at node `2 * node_index` and `[m, e)` at node `2 * node_index + 1`, from left to
right. -/
def leaf_nodes (node_index b e : Nat) : List Nat :=
  if e ≤ b then []
  else if b + 1 = e then [node_index]
  else
    leaf_nodes (2 * node_index) b ((b + e) / 2)
      ++ leaf_nodes (2 * node_index + 1) ((b + e) / 2) e
termination_by e - b
decreasing_by
  · omega
  · omega

/-- The node `n` over the range `[b, e)` is one of the calls of the recursion started at node
`n0` over `[b0, e0)`: the start itself, or a half of a call over more than one position. -/
inductive BuiltOver (n0 b0 e0 : Nat) : Nat → Nat → Nat → Prop
  | root : BuiltOver n0 b0 e0 n0 b0 e0
  | left (n b e : Nat) : BuiltOver n0 b0 e0 n b e → b + 1 < e →
      BuiltOver n0 b0 e0 (2 * n) b ((b + e) / 2)
  | right (n b e : Nat) : BuiltOver n0 b0 e0 n b e → b + 1 < e →
      BuiltOver n0 b0 e0 (2 * n + 1) ((b + e) / 2) e

end Recursion

section Unions

variable {K : Type} [LinearOrderedField K]

/-- The componentwise union of a list of boxes, minimum of the minima and maximum of the
maxima on every axis; a list without boxes has none. -/
def Box.union_all (l : List (Box K)) : Option (Box K) :=
  l.foldl (fun acc bx =>
    match acc with
    | none => some bx
    | some a => some (a.union bx)) none

/-- The boxes of the primitives placed at the positions `b, ..., e - 1`, in that order. -/
def position_boxes (leaf : Nat → Option (Box K)) (b e : Nat) : List (Box K) :=
  (List.range' b (e - b)).filterMap leaf

end Unions

/-! ## Binary64 arithmetic

The definitions above compute with exact numbers, which is how the specification states the
properties of the ray-triangle predicate. What the compiled function does on `double`s (every
operation rounded to the nearest binary64 number, ties to even; two zeros; infinities; NaN) is
the subject of the second embedding below. `Eigen`'s `-`, `cross` and `dot` are taken
componentwise with their textbook formulas, the sum of a `dot` from left to right, without
fused multiply-add. -/

/-- A `double` (IEEE 754 binary64). `fin s m e` is the number `(-1)^s * m * 2^e`, where `s` is
the sign bit, so `fin false 0 e` is `+0.0` and `fin true 0 e` is `-0.0`; `inf s` is the
infinity of sign `s`. A `double` has `m < 2^53` and `-1074 <= e <= 971` (`F64.IsDouble`); the
same number may be written with several pairs `m`, `e`, and the operations depend only on the
number and the sign. -/
inductive F64 where
  | fin (s : Bool) (m : Nat) (e : Int)
  | inf (s : Bool)
  | nan
deriving DecidableEq

namespace F64

/-- The number is a `double`: a mantissa of at most 53 bits and an exponent in range. -/
def IsDouble : F64 → Prop
  | .fin _ m e => m < 2 ^ 53 ∧ -1074 ≤ e ∧ e ≤ 971
  | _ => True

/-- The number is `+0.0` or `-0.0`. -/
def IsZero : F64 → Prop
  | .fin _ m _ => m = 0
  | _ => False

/-- The number is an infinity or NaN. -/
def NotFinite : F64 → Prop
  | .fin _ _ _ => False
  | _ => True

/-- The exact value of a finite `double` (and `0` for the infinities and NaN). -/
def val : F64 → ℚ
  | .fin s m e => (if s then -1 else 1) * (m : ℚ) * 2 ^ e
  | _ => 0

def bits_aux : Nat → Nat → Nat
  | 0, _ => 0
  | fuel + 1, n => if n = 0 then 0 else bits_aux fuel (n / 2) + 1

/-- The number of binary digits of `n`. -/
def bits (n : Nat) : Nat := bits_aux n n

/-- The `double` nearest to the exact number `(-1)^s * m * 2^e`, ties to the even mantissa:
the result keeps the 53 leading bits (fewer below `2^-1022`, where the unit in the last place
stays `2^-1074`), and a result of `2^1024` or more is the infinity. -/
def round (s : Bool) (m : Nat) (e : Int) : F64 :=
  if m = 0 then .fin s 0 0
  else
    let q : Int := max (e + (bits m : Int) - 53) (-1074)
    let m1 : Nat :=
      if q ≤ e then m * 2 ^ (e - q).toNat
      else
        let d := (q - e).toNat
        let m0 := m / 2 ^ d
        let r := m % 2 ^ d
        let half := 2 ^ (d - 1)
        if half < r ∨ (r = half ∧ m0 % 2 = 1) then m0 + 1 else m0
    if 1024 < q + (bits m1 : Int) then .inf s
    else if m1 = 0 then .fin s 0 0
    else .fin s m1 q

/-- The integer `(-1)^s * m * 2^k`. -/
def scaled (s : Bool) (m k : Nat) : Int :=
  if s then -((m * 2 ^ k : Nat) : Int) else ((m * 2 ^ k : Nat) : Int)

/-- Unary minus: the sign bit is flipped. -/
def neg : F64 → F64
  | .fin s m e => .fin (!s) m e
  | .inf s => .inf (!s)
  | .nan => .nan

/-- The function `fabs`: the sign bit is cleared. -/
def fabs : F64 → F64
  | .fin _ m e => .fin false m e
  | .inf _ => .inf false
  | .nan => .nan

/-- The product `a * b`: the exact product, rounded; `0 * inf` is NaN. -/
def mul : F64 → F64 → F64
  | .fin s m e, .fin t n f => round (xor s t) (m * n) (e + f)
  | .fin s m _, .inf t => if m = 0 then .nan else .inf (xor s t)
  | .inf s, .fin t n _ => if n = 0 then .nan else .inf (xor s t)
  | .inf s, .inf t => .inf (xor s t)
  | .nan, _ => .nan
  | _, .nan => .nan

/-- The sum `a + b`: the exact sum, rounded; a sum that is exactly zero is `-0.0` only when
both terms are negative (both are then `-0.0`), and `inf + (-inf)` is NaN. -/
def add : F64 → F64 → F64
  | .fin s m e, .fin t n f =>
    let g := min e f
    let c : Int := scaled s m (e - g).toNat + scaled t n (f - g).toNat
    if c = 0 then .fin (s && t) 0 0
    else round (decide (c < 0)) c.natAbs g
  | .fin _ _ _, .inf t => .inf t
  | .inf s, .fin _ _ _ => .inf s
  | .inf s, .inf t => if s = t then .inf s else .nan
  | .nan, _ => .nan
  | _, .nan => .nan

/-- The difference `a - b`, which is `a + (-b)`. -/
def sub (a b : F64) : F64 := add a (neg b)

/-- The quotient `a / b`, rounded: the quotient of the mantissas is taken to at least 56 bits
and a last bit records whether the division left a remainder. A finite number other than zero
divided by a zero is the infinity whose sign is the exclusive or of the two sign bits; `0 / 0`
and `inf / inf` are NaN. -/
def div : F64 → F64 → F64
  | .fin s m e, .fin t n f =>
    if n = 0 then (if m = 0 then .nan else .inf (xor s t))
    else
      let k := bits n + 55
      let a := m * 2 ^ k
      round (xor s t) (2 * (a / n) + (if a % n = 0 then 0 else 1)) (e - f - (k : Int) - 1)
  | .fin s _ _, .inf t => .fin (xor s t) 0 0
  | .inf s, .fin t _ _ => .inf (xor s t)
  | .inf _, .inf _ => .nan
  | .nan, _ => .nan
  | _, .nan => .nan

/-- The comparison `a <= b`: false as soon as one of the two is NaN; the two zeros are
equal. -/
def le : F64 → F64 → Bool
  | .fin s m e, .fin t n f =>
    let g := min e f
    decide (scaled s m (e - g).toNat ≤ scaled t n (f - g).toNat)
  | .fin _ _ _, .inf t => !t
  | .inf s, .fin _ _ _ => s
  | .inf s, .inf t => s || !t
  | .nan, _ => false
  | _, .nan => false

/-- The comparison `a >= b`. -/
def ge (a b : F64) : Bool := le b a

/-- The literal `0.0`. -/
def zero : F64 := .fin false 0 0

/-- The literal `1.0`. -/
def one : F64 := .fin false 1 0

/-- The literal `1e-20`: the `double` nearest to `10^-20`, which is
`6646139978924579 / 2^119` and lies just below `10^-20`. -/
def det_eps : F64 := .fin false 6646139978924579 (-119)

/-- Every coordinate is a `double`. -/
def IsDoubleVec (a : Vec3 F64) : Prop := IsDouble a.x ∧ IsDouble a.y ∧ IsDouble a.z

/-- Every coordinate is a zero. -/
def IsZeroVec (a : Vec3 F64) : Prop := IsZero a.x ∧ IsZero a.y ∧ IsZero a.z

/-- The exact coordinates of a vector of finite `double`s. -/
def vec (a : Vec3 F64) : Vec3 ℚ := ⟨val a.x, val a.y, val a.z⟩

/-- The difference `a - b` of two `Eigen::Vector3d`. -/
def vsub (a b : Vec3 F64) : Vec3 F64 := ⟨sub a.x b.x, sub a.y b.y, sub a.z b.z⟩

/-- The scalar product `a.dot(b)`. -/
def dot (a b : Vec3 F64) : F64 := add (add (mul a.x b.x) (mul a.y b.y)) (mul a.z b.z)

/-- The vector product `a.cross(b)`. -/
def cross (a b : Vec3 F64) : Vec3 F64 :=
  ⟨sub (mul a.y b.z) (mul a.z b.y), sub (mul a.z b.x) (mul a.x b.z),
    sub (mul a.x b.y) (mul a.y b.x)⟩

/-- The value returned by `ray_triangle_intersection` together with its four outputs. -/
structure TriHit where
  hit : Bool
  t : F64
  u : F64
  v : F64
  N : Vec3 F64

/-- The function `BVH::ray_triangle_intersection` on `double`s: every statement of the body in
order, every operation rounded. -/
def ray_triangle_intersection (O D A B C : Vec3 F64) : TriHit :=
  let E1 := vsub B A
  let E2 := vsub C A
  let N := cross E1 E2
  let det := neg (dot D N)
  let invdet := div one det
  let AO := vsub O A
  let DAO := cross AO D
  let u := mul (dot E2 DAO) invdet
  let v := mul (neg (dot E1 DAO)) invdet
  let t := mul (dot AO N) invdet
  { hit := ge (fabs det) det_eps && ge t zero && ge u zero && ge v zero
      && le (add u v) one
    t := t, u := u, v := v, N := N }

/-- The normal `N = (B - A) x (C - A)` as the function computes it. -/
def tri_normal (A B C : Vec3 F64) : Vec3 F64 := cross (vsub B A) (vsub C A)

/-- The determinant `det = -D . N` as the function computes it. -/
def tri_det (D A B C : Vec3 F64) : F64 := neg (dot D (tri_normal A B C))

/-- The determinant guard `fabs(det) >= 1e-20` fails for `d`: it is NaN, or finite with an
absolute value below the literal. -/
def BelowEps (d : F64) : Prop :=
  d = .nan ∨ ∃ s m e, d = .fin s m e ∧ |val d| < val det_eps

instance decidableIsZero : (a : F64) → Decidable (IsZero a)
  | .fin _ m _ => inferInstanceAs (Decidable (m = 0))
  | .inf _ => isFalse (fun h => h)
  | .nan => isFalse (fun h => h)

instance decidableIsDouble : (a : F64) → Decidable (IsDouble a)
  | .fin _ m e => inferInstanceAs (Decidable (m < 2 ^ 53 ∧ -1074 ≤ e ∧ e ≤ 971))
  | .inf _ => isTrue trivial
  | .nan => isTrue trivial

end F64

/-! ### A triangle of area zero that the compiled function accepts -/

/-- The `double` written `0.1`. -/
def dbl_0_1 : F64 := .fin false 3602879701896397 (-55)

/-- The `double` written `0.2`. -/
def dbl_0_2 : F64 := .fin false 3602879701896397 (-54)

/-- The `double` written `0.3`. -/
def dbl_0_3 : F64 := .fin false 5404319552844595 (-54)

/-- The `double` written `0.4`. -/
def dbl_0_4 : F64 := .fin false 3602879701896397 (-53)

/-- The `double` written `0.7`. -/
def dbl_0_7 : F64 := .fin false 3152519739159347 (-52)

/-- Vertex `A = (0.1, 0.1, 0)`. -/
def sliver_A : Vec3 F64 := ⟨dbl_0_1, dbl_0_1, F64.zero⟩

/-- Vertex `B = (0.3, 0.2, 0)`. -/
def sliver_B : Vec3 F64 := ⟨dbl_0_3, dbl_0_2, F64.zero⟩

/-- Vertex `C = (0.7, 0.4, 0)`: as `double`s, `C = A + 3 * (B - A)` exactly. -/
def sliver_C : Vec3 F64 := ⟨dbl_0_7, dbl_0_4, F64.zero⟩

/-- Origin `O = (0.1, 0.1, 1)`, straight above the vertex `A`. -/
def sliver_O : Vec3 F64 := ⟨dbl_0_1, dbl_0_1, F64.one⟩

/-- Direction `D = (0, 0, -1)`. -/
def sliver_D : Vec3 F64 := ⟨F64.zero, F64.zero, F64.neg F64.one⟩

/-! ### Three vertices on a line whose computed normal is zero -/

/-- Vertex `A = (0, 0, 0)`. -/
def line_A : Vec3 F64 := ⟨F64.zero, F64.zero, F64.zero⟩

/-- Vertex `B = (1, 1, 1)`. -/
def line_B : Vec3 F64 := ⟨F64.one, F64.one, F64.one⟩

/-- Vertex `C = (2, 2, 2)`. -/
def line_C : Vec3 F64 := ⟨.fin false 2 0, .fin false 2 0, .fin false 2 0⟩

/-- Origin `O = (0, 0, 1)`. -/
def line_O : Vec3 F64 := ⟨F64.zero, F64.zero, F64.one⟩

/-- Direction `D = (0, 0, -1)`. -/
def line_D : Vec3 F64 := ⟨F64.zero, F64.zero, F64.neg F64.one⟩

/-! # Theorems -/

theorem size_t_of_int_neg_one : size_t_of_int (-1) = 2 ^ 64 - 1 := by decide

section DoubleLemmas

variable {K : Type} [LinearOrderedField K]

@[simp] theorem Dbl.mul_fin_fin (a b : K) : Dbl.mul (.fin a) (.fin b) = .fin (a * b) := rfl

@[simp] theorem Dbl.add_fin_fin (a b : K) : Dbl.add (.fin a) (.fin b) = .fin (a + b) := rfl

@[simp] theorem Dbl.le_fin_fin (a b : K) : Dbl.le (.fin a) (.fin b) = decide (a ≤ b) := rfl

@[simp] theorem Dbl.lt_fin_fin (a b : K) : Dbl.lt (.fin a) (.fin b) = decide (a < b) := rfl

theorem Dbl.recip_of_ne_zero {d : K} (h : d ≠ 0) : Dbl.recip d = .fin (1 / d) := by
  simp [Dbl.recip, h]

theorem Dbl.recip_zero : Dbl.recip (0 : K) = .pinf := by
  simp [Dbl.recip]

theorem det_eps_pos : (0 : K) < det_eps := by
  unfold det_eps; positivity

end DoubleLemmas

section TriangleTheorems

variable {K : Type} [LinearOrderedField K]

/-- When the determinant is not zero the outputs are the finite values of the specification. -/
theorem ray_triangle_outputs (O D A B C : Vec3 K) (h : tri_det D A B C ≠ 0) :
    (ray_triangle_intersection O D A B C).t = .fin (tri_t O D A B C)
    ∧ (ray_triangle_intersection O D A B C).u = .fin (tri_u O D A B C)
    ∧ (ray_triangle_intersection O D A B C).v = .fin (tri_v O D A B C) := by
  have h' : -(D.dot ((B.sub A).cross (C.sub A))) ≠ 0 := h
  simp only [ray_triangle_intersection, Dbl.recip_of_ne_zero h', Dbl.mul_fin_fin]
  refine ⟨?_, ?_, ?_⟩
  · simp only [tri_t, tri_det, tri_normal, mul_one_div]
  · simp only [tri_u, tri_det, tri_normal, mul_one_div]
  · simp only [tri_v, tri_det, tri_normal, mul_one_div]

/-- The value returned, in terms of the quantities of the specification. -/
theorem ray_triangle_hit_iff (O D A B C : Vec3 K) :
    (ray_triangle_intersection O D A B C).hit = true ↔
      (det_eps ≤ |tri_det D A B C| ∧ 0 ≤ tri_t O D A B C ∧ 0 ≤ tri_u O D A B C
        ∧ 0 ≤ tri_v O D A B C ∧ tri_u O D A B C + tri_v O D A B C ≤ 1) := by
  by_cases h : tri_det D A B C = 0
  · have h' : -(D.dot ((B.sub A).cross (C.sub A))) = 0 := h
    have hpos : ¬ (det_eps : K) ≤ 0 := not_le.mpr det_eps_pos
    simp [ray_triangle_intersection, h', h, hpos]
  · obtain ⟨ht, hu, hv⟩ := ray_triangle_outputs O D A B C h
    have hhit : (ray_triangle_intersection O D A B C).hit =
        (decide (det_eps ≤ |tri_det D A B C|)
          && Dbl.le (.fin 0) (ray_triangle_intersection O D A B C).t
          && Dbl.le (.fin 0) (ray_triangle_intersection O D A B C).u
          && Dbl.le (.fin 0) (ray_triangle_intersection O D A B C).v
          && Dbl.le (Dbl.add (ray_triangle_intersection O D A B C).u
              (ray_triangle_intersection O D A B C).v) (.fin 1)) := rfl
    rw [hhit, ht, hu, hv]
    simp [and_assoc]

theorem plane_point_coordinate (d o a b c dd tn un vn : K) (hd : d ≠ 0)
    (hpoly : (o - a) * d + dd * tn = (b - a) * un + (c - a) * vn) :
    o + tn / d * dd = (1 - un / d - vn / d) * a + un / d * b + vn / d * c := by
  field_simp
  linear_combination hpoly

/-- The point of the ray at the computed distance is the point of the triangle's plane with the
computed weights. -/
theorem ray_triangle_point (O D A B C : Vec3 K) (h : tri_det D A B C ≠ 0) :
    O.add (D.smul (tri_t O D A B C)) =
      ((A.smul (1 - tri_u O D A B C - tri_v O D A B C)).add
        (B.smul (tri_u O D A B C))).add (C.smul (tri_v O D A B C)) := by
  simp only [Vec3.add, Vec3.smul, Vec3.mk.injEq]
  refine ⟨?_, ?_, ?_⟩
  · refine plane_point_coordinate _ _ _ _ _ _ _ _ _ h ?_
    simp only [tri_det, tri_normal, Vec3.sub, Vec3.cross, Vec3.dot]; ring
  · refine plane_point_coordinate _ _ _ _ _ _ _ _ _ h ?_
    simp only [tri_det, tri_normal, Vec3.sub, Vec3.cross, Vec3.dot]; ring
  · refine plane_point_coordinate _ _ _ _ _ _ _ _ _ h ?_
    simp only [tri_det, tri_normal, Vec3.sub, Vec3.cross, Vec3.dot]; ring

end TriangleTheorems

section TraversalLemmas

variable {K : Type} [LinearOrderedField K]

theorem box_intersects_box_eq (boxlist : List (Box K)) (bbd0 bbd1 : Vec3 K) (n : Nat)
    (h : n < boxlist.length) :
    box_intersects_box boxlist bbd0 bbd1 n = .ok (box_box_overlap bbd0 bbd1 boxlist[n]) := by
  simp [box_intersects_box, List.getElem?_eq_getElem h]

theorem box_intersects_box_out_of_range (boxlist : List (Box K)) (bbd0 bbd1 : Vec3 K)
    (n : Nat) (h : boxlist.length ≤ n) :
    box_intersects_box boxlist bbd0 bbd1 n = .error .out_of_range := by
  simp [box_intersects_box, List.getElem?_eq_none h]

/-- The traversal of the box query, unfolded once, with the read of the node's box made
explicit. -/
theorem box_search_recursive_unfold (boxlist : List (Box K)) (bbd0 bbd1 : Vec3 K)
    (n b e : Nat) (list : List Nat) :
    box_search_recursive boxlist bbd0 bbd1 n b e list =
      if h : n < boxlist.length then
        if box_box_overlap bbd0 bbd1 boxlist[n] = false then .ok list
        else if b + 1 = e then .ok (list ++ [b])
        else if n = 0 ∧ e ≤ b then .error .no_return
        else
          match box_search_recursive boxlist bbd0 bbd1 (2 * n) b ((b + e) / 2) list with
          | .error f => .error f
          | .ok l1 => box_search_recursive boxlist bbd0 bbd1 (2 * n + 1) ((b + e) / 2) e l1
      else .error .out_of_range := by
  rw [box_search_recursive]
  by_cases h : n < boxlist.length
  · rw [dif_pos h]
    split
    · next f hf =>
      rw [box_intersects_box_eq _ _ _ _ h] at hf
      cases hf
    · next cut hc =>
      rw [box_intersects_box_eq _ _ _ _ h] at hc
      cases hc
      rfl
  · rw [dif_neg h]
    split
    · next f hf =>
      rw [box_intersects_box_out_of_range _ _ _ _ (by omega)] at hf
      cases hf
      rfl
    · next cut hc =>
      rw [box_intersects_box_out_of_range _ _ _ _ (by omega)] at hc
      cases hc

theorem box_search_eq_pruned (boxlist : List (Box K)) (bbd0 bbd1 : Vec3 K)
    (n b e : Nat) (list : List Nat) :
    box_search_recursive boxlist bbd0 bbd1 n b e list
      = pruned_search (box_box_overlap bbd0 bbd1) boxlist n b e list := by
  induction n, b, e, list using
    pruned_search.induct (box_box_overlap bbd0 bbd1) boxlist
  case case6 h =>
    rw [box_search_recursive_unfold, pruned_search, dif_neg (by omega), dif_neg (by omega)]
  all_goals (rw [box_search_recursive_unfold, pruned_search]; simp_all)

theorem ray_search_eq_pruned (boxlist : List (Box K)) (R : Ray K) (dirinv : Vec3 (Dbl K))
    (tmax : K) (n b e : Nat) (list : List Nat) :
    ray_intersection_recursive boxlist R dirinv tmax n b e list
      = pruned_search (fun bx => ray_box_intersection R dirinv bx tmax) boxlist n b e list := by
  induction n, b, e, list using
    pruned_search.induct (fun bx => ray_box_intersection R dirinv bx tmax) boxlist
  case case6 h =>
    rw [ray_intersection_recursive, pruned_search, dif_neg (by omega), dif_neg (by omega)]
  all_goals (rw [ray_intersection_recursive, pruned_search]; simp_all)

end TraversalLemmas

section TreeLemmas

variable {K : Type} [LinearOrderedField K]

theorem Box.within_refl (a : Box K) : a.Within a := by
  simp [Box.Within]

theorem Box.within_trans {a b c : Box K} (h1 : a.Within b) (h2 : b.Within c) : a.Within c := by
  obtain ⟨⟨a1, a2⟩, ⟨a3, a4⟩, a5, a6⟩ := h1
  obtain ⟨⟨b1, b2⟩, ⟨b3, b4⟩, b5, b6⟩ := h2
  exact ⟨⟨le_trans b1 a1, le_trans a2 b2⟩, ⟨le_trans b3 a3, le_trans a4 b4⟩,
    le_trans b5 a5, le_trans a6 b6⟩

theorem Box.within_union_left (a b : Box K) : a.Within (a.union b) := by
  simp [Box.Within, Box.union]

theorem Box.within_union_right (a b : Box K) : b.Within (a.union b) := by
  simp [Box.Within, Box.union]

theorem IsTree.range_lt {boxlist : List (Box K)} {leaf : Nat → Option (Box K)} {n b e : Nat}
    (h : IsTree boxlist leaf n b e) : b < e := by
  cases h with
  | leaf => omega
  | node => omega

theorem IsTree.root_box {boxlist : List (Box K)} {leaf : Nat → Option (Box K)} {n b e : Nat}
    (h : IsTree boxlist leaf n b e) : ∃ bx, boxlist[n]? = some bx := by
  cases h with
  | leaf _ _ bx h1 _ => exact ⟨bx, h1⟩
  | node _ _ _ l r _ _ _ _ _ h1 => exact ⟨_, h1⟩

/-- Every node's box encloses the box of every primitive in its range. -/
theorem IsTree.leaf_within {boxlist : List (Box K)} {leaf : Nat → Option (Box K)} {n b e : Nat}
    (h : IsTree boxlist leaf n b e) :
    ∀ bx, boxlist[n]? = some bx → ∀ p, b ≤ p → p < e → ∀ lb, leaf p = some lb →
      lb.Within bx := by
  induction h with
  | leaf n b bx h1 h2 =>
    intro bx' hbx p hp1 hp2 lb hlb
    have hp : p = b := by omega
    subst hp
    rw [h1] at hbx; rw [h2] at hlb
    cases hbx; cases hlb
    exact Box.within_refl _
  | node n b e l r hlt _ _ hl hr hn ih1 ih2 =>
    intro bx' hbx p hp1 hp2 lb hlb
    rw [hn] at hbx; cases hbx
    by_cases hpm : p < (b + e) / 2
    · exact Box.within_trans (ih1 l hl p hp1 hpm lb hlb) (Box.within_union_left l r)
    · exact Box.within_trans (ih2 r hr p (by omega) hp2 lb hlb) (Box.within_union_right l r)

theorem range_split (b m e : Nat) (h1 : b ≤ m) (h2 : m ≤ e) :
    List.range' b (e - b) = List.range' b (m - b) ++ List.range' m (e - m) := by
  obtain ⟨k, rfl⟩ := Nat.exists_eq_add_of_le h1
  obtain ⟨j, rfl⟩ := Nat.exists_eq_add_of_le h2
  have e1 : b + k + j - b = j + k := by omega
  have e2 : b + k - b = k := by omega
  have e3 : b + k + j - (b + k) = j := by omega
  rw [e1, e2, e3, List.range'_append_1]

/-- The pruned descent over a tree emits exactly the positions whose own box passes the test,
in increasing order, provided the test passes on every box that encloses a passing box. -/
theorem pruned_search_tree (test : Box K → Bool)
    (hmono : ∀ a b : Box K, a.Within b → test a = true → test b = true)
    {boxlist : List (Box K)} {leaf : Nat → Option (Box K)} {n b e : Nat}
    (h : IsTree boxlist leaf n b e) :
    ∀ list, pruned_search test boxlist n b e list
      = .ok (list ++ (List.range' b (e - b)).filter (leaf_test test leaf)) := by
  induction h with
  | leaf n b bx h1 h2 =>
    intro list
    obtain ⟨hn, hbx⟩ := List.getElem?_eq_some_iff.mp h1
    rw [pruned_search]
    have hr : List.range' b (b + 1 - b) = [b] := by
      have : b + 1 - b = 1 := by omega
      rw [this]; rfl
    by_cases ht : test bx = true
    · simp [hn, hbx, ht, hr, leaf_test, h2]
    · simp [hn, hbx, ht, hr, leaf_test, h2]
  | node n b e l r hlt t1 t2 hl hr hn ih1 ih2 =>
    intro list
    obtain ⟨hnl, hbx⟩ := List.getElem?_eq_some_iff.mp hn
    have hb1 := t1.range_lt
    have hb2 := t2.range_lt
    rw [pruned_search]
    by_cases ht : test (l.union r) = true
    · have hne : ¬ (b + 1 = e) := by omega
      have hg : ¬ (n = 0 ∧ e ≤ b) := by omega
      simp only [hnl, hbx, ht, hne, hg, dite_true, dite_false, if_false, ih1, ih2]
      rw [range_split b ((b + e) / 2) e (by omega) (by omega)]
      simp
    · have hnone : (List.range' b (e - b)).filter (leaf_test test leaf) = [] := by
        rw [List.filter_eq_nil_iff]
        intro p hp
        rw [List.mem_range'_1] at hp
        intro hpt
        apply ht
        unfold leaf_test at hpt
        cases hlp : leaf p with
        | none => simp [hlp] at hpt
        | some lb =>
          simp only [hlp] at hpt
          exact hmono lb _ ((IsTree.node n b e l r hlt t1 t2 hl hr hn).leaf_within _ hn p
            hp.1 (by omega) lb hlp) hpt
      simp [hnl, hbx, ht, hnone]

end TreeLemmas

section NodeLemmas

theorem Below.self (n : Nat) : Below n n := ⟨0, by simp⟩

theorem Below.of_left {n k : Nat} (h : Below (2 * n) k) : Below n k := by
  obtain ⟨j, hj⟩ := h
  refine ⟨j + 1, ?_⟩
  rw [pow_succ, ← Nat.div_div_eq_div_mul, hj]
  omega

theorem Below.of_right {n k : Nat} (h : Below (2 * n + 1) k) : Below n k := by
  obtain ⟨j, hj⟩ := h
  refine ⟨j + 1, ?_⟩
  rw [pow_succ, ← Nat.div_div_eq_div_mul, hj]
  omega

theorem Below.le {n k : Nat} (h : Below n k) : n ≤ k := by
  obtain ⟨j, hj⟩ := h
  rw [← hj]
  exact Nat.div_le_self k (2 ^ j)

theorem Below.not_left_parent {n : Nat} (hn : 1 ≤ n) : ¬ Below (2 * n) n := by
  intro h
  have := h.le
  omega

theorem Below.not_right_parent {n : Nat} : ¬ Below (2 * n + 1) n := by
  intro h
  have := h.le
  omega

theorem Below.not_right_left {n : Nat} : ¬ Below (2 * n + 1) (2 * n) := by
  intro h
  have := h.le
  omega

theorem div_pow_two_succ_le (a d : Nat) : a / 2 ^ (d + 1) ≤ a / 2 := by
  rw [pow_succ, Nat.mul_comm, ← Nat.div_div_eq_div_mul]
  exact Nat.div_le_self _ _

/-- The two subtrees below a node other than `0` share no node. -/
theorem Below.disjoint {n k : Nat} (hn : 1 ≤ n) (h1 : Below (2 * n) k)
    (h2 : Below (2 * n + 1) k) : False := by
  obtain ⟨j1, hj1⟩ := h1
  obtain ⟨j2, hj2⟩ := h2
  rcases Nat.lt_trichotomy j1 j2 with h | h | h
  · obtain ⟨d, rfl⟩ := Nat.exists_eq_add_of_lt h
    have e1 : k / 2 ^ (j1 + d + 1) = (k / 2 ^ j1) / 2 ^ (d + 1) := by
      rw [Nat.div_div_eq_div_mul, ← pow_add]; congr 2
    rw [e1, hj1] at hj2
    have := div_pow_two_succ_le (2 * n) d
    omega
  · subst h; omega
  · obtain ⟨d, rfl⟩ := Nat.exists_eq_add_of_lt h
    have e1 : k / 2 ^ (j2 + d + 1) = (k / 2 ^ j2) / 2 ^ (d + 1) := by
      rw [Nat.div_div_eq_div_mul, ← pow_add]; congr 2
    rw [e1, hj2] at hj1
    have := div_pow_two_succ_le (2 * n + 1) d
    omega

end NodeLemmas

section FrameLemmas

variable {K : Type} [LinearOrderedField K]

/-- A tree is untouched by changes outside its nodes and outside its range of positions. -/
theorem IsTree.frame {boxlist boxlist' : List (Box K)} {leaf leaf' : Nat → Option (Box K)}
    {n b e : Nat} (h : IsTree boxlist leaf n b e)
    (hb : ∀ k, Below n k → boxlist'[k]? = boxlist[k]?)
    (hl : ∀ p, b ≤ p → p < e → leaf' p = leaf p) :
    IsTree boxlist' leaf' n b e := by
  induction h with
  | leaf n b bx h1 h2 =>
    exact IsTree.leaf n b bx (by rw [hb n (Below.self n)]; exact h1)
      (by rw [hl b (le_refl b) (by omega)]; exact h2)
  | node n b e l r hlt t1 t2 h1 h2 h3 ih1 ih2 =>
    have hb1 := t1.range_lt
    have hb2 := t2.range_lt
    refine IsTree.node n b e l r hlt
      (ih1 (fun k hk => hb k hk.of_left) (fun p hp1 hp2 => hl p hp1 (by omega)))
      (ih2 (fun k hk => hb k hk.of_right) (fun p hp1 hp2 => hl p (by omega) hp2))
      ?_ ?_ ?_
    · rw [hb _ (Below.self (2 * n)).of_left]; exact h1
    · rw [hb _ (Below.self (2 * n + 1)).of_right]; exact h2
    · rw [hb _ (Below.self n)]; exact h3

theorem max_node_index_leaf (n b : Nat) : max_node_index n b (b + 1) = .ok n := by
  rw [max_node_index]; simp

theorem max_node_index_node (n b e : Nat) (h : b + 1 < e) :
    max_node_index n b e =
      match max_node_index (2 * n) b ((b + e) / 2) with
      | .error f => .error f
      | .ok l =>
        match max_node_index (2 * n + 1) ((b + e) / 2) e with
        | .error f => .error f
        | .ok r => .ok (max l r) := by
  rw [max_node_index]
  have h1 : ¬ e ≤ b := by omega
  have h2 : ¬ b + 1 = e := by omega
  simp only [h1, h2, if_false]

/-- The sizing function returns on every non-empty range, with a value at least the node. -/
theorem max_node_index_total (n b e : Nat) (h : b < e) :
    ∃ k, max_node_index n b e = .ok k ∧ n ≤ k := by
  generalize hm : e - b = m
  induction m using Nat.strong_induction_on generalizing n b e with
  | _ m ih =>
    by_cases hl : b + 1 = e
    · subst hl
      exact ⟨n, max_node_index_leaf n b, le_refl n⟩
    · have hlt : b + 1 < e := by omega
      obtain ⟨l, hl1, hl2⟩ := ih ((b + e) / 2 - b) (by omega) (2 * n) b ((b + e) / 2)
        (by omega) rfl
      obtain ⟨r, hr1, hr2⟩ := ih (e - (b + e) / 2) (by omega) (2 * n + 1) ((b + e) / 2) e
        (by omega) rfl
      refine ⟨max l r, ?_, ?_⟩
      · rw [max_node_index_node n b e hlt, hl1, hr1]
      · have := le_max_left l r
        omega

theorem max_node_index_children (n b e k : Nat) (h : b + 1 < e)
    (hk : max_node_index n b e = .ok k) :
    ∃ l r, max_node_index (2 * n) b ((b + e) / 2) = .ok l
      ∧ max_node_index (2 * n + 1) ((b + e) / 2) e = .ok r ∧ l ≤ k ∧ r ≤ k := by
  obtain ⟨l, hl1, _⟩ := max_node_index_total (2 * n) b ((b + e) / 2) (by omega)
  obtain ⟨r, hr1, _⟩ := max_node_index_total (2 * n + 1) ((b + e) / 2) e (by omega)
  rw [max_node_index_node n b e h, hl1, hr1] at hk
  cases hk
  exact ⟨l, r, hl1, hr1, le_max_left l r, le_max_right l r⟩

end FrameLemmas

section SpliceLemmas

theorem splice_perm (l mid : List Nat) (b e : Nat) (hbe : b ≤ e)
    (hmid : mid.Perm ((l.drop b).take (e - b))) :
    (l.take b ++ mid ++ l.drop e).Perm l := by
  have h1 : l = l.take b ++ (l.drop b).take (e - b) ++ l.drop e := by
    have h2 : (l.drop b).drop (e - b) = l.drop e := by
      rw [List.drop_drop]; congr 1; omega
    rw [List.append_assoc, ← h2, List.take_append_drop, List.take_append_drop]
  conv_rhs => rw [h1]
  exact ((List.Perm.refl _).append hmid).append (List.Perm.refl _)

theorem splice_length (l mid : List Nat) (b e : Nat) (hbe : b ≤ e) (he : e ≤ l.length)
    (hmid : mid.length = e - b) :
    (l.take b ++ mid ++ l.drop e).length = l.length := by
  simp only [List.length_append, List.length_take, List.length_drop, hmid]
  omega

theorem splice_outside (l mid : List Nat) (b e : Nat) (hbe : b ≤ e) (he : e ≤ l.length)
    (hmid : mid.length = e - b) (p : Nat) (hp : p < b ∨ e ≤ p) :
    (l.take b ++ mid ++ l.drop e)[p]? = l[p]? := by
  rcases hp with hp | hp
  · rw [List.append_assoc, List.getElem?_append_left (by simp; omega),
      List.getElem?_take_of_lt hp]
  · rw [List.getElem?_append_right (by simp [hmid]; omega), List.getElem?_drop]
    congr 1
    simp only [List.length_append, List.length_take, hmid]
    omega

end SpliceLemmas

section BuilderLemmas

variable {K : Type} [LinearOrderedField K]

theorem range_union_ok (cornerlist : List (Box K)) (new2old : List Nat)
    (hvalid : ∀ i ∈ new2old, i < cornerlist.length) :
    ∀ (k b : Nat) (acc : Box K), b + k ≤ new2old.length →
      ∃ ub, range_union cornerlist new2old k b acc = .ok ub := by
  intro k
  induction k with
  | zero => intro b acc _; exact ⟨acc, rfl⟩
  | succ k ih =>
    intro b acc hb
    have hb' : b < new2old.length := by omega
    have h1 : new2old[b]? = some new2old[b] := List.getElem?_eq_getElem hb'
    have hp : new2old[b] < cornerlist.length := hvalid _ (List.getElem_mem hb')
    have h2 : cornerlist[new2old[b]]? = some cornerlist[new2old[b]] :=
      List.getElem?_eq_getElem hp
    obtain ⟨ub, hub⟩ := ih (b + 1) (acc.union cornerlist[new2old[b]]) (by omega)
    refine ⟨ub, ?_⟩
    rw [range_union]
    simp only [h1, h2]
    exact hub

theorem init_boxes_recursive_leaf (S : Selection K) (cornerlist : List (Box K))
    (node b : Nat) (s : BVH K) (hb : b < s.new2old.length)
    (hvalid : ∀ i ∈ s.new2old, i < cornerlist.length)
    (hsize : node < s.boxlist.length) :
    ∃ s', init_boxes_recursive S cornerlist node b (b + 1) s = .ok s'
      ∧ BuildResult cornerlist node b (b + 1) s s' := by
  have h1 : s.new2old[b]? = some s.new2old[b] := List.getElem?_eq_getElem hb
  have hp : s.new2old[b] < cornerlist.length := hvalid _ (List.getElem_mem hb)
  have h2 : cornerlist[s.new2old[b]]? = some cornerlist[s.new2old[b]] :=
    List.getElem?_eq_getElem hp
  refine ⟨{ s with boxlist := s.boxlist.set node cornerlist[s.new2old[b]] }, ?_, ?_⟩
  · rw [init_boxes_recursive]
    have h0 : ¬ (b + 1 ≤ b) := by omega
    simp only [h0, if_false, if_true, h1, h2, hsize]
  · refine ⟨by simp, rfl, List.Perm.refl _, fun _ _ => rfl, ?_, ?_⟩
    · intro k hk
      have hne : node ≠ k := by
        rintro rfl
        exact hk (Below.self _)
      simp [List.getElem?_set_ne hne]
    · refine IsTree.leaf node b cornerlist[s.new2old[b]] ?_ ?_
      · simp [List.getElem?_set_self hsize]
      · simp [leaf_box, h1, h2]

/-- The builder returns on every non-empty range of valid positions whose nodes fit the node
array, and leaves a tree behind. -/
theorem init_boxes_recursive_spec (S : Selection K) (cornerlist : List (Box K))
    (node b e : Nat) (s : BVH K) (hbe : b < e) (he : e ≤ s.new2old.length)
    (hvalid : ∀ i ∈ s.new2old, i < cornerlist.length) (hnode : 1 ≤ node)
    (hsize : ∀ k, max_node_index node b e = .ok k → k < s.boxlist.length) :
    ∃ s', init_boxes_recursive S cornerlist node b e s = .ok s'
      ∧ BuildResult cornerlist node b e s s' := by
  generalize hm : e - b = m
  induction m using Nat.strong_induction_on generalizing node b e s with
  | _ m ih =>
    by_cases hl : b + 1 = e
    · subst hl
      exact init_boxes_recursive_leaf S cornerlist node b s (by omega) hvalid
        (hsize node (max_node_index_leaf node b))
    · have hlt : b + 1 < e := by omega
      obtain ⟨k, hk, hnk⟩ := max_node_index_total node b e hbe
      have hklen := hsize k hk
      obtain ⟨kl, kr, hkl, hkr, hlk, hrk⟩ := max_node_index_children node b e k hlt hk
      have hb : b < s.new2old.length := by omega
      have h1 : s.new2old[b]? = some s.new2old[b] := List.getElem?_eq_getElem hb
      have hp : s.new2old[b] < cornerlist.length := hvalid _ (List.getElem_mem hb)
      have h2 : cornerlist[s.new2old[b]]? = some cornerlist[s.new2old[b]] :=
        List.getElem?_eq_getElem hp
      obtain ⟨ub, hub⟩ := range_union_ok cornerlist s.new2old hvalid (e - (b + 1)) (b + 1)
        cornerlist[s.new2old[b]] (by omega)
      have hmidperm := S.perm (centroid_key cornerlist (split_axis ub)) ((b + e) / 2 - b)
        ((s.new2old.drop b).take (e - b))
      have hmidlen : (S.run (centroid_key cornerlist (split_axis ub)) ((b + e) / 2 - b)
          ((s.new2old.drop b).take (e - b))).length = e - b := by
        rw [hmidperm.length_eq, List.length_take, List.length_drop]; omega
      have hperm1 := splice_perm s.new2old _ b e (by omega) hmidperm
      have hlen1 := splice_length s.new2old _ b e (by omega) he hmidlen
      obtain ⟨s2, hs2, r2⟩ := ih ((b + e) / 2 - b) (by omega) (2 * node) b ((b + e) / 2)
        { s with new2old := (s.new2old.take b
            ++ S.run (centroid_key cornerlist (split_axis ub)) ((b + e) / 2 - b)
              ((s.new2old.drop b).take (e - b)) ++ s.new2old.drop e) }
        (by omega) (by simp only [hlen1]; omega)
        (fun i hi => hvalid i (hperm1.mem_iff.mp hi)) (by omega)
        (fun k' hk' => by rw [hkl] at hk'; cases hk'; show _ < s.boxlist.length; omega) rfl
      have hperm2 : s2.new2old.Perm s.new2old := r2.perm.trans hperm1
      obtain ⟨s3, hs3, r3⟩ := ih (e - (b + e) / 2) (by omega) (2 * node + 1) ((b + e) / 2) e s2
        (by omega) (by rw [hperm2.length_eq]; exact he)
        (fun i hi => hvalid i (hperm2.mem_iff.mp hi)) (by omega)
        (fun k' hk' => by
          rw [hkr] at hk'; cases hk'; rw [r2.boxlen]; show _ < s.boxlist.length; omega) rfl
      obtain ⟨l, hl2⟩ := r2.tree.root_box
      have hl3 : s3.boxlist[2 * node]? = some l := by
        rw [r3.frame _ Below.not_right_left]; exact hl2
      obtain ⟨r, hr3⟩ := r3.tree.root_box
      have hnlen : node < s3.boxlist.length := by
        rw [r3.boxlen, r2.boxlen]; show _ < s.boxlist.length; omega
      refine ⟨{ s3 with boxlist := s3.boxlist.set node (l.union r) }, ?_, ?_⟩
      · rw [init_boxes_recursive]
        have h0 : ¬ (e ≤ b) := by omega
        simp only [h0, hl, if_false, h1, h2, hub, hs2, hs3, hl3, hr3, hnlen, if_true]
      · refine ⟨?_, ?_, ?_, ?_, ?_, ?_⟩
        · simp only [List.length_set]; rw [r3.boxlen, r2.boxlen]
        · show s3.n_corners = s.n_corners
          rw [r3.count, r2.count]
        · exact r3.perm.trans hperm2
        · intro p hp
          show s3.new2old[p]? = s.new2old[p]?
          rw [r3.outside p (by omega), r2.outside p (by omega)]
          exact splice_outside s.new2old _ b e (by omega) he hmidlen p hp
        · intro k' hk'
          have hne : node ≠ k' := by
            rintro rfl
            exact hk' (Below.self _)
          show (s3.boxlist.set node (l.union r))[k']? = s.boxlist[k']?
          rw [List.getElem?_set_ne hne, r3.frame k' (fun hc => hk' hc.of_right),
            r2.frame k' (fun hc => hk' hc.of_left)]
        · have hset : ∀ k', k' ≠ node →
              (s3.boxlist.set node (l.union r))[k']? = s3.boxlist[k']? :=
            fun k' hk' => List.getElem?_set_ne (Ne.symm hk')
          refine IsTree.node node b e l r hlt ?_ ?_ ?_ ?_ ?_
          · refine r2.tree.frame ?_ ?_
            · intro k' hk'
              have hne : k' ≠ node := by
                rintro rfl
                exact Below.not_left_parent hnode hk'
              show (s3.boxlist.set node (l.union r))[k']? = s2.boxlist[k']?
              rw [hset k' hne, r3.frame k' (fun hc => Below.disjoint hnode hk' hc)]
            · intro p hp1 hp2
              show leaf_box cornerlist s3.new2old p = leaf_box cornerlist s2.new2old p
              unfold leaf_box
              rw [r3.outside p (Or.inl hp2)]
          · refine r3.tree.frame ?_ ?_
            · intro k' hk'
              have hne : k' ≠ node := by
                rintro rfl
                exact Below.not_right_parent hk'
              exact hset k' hne
            · intro p hp1 hp2
              rfl
          · show (s3.boxlist.set node (l.union r))[2 * node]? = some l
            rw [hset _ (by omega)]; exact hl3
          · show (s3.boxlist.set node (l.union r))[2 * node + 1]? = some r
            rw [hset _ (by omega)]; exact hr3
          · show (s3.boxlist.set node (l.union r))[node]? = some (l.union r)
            exact List.getElem?_set_self hnlen

end BuilderLemmas

section QueryLemmas

variable {K : Type} [LinearOrderedField K]

theorem boxlist_resize_length (boxlist : List (Box K)) (k : Nat) :
    (boxlist_resize boxlist k).length = k := by
  simp only [boxlist_resize, List.length_append, List.length_take, List.length_replicate]
  omega

theorem vector_resize_length (list : List Nat) (k : Nat) :
    (vector_resize list k).length = k := by
  simp only [vector_resize, List.length_append, List.length_take, List.length_replicate]
  omega

/-- Construction from a non-empty list of boxes returns an index over these boxes. -/
theorem init_isIndex (S : Selection K) (s0 : BVH K) (cornerlist : List (Box K))
    (hc : cornerlist ≠ []) :
    ∃ s, BVH.init S s0 cornerlist = .ok s ∧ IsIndex cornerlist s := by
  have hpos : 0 < cornerlist.length := List.length_pos.mpr hc
  obtain ⟨k, hk, _⟩ := max_node_index_total 1 0 cornerlist.length hpos
  obtain ⟨s, hs, r⟩ := init_boxes_recursive_spec S cornerlist 1 0 cornerlist.length
    { boxlist := boxlist_resize s0.boxlist (k + 1)
      new2old := List.range cornerlist.length
      n_corners := cornerlist.length }
    hpos (by simp) (fun i hi => List.mem_range.mp hi) (le_refl 1)
    (fun k' hk' => by
      have hkk : k = k' := by simpa [hk] using hk'
      show k' < (boxlist_resize s0.boxlist (k + 1)).length
      rw [boxlist_resize_length]; omega)
  refine ⟨s, ?_, r.count, r.perm, r.tree⟩
  unfold BVH.init
  simp only [hk]
  exact hs

theorem take_succ_set (l : List Nat) (i a : Nat) (h : i < l.length) :
    (l.set i a).take (i + 1) = l.take i ++ [a] := by
  rw [List.take_succ, List.getElem?_set_self h, List.set_eq_take_append_cons_drop, if_pos h,
    List.take_append_eq_append_take]
  simp [List.length_take, Nat.min_eq_left (le_of_lt h)]

theorem old_index_eq (new2old : List Nat) (p : Nat) (h : p < new2old.length) :
    new2old[p]? = some (old_index new2old p) := by
  simp [old_index, List.getD_eq_getElem?_getD, List.getElem?_eq_getElem h]

/-- The translation loop of the box query writes the original index of every emitted
position. -/
theorem intersect_3D_box_loop_eq (new2old tmp : List Nat)
    (hv : ∀ p ∈ tmp, p < new2old.length) :
    ∀ (k i : Nat) (list : List Nat), i + k = tmp.length → list.length = tmp.length →
      intersect_3D_box_loop new2old tmp k i list
        = .ok (list.take i ++ (tmp.drop i).map (old_index new2old)) := by
  intro k
  induction k with
  | zero =>
    intro i list hi hl
    have h1 : list.take i = list := List.take_of_length_le (by omega)
    have h2 : tmp.drop i = [] := List.drop_of_length_le (by omega)
    simp [intersect_3D_box_loop, h1, h2]
  | succ k ih =>
    intro i list hi hl
    have hit : i < tmp.length := by omega
    have h1 : tmp[i]? = some tmp[i] := List.getElem?_eq_getElem hit
    have h2 := old_index_eq _ _ (hv _ (List.getElem_mem hit))
    have h3 : i < list.length := by omega
    rw [intersect_3D_box_loop]
    simp only [h1, h2, h3, if_true]
    rw [ih (i + 1) _ (by omega) (by simp [hl])]
    rw [take_succ_set _ _ _ h3, List.drop_eq_getElem_cons hit, List.map_cons,
      List.append_assoc]
    rfl

/-- The translation loop of the ray query replaces every entry of the list by its original
index. -/
theorem ray_intersection_loop_eq (new2old : List Nat) :
    ∀ (k i : Nat) (list : List Nat), i + k = list.length →
      (∀ p ∈ list.drop i, p < new2old.length) →
      ray_intersection_loop new2old k i list
        = .ok (list.take i ++ (list.drop i).map (old_index new2old)) := by
  intro k
  induction k with
  | zero =>
    intro i list hi _
    have h1 : list.take i = list := List.take_of_length_le (by omega)
    have h2 : list.drop i = [] := List.drop_of_length_le (by omega)
    simp [ray_intersection_loop, h1, h2]
  | succ k ih =>
    intro i list hi hv
    have hit : i < list.length := by omega
    have h1 : list[i]? = some list[i] := List.getElem?_eq_getElem hit
    have hd := List.drop_eq_getElem_cons hit
    have h2 := old_index_eq _ _ (hv list[i] (by rw [hd]; exact List.mem_cons_self _ _))
    rw [ray_intersection_loop]
    simp only [h1, h2]
    have hds : (list.set i (old_index new2old list[i])).drop (i + 1) = list.drop (i + 1) :=
      List.drop_set_of_lt _ _ (Nat.lt_succ_self i)
    rw [ih (i + 1) _ (by simp; omega) (by
      rw [hds]; intro p hp; exact hv p (by rw [hd]; exact List.mem_cons_of_mem _ hp))]
    rw [hds, take_succ_set _ _ _ hit, hd, List.map_cons, List.append_assoc]
    rfl

end QueryLemmas

section PositionLemmas

variable {K : Type}

theorem passing_positions_lt (test : Box K → Bool) (cornerlist : List (Box K))
    (new2old : List Nat) :
    ∀ p ∈ passing_positions test cornerlist new2old, p < cornerlist.length := by
  intro p hp
  have := (List.mem_range'_1.mp (List.mem_filter.mp hp).1).2
  omega

theorem mem_passing_positions (test : Box K → Bool) (cornerlist : List (Box K))
    (new2old : List Nat) (p : Nat) :
    p ∈ passing_positions test cornerlist new2old ↔
      p < cornerlist.length ∧ leaf_test test (leaf_box cornerlist new2old) p = true := by
  unfold passing_positions
  rw [List.mem_filter, List.mem_range'_1]
  constructor
  · rintro ⟨⟨_, h⟩, h2⟩; exact ⟨by omega, h2⟩
  · rintro ⟨h, h2⟩; exact ⟨⟨Nat.zero_le _, by omega⟩, h2⟩

theorem passing_positions_subset (test1 test2 : Box K → Bool)
    (h : ∀ bx, test1 bx = true → test2 bx = true) (cornerlist : List (Box K))
    (new2old : List Nat) :
    ∀ p ∈ passing_positions test1 cornerlist new2old,
      p ∈ passing_positions test2 cornerlist new2old := by
  intro p hp
  rw [mem_passing_positions] at hp ⊢
  refine ⟨hp.1, ?_⟩
  have ht := hp.2
  unfold leaf_test at ht ⊢
  cases hl : leaf_box cornerlist new2old p with
  | none => rw [hl] at ht; cases ht
  | some bx => rw [hl] at ht; exact h bx ht

end PositionLemmas

section BoxQueryLemmas

variable {K : Type} [LinearOrderedField K]

/-- The overlap test passes exactly when on every axis neither interval ends before the other
begins. -/
theorem box_box_overlap_iff (q0 q1 : Vec3 K) (bx : Box K) :
    box_box_overlap q0 q1 bx = true ↔
      (bx.lo.x ≤ q1.x ∧ q0.x ≤ bx.hi.x) ∧ (bx.lo.y ≤ q1.y ∧ q0.y ≤ bx.hi.y)
        ∧ (bx.lo.z ≤ q1.z ∧ q0.z ≤ bx.hi.z) := by
  have h3 : List.range 3 = [0, 1, 2] := rfl
  simp [box_box_overlap, h3, Vec3.coord, and_assoc]

theorem box_box_overlap_mono (q0 q1 : Vec3 K) (a b : Box K) (hw : a.Within b)
    (h : box_box_overlap q0 q1 a = true) : box_box_overlap q0 q1 b = true := by
  rw [box_box_overlap_iff] at h ⊢
  obtain ⟨⟨a1, a2⟩, ⟨a3, a4⟩, a5, a6⟩ := hw
  obtain ⟨⟨b1, b2⟩, ⟨b3, b4⟩, b5, b6⟩ := h
  exact ⟨⟨le_trans a1 b1, le_trans b2 a2⟩, ⟨le_trans a3 b3, le_trans b4 a4⟩,
    le_trans a5 b5, le_trans b6 a6⟩

/-- Boxes that overlap as closed intervals on all three axes pass the overlap test. -/
theorem box_box_overlap_of_overlaps (q0 q1 : Vec3 K) (bx : Box K)
    (h : Box.Overlaps q0 q1 bx) : box_box_overlap q0 q1 bx = true := by
  rw [box_box_overlap_iff]
  obtain ⟨⟨x, ⟨x1, x2⟩, x3, x4⟩, ⟨y, ⟨y1, y2⟩, y3, y4⟩, z, ⟨z1, z2⟩, z3, z4⟩ := h
  exact ⟨⟨le_trans x3 x2, le_trans x1 x4⟩, ⟨le_trans y3 y2, le_trans y1 y4⟩,
    le_trans z3 z2, le_trans z1 z4⟩

/-- On an index the box query returns, and its result is the list of the original indices at
the positions whose box passes the overlap test. -/
theorem intersect_3D_box_index {cornerlist : List (Box K)} {s : BVH K}
    (h : IsIndex cornerlist s) (q0 q1 : Vec3 K) (list : List Nat) :
    s.intersect_3D_box q0 q1 list
      = .ok ((passing_positions (box_box_overlap q0 q1) cornerlist s.new2old).map
          (old_index s.new2old)) := by
  have htrav := pruned_search_tree (box_box_overlap q0 q1) (box_box_overlap_mono q0 q1)
    h.tree []
  have hlen : s.new2old.length = cornerlist.length := by
    rw [h.perm.length_eq, List.length_range]
  unfold BVH.intersect_3D_box
  rw [box_search_eq_pruned, h.count, htrav]
  simp only [Nat.zero_le, not_true_eq_false, if_false, List.nil_append, Nat.sub_zero]
  have hloop := intersect_3D_box_loop_eq s.new2old
    (passing_positions (box_box_overlap q0 q1) cornerlist s.new2old)
    (fun p hp => by
      rw [hlen]; exact passing_positions_lt _ _ _ p hp)
    (passing_positions (box_box_overlap q0 q1) cornerlist s.new2old).length 0
    (vector_resize list (passing_positions (box_box_overlap q0 q1) cornerlist s.new2old).length)
    (by simp) (vector_resize_length _ _)
  simp only [List.take_zero, List.nil_append, List.drop_zero] at hloop
  exact hloop

end BoxQueryLemmas

section SlabLemmas

variable {K : Type} [LinearOrderedField K]

/-- Taking `std::max` with a further lower bound `x`: the bound stays finite or `+inf`, and a
finite `t` is above it exactly when it is above both, a NaN `x` being ignored. -/
theorem Dbl.max_le_fin (lo x : Dbl K) (t : K) (hlo : lo = .pinf ∨ ∃ a, lo = .fin a) :
    (Dbl.max lo x = .pinf ∨ ∃ a, Dbl.max lo x = .fin a) ∧
    (Dbl.le (Dbl.max lo x) (.fin t) = true ↔
      Dbl.le lo (.fin t) = true ∧ (x = .nan ∨ Dbl.le x (.fin t) = true)) := by
  rcases hlo with rfl | ⟨a, rfl⟩
  · cases x <;> simp [Dbl.max, Dbl.lt, Dbl.le]
  · cases x with
    | fin c =>
      by_cases hac : a < c
      · simp only [Dbl.max, Dbl.lt, hac, decide_True, if_true, Dbl.le, decide_eq_true_eq]
        refine ⟨Or.inr ⟨c, rfl⟩, ?_⟩
        constructor
        · intro h; exact ⟨by linarith, Or.inr h⟩
        · rintro ⟨_, h | h⟩
          · cases h
          · exact h
      · simp only [Dbl.max, Dbl.lt, hac, decide_False, Bool.false_eq_true, if_false, Dbl.le,
          decide_eq_true_eq]
        refine ⟨Or.inr ⟨a, rfl⟩, ?_⟩
        constructor
        · intro h; exact ⟨h, Or.inr (by linarith)⟩
        · rintro ⟨h, _⟩; exact h
    | pinf => simp [Dbl.max, Dbl.lt, Dbl.le]
    | ninf => simp [Dbl.max, Dbl.lt, Dbl.le]
    | nan => simp [Dbl.max, Dbl.lt, Dbl.le]

/-- Taking `std::min` with a further upper bound `x`: the bound stays finite or `-inf`, and a
finite `t` is below it exactly when it is below both, a NaN `x` being ignored. -/
theorem Dbl.fin_le_min (hi x : Dbl K) (t : K) (hhi : hi = .ninf ∨ ∃ b, hi = .fin b) :
    (Dbl.min hi x = .ninf ∨ ∃ b, Dbl.min hi x = .fin b) ∧
    (Dbl.le (.fin t) (Dbl.min hi x) = true ↔
      Dbl.le (.fin t) hi = true ∧ (x = .nan ∨ Dbl.le (.fin t) x = true)) := by
  rcases hhi with rfl | ⟨b, rfl⟩
  · cases x <;> simp [Dbl.min, Dbl.lt, Dbl.le]
  · cases x with
    | fin c =>
      by_cases hcb : c < b
      · simp only [Dbl.min, Dbl.lt, hcb, decide_True, if_true, Dbl.le, decide_eq_true_eq]
        refine ⟨Or.inr ⟨c, rfl⟩, ?_⟩
        constructor
        · intro h; exact ⟨by linarith, Or.inr h⟩
        · rintro ⟨_, h | h⟩
          · cases h
          · exact h
      · simp only [Dbl.min, Dbl.lt, hcb, decide_False, Bool.false_eq_true, if_false, Dbl.le,
          decide_eq_true_eq]
        refine ⟨Or.inr ⟨b, rfl⟩, ?_⟩
        constructor
        · intro h; exact ⟨h, Or.inr (by linarith)⟩
        · rintro ⟨h, _⟩; exact h
    | pinf => simp [Dbl.min, Dbl.lt, Dbl.le]
    | ninf => simp [Dbl.min, Dbl.lt, Dbl.le]
    | nan => simp [Dbl.min, Dbl.lt, Dbl.le]

/-- The entry and exit values of one axis, with the reciprocal `1.0 / d`, bound a finite `t`
exactly when the point `o + t * d` of the ray lies between `lo` and `hi`. -/
theorem slab_entry_exit (o lo hi d t : K) :
    (((if Dbl.lt (Dbl.recip d) (.fin 0) then Dbl.mul (.fin (hi - o)) (Dbl.recip d)
          else Dbl.mul (.fin (lo - o)) (Dbl.recip d)) = .nan
        ∨ Dbl.le (if Dbl.lt (Dbl.recip d) (.fin 0) then Dbl.mul (.fin (hi - o)) (Dbl.recip d)
          else Dbl.mul (.fin (lo - o)) (Dbl.recip d)) (.fin t) = true)
      ∧ ((if Dbl.lt (Dbl.recip d) (.fin 0) then Dbl.mul (.fin (lo - o)) (Dbl.recip d)
          else Dbl.mul (.fin (hi - o)) (Dbl.recip d)) = .nan
        ∨ Dbl.le (.fin t) (if Dbl.lt (Dbl.recip d) (.fin 0)
          then Dbl.mul (.fin (lo - o)) (Dbl.recip d)
          else Dbl.mul (.fin (hi - o)) (Dbl.recip d)) = true))
    ↔ (lo ≤ o + t * d ∧ o + t * d ≤ hi) := by
  rcases lt_trichotomy d 0 with hd | hd | hd
  · have hne : d ≠ 0 := ne_of_lt hd
    have hinv : (1 : K) / d < 0 := one_div_neg.mpr hd
    simp only [Dbl.recip_of_ne_zero hne, Dbl.lt_fin_fin, hinv, decide_True, if_true,
      Dbl.mul_fin_fin, Dbl.le_fin_fin, decide_eq_true_eq, mul_one_div, false_or,
      reduceCtorEq]
    rw [div_le_iff_of_neg hd, le_div_iff_of_neg hd]
    constructor
    · rintro ⟨h1, h2⟩; exact ⟨by linarith, by linarith⟩
    · rintro ⟨h1, h2⟩; exact ⟨by linarith, by linarith⟩
  · subst hd
    simp only [Dbl.recip_zero, Dbl.lt, Bool.false_eq_true, if_false, Dbl.mul, Dbl.inf_times,
      mul_zero, add_zero, if_true]
    rcases lt_trichotomy (lo - o) 0 with h1 | h1 | h1 <;>
    rcases lt_trichotomy (hi - o) 0 with h2 | h2 | h2 <;>
    simp [h1, h2, Dbl.le, not_lt_of_gt, lt_irrefl] <;>
    first
      | (constructor <;> linarith)
      | (intro h; linarith)
  · have hne : d ≠ 0 := ne_of_gt hd
    have hinv : ¬ ((1 : K) / d < 0) := not_lt.mpr (le_of_lt (one_div_pos.mpr hd))
    simp only [Dbl.recip_of_ne_zero hne, Dbl.lt_fin_fin, hinv, decide_False,
      Bool.false_eq_true, if_false, Dbl.mul_fin_fin, Dbl.le_fin_fin, decide_eq_true_eq,
      mul_one_div, false_or, reduceCtorEq]
    rw [div_le_iff₀ hd, le_div_iff₀ hd]
    constructor
    · rintro ⟨h1, h2⟩; exact ⟨by linarith, by linarith⟩
    · rintro ⟨h1, h2⟩; exact ⟨by linarith, by linarith⟩

theorem interval_cut (I : Dbl K × Dbl K) (tin tout : Dbl K) (t : K) (P : Prop)
    (h1 : I.1 = .pinf ∨ ∃ a, I.1 = .fin a) (h2 : I.2 = .ninf ∨ ∃ b, I.2 = .fin b)
    (hee : ((tin = .nan ∨ Dbl.le tin (.fin t) = true)
      ∧ (tout = .nan ∨ Dbl.le (.fin t) tout = true)) ↔ P) :
    (Dbl.max I.1 tin = .pinf ∨ ∃ a, Dbl.max I.1 tin = .fin a)
    ∧ (Dbl.min I.2 tout = .ninf ∨ ∃ b, Dbl.min I.2 tout = .fin b)
    ∧ ((Dbl.le (Dbl.max I.1 tin) (.fin t) = true ∧ Dbl.le (.fin t) (Dbl.min I.2 tout) = true)
        ↔ ((Dbl.le I.1 (.fin t) = true ∧ Dbl.le (.fin t) I.2 = true) ∧ P)) := by
  have hmax := Dbl.max_le_fin I.1 tin t h1
  have hmin := Dbl.fin_le_min I.2 tout t h2
  refine ⟨hmax.1, hmin.1, ?_⟩
  rw [hmax.2, hmin.2, ← hee]
  constructor
  · rintro ⟨⟨a, b⟩, c, d⟩; exact ⟨⟨a, c⟩, b, d⟩
  · rintro ⟨⟨a, c⟩, b, d⟩; exact ⟨⟨a, b⟩, c, d⟩

/-- One axis of the slab test keeps the shape of the running interval and cuts it down to the
parameters `t` whose point `o + t * d` lies between `lo` and `hi`. -/
theorem slab_axis_spec (o lo hi d t : K) (I : Dbl K × Dbl K)
    (h1 : I.1 = .pinf ∨ ∃ a, I.1 = .fin a) (h2 : I.2 = .ninf ∨ ∃ b, I.2 = .fin b) :
    ((slab_axis o lo hi (Dbl.recip d) I).1 = .pinf
        ∨ ∃ a, (slab_axis o lo hi (Dbl.recip d) I).1 = .fin a)
    ∧ ((slab_axis o lo hi (Dbl.recip d) I).2 = .ninf
        ∨ ∃ b, (slab_axis o lo hi (Dbl.recip d) I).2 = .fin b)
    ∧ ((Dbl.le (slab_axis o lo hi (Dbl.recip d) I).1 (.fin t) = true
          ∧ Dbl.le (.fin t) (slab_axis o lo hi (Dbl.recip d) I).2 = true)
        ↔ ((Dbl.le I.1 (.fin t) = true ∧ Dbl.le (.fin t) I.2 = true)
          ∧ (lo ≤ o + t * d ∧ o + t * d ≤ hi))) :=
  interval_cut I _ _ t _ h1 h2 (slab_entry_exit o lo hi d t)

/-- A running interval is not empty exactly when some finite parameter lies in it. -/
theorem interval_nonempty_iff (lo hi : Dbl K) (h1 : lo = .pinf ∨ ∃ a, lo = .fin a)
    (h2 : hi = .ninf ∨ ∃ b, hi = .fin b) :
    Dbl.lt hi lo = false ↔ ∃ t : K, Dbl.le lo (.fin t) = true ∧ Dbl.le (.fin t) hi = true := by
  rcases h1 with rfl | ⟨a, rfl⟩ <;> rcases h2 with rfl | ⟨b, rfl⟩
  · simp [Dbl.lt, Dbl.le]
  · simp [Dbl.lt, Dbl.le]
  · simp [Dbl.lt, Dbl.le]
  · simp only [Dbl.lt_fin_fin, decide_eq_false_iff_not, not_lt, Dbl.le_fin_fin,
      decide_eq_true_eq]
    constructor
    · intro h; exact ⟨a, le_refl a, h⟩
    · rintro ⟨t, h3, h4⟩; exact le_trans h3 h4

theorem three_cuts (I1 I2 I3 : Dbl K × Dbl K) (P0 P1 P2 P3 : K → Prop)
    (g1 : (I1.1 = .pinf ∨ ∃ a, I1.1 = .fin a) ∧ (I1.2 = .ninf ∨ ∃ b, I1.2 = .fin b))
    (g2 : (I2.1 = .pinf ∨ ∃ a, I2.1 = .fin a) ∧ (I2.2 = .ninf ∨ ∃ b, I2.2 = .fin b))
    (g3 : (I3.1 = .pinf ∨ ∃ a, I3.1 = .fin a) ∧ (I3.2 = .ninf ∨ ∃ b, I3.2 = .fin b))
    (c1 : ∀ t : K, (Dbl.le I1.1 (.fin t) = true ∧ Dbl.le (.fin t) I1.2 = true)
      ↔ (P0 t ∧ P1 t))
    (c2 : ∀ t : K, (Dbl.le I2.1 (.fin t) = true ∧ Dbl.le (.fin t) I2.2 = true)
      ↔ ((Dbl.le I1.1 (.fin t) = true ∧ Dbl.le (.fin t) I1.2 = true) ∧ P2 t))
    (c3 : ∀ t : K, (Dbl.le I3.1 (.fin t) = true ∧ Dbl.le (.fin t) I3.2 = true)
      ↔ ((Dbl.le I2.1 (.fin t) = true ∧ Dbl.le (.fin t) I2.2 = true) ∧ P3 t)) :
    (if Dbl.lt I1.2 I1.1 = true then false
      else if Dbl.lt I2.2 I2.1 = true then false
      else if Dbl.lt I3.2 I3.1 = true then false else true) = true
    ↔ ∃ t : K, ((P0 t ∧ P1 t) ∧ P2 t) ∧ P3 t := by
  have n1 := interval_nonempty_iff _ _ g1.1 g1.2
  have n2 := interval_nonempty_iff _ _ g2.1 g2.2
  have n3 := interval_nonempty_iff _ _ g3.1 g3.2
  have hex : (∃ t : K, ((P0 t ∧ P1 t) ∧ P2 t) ∧ P3 t) ↔ Dbl.lt I3.2 I3.1 = false := by
    rw [n3]
    constructor
    · rintro ⟨t, ht⟩
      exact ⟨t, (c3 t).mpr ⟨(c2 t).mpr ⟨(c1 t).mpr ht.1.1, ht.1.2⟩, ht.2⟩⟩
    · rintro ⟨t, ht⟩
      have h2 := (c3 t).mp ht
      have h1 := (c2 t).mp h2.1
      exact ⟨t, ⟨(c1 t).mp h1.1, h1.2⟩, h2.2⟩
  rw [hex]
  by_cases e1 : Dbl.lt I1.2 I1.1 = true
  · rw [if_pos e1]
    simp only [Bool.false_eq_true, false_iff]
    intro h3
    obtain ⟨t, ht⟩ := n3.mp h3
    have := n1.mpr ⟨t, ((c2 t).mp ((c3 t).mp ht).1).1⟩
    rw [this] at e1
    cases e1
  · rw [if_neg e1]
    by_cases e2 : Dbl.lt I2.2 I2.1 = true
    · rw [if_pos e2]
      simp only [Bool.false_eq_true, false_iff]
      intro h3
      obtain ⟨t, ht⟩ := n3.mp h3
      have := n2.mpr ⟨t, ((c3 t).mp ht).1⟩
      rw [this] at e2
      cases e2
    · rw [if_neg e2]
      cases h : Dbl.lt I3.2 I3.1 <;> simp

/-- The slab test with the reciprocals of the direction is exact: it passes exactly when the
box contains a point of the ray with parameter in `[0, tmax]`. -/
theorem ray_box_intersection_iff (R : Ray K) (bx : Box K) (tmax : K) :
    ray_box_intersection R
        ⟨Dbl.recip R.direction.x, Dbl.recip R.direction.y, Dbl.recip R.direction.z⟩ bx tmax
      = true ↔ Ray.Hits R tmax bx := by
  have g1 : ((.fin 0, .fin tmax) : Dbl K × Dbl K).1 = .pinf
      ∨ ∃ a, ((.fin 0, .fin tmax) : Dbl K × Dbl K).1 = .fin a := Or.inr ⟨0, rfl⟩
  have g2 : ((.fin 0, .fin tmax) : Dbl K × Dbl K).2 = .ninf
      ∨ ∃ b, ((.fin 0, .fin tmax) : Dbl K × Dbl K).2 = .fin b := Or.inr ⟨tmax, rfl⟩
  have s1 := fun t => slab_axis_spec R.origin.x bx.lo.x bx.hi.x R.direction.x t _ g1 g2
  have s2 := fun t => slab_axis_spec R.origin.y bx.lo.y bx.hi.y R.direction.y t _
    (s1 0).1 (s1 0).2.1
  have s3 := fun t => slab_axis_spec R.origin.z bx.lo.z bx.hi.z R.direction.z t _
    (s2 0).1 (s2 0).2.1
  have key := three_cuts _ _ _ (fun t : K => 0 ≤ t ∧ t ≤ tmax)
    (fun t : K => bx.lo.x ≤ R.origin.x + t * R.direction.x
      ∧ R.origin.x + t * R.direction.x ≤ bx.hi.x)
    (fun t : K => bx.lo.y ≤ R.origin.y + t * R.direction.y
      ∧ R.origin.y + t * R.direction.y ≤ bx.hi.y)
    (fun t : K => bx.lo.z ≤ R.origin.z + t * R.direction.z
      ∧ R.origin.z + t * R.direction.z ≤ bx.hi.z)
    ⟨(s1 0).1, (s1 0).2.1⟩ ⟨(s2 0).1, (s2 0).2.1⟩ ⟨(s3 0).1, (s3 0).2.1⟩
    (fun t => by
      rw [(s1 t).2.2]
      simp only [Dbl.le_fin_fin, decide_eq_true_eq])
    (fun t => (s2 t).2.2) (fun t => (s3 t).2.2)
  unfold ray_box_intersection
  simp only
  rw [key]
  unfold Ray.Hits Box.Mem
  simp only [Vec3.add, Vec3.smul]
  constructor
  · rintro ⟨t, ⟨⟨⟨h0, h1⟩, hx⟩, hy⟩, hz⟩; exact ⟨t, h0, h1, hx, hy, hz⟩
  · rintro ⟨t, h0, h1, hx, hy, hz⟩; exact ⟨t, ⟨⟨⟨h0, h1⟩, hx⟩, hy⟩, hz⟩

end SlabLemmas

section ResultLemmas

variable {K : Type} [LinearOrderedField K]

theorem Box.mem_of_within {a b : Box K} (hw : a.Within b) (p : Vec3 K) (h : Box.Mem p a) :
    Box.Mem p b := by
  obtain ⟨⟨a1, a2⟩, ⟨a3, a4⟩, a5, a6⟩ := hw
  obtain ⟨⟨b1, b2⟩, ⟨b3, b4⟩, b5, b6⟩ := h
  exact ⟨⟨le_trans a1 b1, le_trans b2 a2⟩, ⟨le_trans a3 b3, le_trans b4 a4⟩,
    le_trans a5 b5, le_trans b6 a6⟩

theorem ray_box_intersection_mono (R : Ray K) (tmax : K) (a b : Box K) (hw : a.Within b)
    (h : ray_box_intersection R
      ⟨Dbl.recip R.direction.x, Dbl.recip R.direction.y, Dbl.recip R.direction.z⟩ a tmax
        = true) :
    ray_box_intersection R
      ⟨Dbl.recip R.direction.x, Dbl.recip R.direction.y, Dbl.recip R.direction.z⟩ b tmax
        = true := by
  rw [ray_box_intersection_iff] at h ⊢
  obtain ⟨t, h0, h1, hm⟩ := h
  exact ⟨t, h0, h1, Box.mem_of_within hw _ hm⟩

theorem ray_loop_on_index {cornerlist : List (Box K)} {s : BVH K}
    (h : IsIndex cornerlist s) (test : Box K → Bool) (list : List Nat)
    (hv : ∀ p ∈ list, p < cornerlist.length) :
    ray_intersection_loop s.new2old
        (list ++ passing_positions test cornerlist s.new2old).length 0
        (list ++ passing_positions test cornerlist s.new2old)
      = .ok ((list ++ passing_positions test cornerlist s.new2old).map
          (old_index s.new2old)) := by
  have hlen : s.new2old.length = cornerlist.length := by
    rw [h.perm.length_eq, List.length_range]
  have hloop := ray_intersection_loop_eq s.new2old
    (list ++ passing_positions test cornerlist s.new2old).length 0
    (list ++ passing_positions test cornerlist s.new2old) (Nat.zero_add _)
    (fun p hp => by
      rw [hlen]
      rw [List.drop_zero] at hp
      rcases List.mem_append.mp hp with hp | hp
      · exact hv p hp
      · exact passing_positions_lt _ _ _ p hp)
  simp only [List.take_zero, List.nil_append, List.drop_zero] at hloop
  exact hloop

/-- On an index the ray query returns whenever the entries handed in are positions of the
index; its result is the list handed in followed by the positions whose box passes the slab
test, every entry replaced by the original index found there. -/
theorem ray_intersection_index {cornerlist : List (Box K)} {s : BVH K}
    (h : IsIndex cornerlist s) (R : Ray K) (list : List Nat) (tmax : K)
    (hv : ∀ p ∈ list, p < cornerlist.length) :
    s.ray_intersection R list tmax
      = .ok ((list ++ passing_positions (fun bx => ray_box_intersection R
          ⟨Dbl.recip R.direction.x, Dbl.recip R.direction.y, Dbl.recip R.direction.z⟩ bx tmax)
          cornerlist s.new2old).map (old_index s.new2old)) := by
  have htrav := pruned_search_tree (fun bx => ray_box_intersection R
      ⟨Dbl.recip R.direction.x, Dbl.recip R.direction.y, Dbl.recip R.direction.z⟩ bx tmax)
    (ray_box_intersection_mono R tmax) h.tree list
  unfold BVH.ray_intersection
  simp only
  rw [ray_search_eq_pruned, h.count, htrav]
  simp only [Nat.sub_zero]
  exact ray_loop_on_index h _ list hv

/-- On an index the translated result of a traversal holds exactly the original indices of
the primitives whose box passes the test. -/
theorem mem_translated {cornerlist : List (Box K)} {s : BVH K} (h : IsIndex cornerlist s)
    (test : Box K → Bool) (i : Nat) :
    i ∈ (passing_positions test cornerlist s.new2old).map (old_index s.new2old) ↔
      ∃ bx, cornerlist[i]? = some bx ∧ test bx = true := by
  have hlen : s.new2old.length = cornerlist.length := by
    rw [h.perm.length_eq, List.length_range]
  rw [List.mem_map]
  constructor
  · rintro ⟨p, hp, rfl⟩
    rw [mem_passing_positions] at hp
    have hidx := old_index_eq s.new2old p (by omega)
    have ht := hp.2
    unfold leaf_test leaf_box at ht
    rw [hidx] at ht
    simp only at ht
    cases hc : cornerlist[old_index s.new2old p]? with
    | none => rw [hc] at ht; cases ht
    | some bx => rw [hc] at ht; exact ⟨bx, rfl, ht⟩
  · rintro ⟨bx, hbx, ht⟩
    obtain ⟨hi, _⟩ := List.getElem?_eq_some_iff.mp hbx
    have hmem : i ∈ s.new2old := h.perm.mem_iff.mpr (List.mem_range.mpr hi)
    obtain ⟨p, hp⟩ := List.mem_iff_getElem?.mp hmem
    obtain ⟨hpl, _⟩ := List.getElem?_eq_some_iff.mp hp
    have hidx := old_index_eq _ _ hpl
    rw [hp] at hidx
    cases hidx
    refine ⟨p, ?_, rfl⟩
    rw [mem_passing_positions]
    refine ⟨by omega, ?_⟩
    unfold leaf_test leaf_box
    rw [hp]
    simp only [hbx, ht]

/-- On an index the translated result of a traversal has no entry twice. -/
theorem nodup_translated {cornerlist : List (Box K)} {s : BVH K} (h : IsIndex cornerlist s)
    (test : Box K → Bool) :
    ((passing_positions test cornerlist s.new2old).map (old_index s.new2old)).Nodup := by
  have hlen : s.new2old.length = cornerlist.length := by
    rw [h.perm.length_eq, List.length_range]
  have hnd : s.new2old.Nodup := h.perm.nodup_iff.mpr (List.nodup_range _)
  refine List.Nodup.map_on ?_ ((List.nodup_range' 0 cornerlist.length).filter _)
  intro p hp q hq hpq
  have hp' := passing_positions_lt _ _ _ p hp
  have hq' := passing_positions_lt _ _ _ q hq
  have e1 := old_index_eq s.new2old p (by omega)
  have e2 := old_index_eq s.new2old q (by omega)
  rw [hpq, ← e2] at e1
  exact List.getElem?_inj (by omega) hnd e1

end ResultLemmas

/-! # The properties of the specification -/

section Claims

variable {K : Type} [LinearOrderedField K]

/-- C2. `ray_triangle_intersection` returns true exactly when `|det| >= 1e-20`, `t >= 0`,
`u >= 0`, `v >= 0` and `u + v <= 1` for the quantities `N`, `det`, `t`, `u`, `v` of the
specification; the output `N` is that normal, and the outputs `t`, `u`, `v` are those values
whenever the quotients exist (`det` is not zero), while for `det = 0` none of them is a finite
number. On the triangle `(0,0,0), (1,0,0), (0,1,0)` the ray from `(2,2,1)` in direction
`(0,0,-1)` is rejected. -/
theorem ray_triangle_intersection_accepts_iff :
    (∀ O D A B C : Vec3 K,
      ((ray_triangle_intersection O D A B C).hit = true ↔
        (det_eps ≤ |tri_det D A B C| ∧ 0 ≤ tri_t O D A B C ∧ 0 ≤ tri_u O D A B C
          ∧ 0 ≤ tri_v O D A B C ∧ tri_u O D A B C + tri_v O D A B C ≤ 1))
      ∧ (ray_triangle_intersection O D A B C).N = tri_normal A B C
      ∧ (tri_det D A B C ≠ 0 →
          (ray_triangle_intersection O D A B C).t = .fin (tri_t O D A B C)
          ∧ (ray_triangle_intersection O D A B C).u = .fin (tri_u O D A B C)
          ∧ (ray_triangle_intersection O D A B C).v = .fin (tri_v O D A B C))
      ∧ (tri_det D A B C = 0 → ∀ x : K,
          (ray_triangle_intersection O D A B C).t ≠ .fin x
          ∧ (ray_triangle_intersection O D A B C).u ≠ .fin x
          ∧ (ray_triangle_intersection O D A B C).v ≠ .fin x))
    ∧ (ray_triangle_intersection (⟨2, 2, 1⟩ : Vec3 ℚ) ⟨0, 0, -1⟩ ⟨0, 0, 0⟩ ⟨1, 0, 0⟩
        ⟨0, 1, 0⟩).hit = false := by
  refine ⟨fun O D A B C =>
    ⟨ray_triangle_hit_iff O D A B C, rfl, ray_triangle_outputs O D A B C, ?_⟩, ?_⟩
  · intro h x
    have h' : -(D.dot ((B.sub A).cross (C.sub A))) = 0 := h
    simp only [ray_triangle_intersection, h', Dbl.recip_zero, Dbl.mul, Dbl.inf_times]
    refine ⟨?_, ?_, ?_⟩ <;> split_ifs <;> simp
  · rw [Bool.eq_false_iff]
    intro h
    have h2 := ((ray_triangle_hit_iff _ _ _ _ _).mp h).2.2.2.2
    norm_num [tri_u, tri_v, tri_det, tri_normal, Vec3.sub, Vec3.cross, Vec3.dot] at h2

/-- C3. Whenever `ray_triangle_intersection` returns true, its outputs `t`, `u`, `v` are finite
values with `O + t * D = (1 - u - v) * A + u * B + v * C`, `t >= 0`, and the three weights
`1 - u - v`, `u`, `v` all in `[0, 1]`. -/
theorem ray_triangle_intersection_sound (O D A B C : Vec3 K)
    (h : (ray_triangle_intersection O D A B C).hit = true) :
    ∃ t u v : K,
      (ray_triangle_intersection O D A B C).t = .fin t
      ∧ (ray_triangle_intersection O D A B C).u = .fin u
      ∧ (ray_triangle_intersection O D A B C).v = .fin v
      ∧ O.add (D.smul t) = ((A.smul (1 - u - v)).add (B.smul u)).add (C.smul v)
      ∧ 0 ≤ t
      ∧ (0 ≤ 1 - u - v ∧ 1 - u - v ≤ 1) ∧ (0 ≤ u ∧ u ≤ 1) ∧ (0 ≤ v ∧ v ≤ 1) := by
  obtain ⟨hdet, ht, hu, hv, huv⟩ := (ray_triangle_hit_iff O D A B C).mp h
  have hne : tri_det D A B C ≠ 0 := by
    intro h0
    rw [h0, abs_zero] at hdet
    exact absurd hdet (not_le.mpr det_eps_pos)
  obtain ⟨e1, e2, e3⟩ := ray_triangle_outputs O D A B C hne
  exact ⟨_, _, _, e1, e2, e3, ray_triangle_point O D A B C hne, ht,
    ⟨by linarith, by linarith⟩, ⟨hu, by linarith⟩, ⟨hv, by linarith⟩⟩

/-- C3, at a concrete input: the ray from `(1/2, 1/4, 2)` in direction `(0, 0, -1)` hits the
triangle `(0,0,0), (1,0,0), (0,1,0)`. -/
theorem ray_triangle_intersection_sound_witness :
    ∃ t u v : ℚ,
      (ray_triangle_intersection (⟨1 / 2, 1 / 4, 2⟩ : Vec3 ℚ) ⟨0, 0, -1⟩ ⟨0, 0, 0⟩ ⟨1, 0, 0⟩
        ⟨0, 1, 0⟩).t = .fin t
      ∧ (ray_triangle_intersection (⟨1 / 2, 1 / 4, 2⟩ : Vec3 ℚ) ⟨0, 0, -1⟩ ⟨0, 0, 0⟩ ⟨1, 0, 0⟩
        ⟨0, 1, 0⟩).u = .fin u
      ∧ (ray_triangle_intersection (⟨1 / 2, 1 / 4, 2⟩ : Vec3 ℚ) ⟨0, 0, -1⟩ ⟨0, 0, 0⟩ ⟨1, 0, 0⟩
        ⟨0, 1, 0⟩).v = .fin v
      ∧ (⟨1 / 2, 1 / 4, 2⟩ : Vec3 ℚ).add ((⟨0, 0, -1⟩ : Vec3 ℚ).smul t)
        = (((⟨0, 0, 0⟩ : Vec3 ℚ).smul (1 - u - v)).add ((⟨1, 0, 0⟩ : Vec3 ℚ).smul u)).add
            ((⟨0, 1, 0⟩ : Vec3 ℚ).smul v)
      ∧ 0 ≤ t
      ∧ (0 ≤ 1 - u - v ∧ 1 - u - v ≤ 1) ∧ (0 ≤ u ∧ u ≤ 1) ∧ (0 ≤ v ∧ v ≤ 1) :=
  ray_triangle_intersection_sound _ _ _ _ _ (by
    rw [ray_triangle_hit_iff]
    norm_num [tri_t, tri_u, tri_v, tri_det, tri_normal, Vec3.sub, Vec3.cross, Vec3.dot,
      det_eps])

/-- C6. On a default-constructed or just cleared index the check of `intersect_3D_box` does
not fail: the unsigned count `2^64 - 1` satisfies `n_corners >= 0`, the traversal starts at
node `1` and reads the empty node array out of range; `ray_intersection`, which has no check,
does the same. Neither call ends in a failed initialisation check. -/
theorem query_before_init_reads_out_of_range (s : BVH K) (q0 q1 : Vec3 K) (R : Ray K)
    (list : List Nat) (tmax : K) :
    (BVH.default : BVH K).n_corners = 2 ^ 64 - 1
    ∧ 0 ≤ (BVH.default : BVH K).n_corners
    ∧ (BVH.default : BVH K).intersect_3D_box q0 q1 list = .error .out_of_range
    ∧ (BVH.default : BVH K).ray_intersection R list tmax = .error .out_of_range
    ∧ s.clear.intersect_3D_box q0 q1 list = .error .out_of_range
    ∧ s.clear.ray_intersection R list tmax = .error .out_of_range := by
  have hb : ∀ e l, box_search_recursive ([] : List (Box K)) q0 q1 1 0 e l
      = .error .out_of_range := by
    intro e l
    rw [box_search_recursive]
    simp [box_intersects_box]
  have hr : ∀ dirinv e l, ray_intersection_recursive ([] : List (Box K)) R dirinv tmax 1 0 e l
      = .error .out_of_range := by
    intro dirinv e l
    rw [ray_intersection_recursive]
    simp
  refine ⟨size_t_of_int_neg_one, Nat.zero_le _, ?_, ?_, ?_, ?_⟩
  · simp [BVH.intersect_3D_box, BVH.default, hb]
  · simp [BVH.ray_intersection, BVH.default, hr]
  · simp [BVH.intersect_3D_box, BVH.clear, hb]
  · simp [BVH.ray_intersection, BVH.clear, hr]

/-- C9. `intersect_2D_box` on the corners `a`, `b` is `intersect_3D_box` on `(a.x, a.y, 0)`,
`(b.x, b.y, 0)`; `intersect_box` on corners of two components is `intersect_2D_box`, and on
corners of three components it is `intersect_3D_box`. -/
theorem intersect_box_dimensions (s : BVH K) (list : List Nat) :
    (∀ a b : Vec2 K,
      s.intersect_2D_box a b list = s.intersect_3D_box ⟨a.x, a.y, 0⟩ ⟨b.x, b.y, 0⟩ list)
    ∧ (∀ a0 a1 b0 b1 : K,
      s.intersect_box [a0, a1] [b0, b1] list = s.intersect_2D_box ⟨a0, a1⟩ ⟨b0, b1⟩ list)
    ∧ (∀ a0 a1 a2 b0 b1 b2 : K,
      s.intersect_box [a0, a1, a2] [b0, b1, b2] list
        = s.intersect_3D_box ⟨a0, a1, a2⟩ ⟨b0, b1, b2⟩ list) :=
  ⟨fun _ _ => rfl, fun _ _ _ _ => rfl, fun _ _ _ _ _ _ => rfl⟩

end Claims

section ClearClaims

variable {K : Type}

/-- C7. For every state `s`, `clear` leaves an empty node array, an empty permutation and the
count `2^64 - 1` (the value of `-1` as a 64-bit `size_t`); the result is the default-constructed
state and is the same whatever `s` was. -/
theorem clear_discards_all_state (s : BVH K) :
    s.clear.boxlist = []
    ∧ s.clear.new2old = []
    ∧ s.clear.n_corners = 2 ^ 64 - 1
    ∧ s.clear.n_corners = size_t_of_int (-1)
    ∧ s.clear = BVH.default
    ∧ ∀ s' : BVH K, s.clear = s'.clear :=
  ⟨rfl, rfl, size_t_of_int_neg_one, rfl, rfl, fun _ => rfl⟩

/-- C8. Clearing twice is the same as clearing once. -/
theorem clear_idempotent (s : BVH K) : s.clear.clear = s.clear := rfl

end ClearClaims

section IndexClaims

variable {K : Type} [LinearOrderedField K]

theorem face_box_valid (a b c : Vec3 K) (tol : K) (htol : 0 ≤ tol) :
    (face_box a b c tol).Valid := by
  refine ⟨?_, ?_, ?_⟩
  · have h1 : min (min a.x b.x) c.x ≤ a.x := le_trans (min_le_left _ _) (min_le_left _ _)
    have h2 : a.x ≤ max (max a.x b.x) c.x := le_trans (le_max_left _ _) (le_max_left _ _)
    show min (min a.x b.x) c.x - tol ≤ max (max a.x b.x) c.x + tol
    linarith
  · have h1 : min (min a.y b.y) c.y ≤ a.y := le_trans (min_le_left _ _) (min_le_left _ _)
    have h2 : a.y ≤ max (max a.y b.y) c.y := le_trans (le_max_left _ _) (le_max_left _ _)
    show min (min a.y b.y) c.y - tol ≤ max (max a.y b.y) c.y + tol
    linarith
  · have h1 : min (min a.z b.z) c.z ≤ a.z := le_trans (min_le_left _ _) (min_le_left _ _)
    have h2 : a.z ≤ max (max a.z b.z) c.z := le_trans (le_max_left _ _) (le_max_left _ _)
    show min (min a.z b.z) c.z - tol ≤ max (max a.z b.z) c.z + tol
    linarith

/-- A query box that holds the first vertex of a face overlaps the inflated box of the
face. -/
theorem face_box_overlaps (a b c q0 q1 : Vec3 K) (tol : K) (htol : 0 ≤ tol)
    (ha : Box.Mem a ⟨q0, q1⟩) : Box.Overlaps q0 q1 (face_box a b c tol) := by
  obtain ⟨⟨x1, x2⟩, ⟨y1, y2⟩, z1, z2⟩ := ha
  refine ⟨⟨a.x, ⟨x1, x2⟩, ?_, ?_⟩, ⟨a.y, ⟨y1, y2⟩, ?_, ?_⟩, ⟨a.z, ⟨z1, z2⟩, ?_, ?_⟩⟩
  · have h1 : min (min a.x b.x) c.x ≤ a.x := le_trans (min_le_left _ _) (min_le_left _ _)
    show min (min a.x b.x) c.x - tol ≤ a.x
    linarith
  · have h2 : a.x ≤ max (max a.x b.x) c.x := le_trans (le_max_left _ _) (le_max_left _ _)
    show a.x ≤ max (max a.x b.x) c.x + tol
    linarith
  · have h1 : min (min a.y b.y) c.y ≤ a.y := le_trans (min_le_left _ _) (min_le_left _ _)
    show min (min a.y b.y) c.y - tol ≤ a.y
    linarith
  · have h2 : a.y ≤ max (max a.y b.y) c.y := le_trans (le_max_left _ _) (le_max_left _ _)
    show a.y ≤ max (max a.y b.y) c.y + tol
    linarith
  · have h1 : min (min a.z b.z) c.z ≤ a.z := le_trans (min_le_left _ _) (min_le_left _ _)
    show min (min a.z b.z) c.z - tol ≤ a.z
    linarith
  · have h2 : a.z ≤ max (max a.z b.z) c.z := le_trans (le_max_left _ _) (le_max_left _ _)
    show a.z ≤ max (max a.z b.z) c.z + tol
    linarith

theorem Box.overlaps_self (bx : Box K) (h : bx.Valid) : Box.Overlaps bx.lo bx.hi bx :=
  ⟨⟨bx.lo.x, ⟨le_refl _, h.1⟩, le_refl _, h.1⟩, ⟨bx.lo.y, ⟨le_refl _, h.2.1⟩, le_refl _, h.2.1⟩,
    ⟨bx.lo.z, ⟨le_refl _, h.2.2⟩, le_refl _, h.2.2⟩⟩

theorem Box.overlaps_of_within (q0 q1 : Vec3 K) (bx : Box K) (h : bx.Valid)
    (hw : bx.Within ⟨q0, q1⟩) : Box.Overlaps q0 q1 bx := by
  obtain ⟨⟨x1, x2⟩, ⟨y1, y2⟩, z1, z2⟩ := hw
  exact ⟨⟨bx.lo.x, ⟨x1, le_trans h.1 x2⟩, le_refl _, h.1⟩,
    ⟨bx.lo.y, ⟨y1, le_trans h.2.1 y2⟩, le_refl _, h.2.1⟩,
    ⟨bx.lo.z, ⟨z1, le_trans h.2.2 z2⟩, le_refl _, h.2.2⟩⟩

/-- When every box passes the test, the translated result lists every primitive once. -/
theorem translated_all {cornerlist : List (Box K)} {s : BVH K} (h : IsIndex cornerlist s)
    (test : Box K → Bool) (hall : ∀ bx ∈ cornerlist, test bx = true) :
    (∀ i, i < cornerlist.length →
        i ∈ (passing_positions test cornerlist s.new2old).map (old_index s.new2old))
    ∧ ((passing_positions test cornerlist s.new2old).map (old_index s.new2old)).length
        = cornerlist.length := by
  have hmem : ∀ i, i ∈ (passing_positions test cornerlist s.new2old).map
      (old_index s.new2old) ↔ i ∈ List.range cornerlist.length := by
    intro i
    rw [mem_translated h, List.mem_range]
    constructor
    · rintro ⟨bx, hbx, _⟩
      exact (List.getElem?_eq_some_iff.mp hbx).1
    · intro hi
      exact ⟨cornerlist[i], List.getElem?_eq_getElem hi, hall _ (List.getElem_mem hi)⟩
  refine ⟨fun i hi => (hmem i).mpr (List.mem_range.mpr hi), ?_⟩
  have hp := (List.perm_ext_iff_of_nodup (nodup_translated h test)
    (List.nodup_range cornerlist.length)).mpr hmem
  rw [hp.length_eq, List.length_range]

/-- Construction from a mesh is construction from the boxes of its faces. -/
theorem init_mesh_eq (S : Selection K) (s0 : BVH K) (V : List (Vec3 K))
    (F : List (Int × Int × Int)) (tol : K) (cornerlist : List (Box K))
    (h : face_boxes V tol F = .ok cornerlist) :
    BVH.init_mesh S s0 V F tol = BVH.init S s0 cornerlist := by
  unfold BVH.init_mesh
  rw [h]

theorem tetra_face_boxes : face_boxes tetra_V tetra_tol tetra_F = .ok tetra_boxes := by
  simp [face_boxes, vertex_at, tetra_V, tetra_F, tetra_boxes]

theorem tetra_tol_nonneg : (0 : ℚ) ≤ tetra_tol := by
  unfold tetra_tol; positivity

/-- C1. After construction from a non-empty list of boxes with `min <= max` on each axis,
every box query returns, `intersect_box` and `intersect_3D_box` return the same list, and
that list holds the original index of every primitive whose box overlaps the query box on all
three axes as closed intervals. In particular the query with a primitive's own box returns that
primitive, and a query box that overlaps every primitive, such as one that covers them all,
returns all `n` primitives, each once. -/
theorem box_query_complete (S : Selection K) (s0 : BVH K) (cornerlist : List (Box K))
    (hne : cornerlist ≠ []) (hvalid : ∀ bx ∈ cornerlist, bx.Valid) :
    ∃ s, BVH.init S s0 cornerlist = .ok s ∧
      ∀ (q0 q1 : Vec3 K) (list : List Nat), ∃ out,
        s.intersect_3D_box q0 q1 list = .ok out
        ∧ s.intersect_box [q0.x, q0.y, q0.z] [q1.x, q1.y, q1.z] list = .ok out
        ∧ (∀ i bx, cornerlist[i]? = some bx → Box.Overlaps q0 q1 bx → i ∈ out)
        ∧ (∀ i bx, cornerlist[i]? = some bx → q0 = bx.lo → q1 = bx.hi → i ∈ out)
        ∧ ((∀ bx ∈ cornerlist, Box.Overlaps q0 q1 bx) →
            (∀ i, i < cornerlist.length → i ∈ out) ∧ out.length = cornerlist.length)
        ∧ ((∀ bx ∈ cornerlist, bx.Within ⟨q0, q1⟩) →
            (∀ i, i < cornerlist.length → i ∈ out) ∧ out.length = cornerlist.length) := by
  obtain ⟨s, hs, hidx⟩ := init_isIndex S s0 cornerlist hne
  refine ⟨s, hs, fun q0 q1 list => ⟨_, intersect_3D_box_index hidx q0 q1 list,
    intersect_3D_box_index hidx q0 q1 list, ?_, ?_, ?_, ?_⟩⟩
  · intro i bx hbx hov
    exact (mem_translated hidx _ i).mpr ⟨bx, hbx, box_box_overlap_of_overlaps q0 q1 bx hov⟩
  · intro i bx hbx h0 h1
    subst h0 h1
    have hv := hvalid bx (List.mem_iff_getElem?.mpr ⟨i, hbx⟩)
    exact (mem_translated hidx _ i).mpr
      ⟨bx, hbx, box_box_overlap_of_overlaps _ _ bx (Box.overlaps_self bx hv)⟩
  · intro hall
    exact translated_all hidx _ (fun bx hbx => box_box_overlap_of_overlaps q0 q1 bx (hall bx hbx))
  · intro hall
    exact translated_all hidx _ (fun bx hbx => box_box_overlap_of_overlaps q0 q1 bx
      (Box.overlaps_of_within q0 q1 bx (hvalid bx hbx) (hall bx hbx)))

/-- C1, at the tetrahedron of `test_tree`: the index built from the four faces with tolerance
`1e-10` answers the query with the bounding box of the vertices by a list of `4` entries. -/
theorem box_query_complete_witness :
    tetra_boxes ≠ [] ∧ (∀ bx ∈ tetra_boxes, bx.Valid) ∧
    ∃ s, BVH.init_mesh sort_selection BVH.default tetra_V tetra_F tetra_tol = .ok s
      ∧ ∃ out, s.intersect_box [0, 0, 0] [3, 3, 3] [] = .ok out ∧ out.length = 4 := by
  have hne : tetra_boxes ≠ [] := by simp [tetra_boxes]
  have hvalid : ∀ bx ∈ tetra_boxes, bx.Valid := by
    intro bx hbx
    simp only [tetra_boxes, List.mem_cons, List.mem_singleton, List.not_mem_nil, or_false]
      at hbx
    rcases hbx with rfl | rfl | rfl | rfl <;> exact face_box_valid _ _ _ _ tetra_tol_nonneg
  obtain ⟨s, hs, hq⟩ := box_query_complete sort_selection BVH.default tetra_boxes hne hvalid
  obtain ⟨out, _, hbox, _, _, hall, _⟩ := hq ⟨0, 0, 0⟩ ⟨3, 3, 3⟩ []
  refine ⟨hne, hvalid, s, ?_, out, hbox, (hall ?_).2⟩
  · rw [init_mesh_eq _ _ _ _ _ _ tetra_face_boxes]; exact hs
  · intro bx hbx
    simp only [tetra_boxes, List.mem_cons, List.mem_singleton, List.not_mem_nil, or_false]
      at hbx
    rcases hbx with rfl | rfl | rfl | rfl <;>
      exact face_box_overlaps _ _ _ _ _ _ tetra_tol_nonneg (by norm_num [Box.Mem])

end IndexClaims

section RayClaims

variable {K : Type} [LinearOrderedField K]

/-- C5. After construction from a non-empty list of boxes the permutation `new2old` is a
rearrangement of `0, ..., n - 1`; for every box query the traversal emits no position twice,
and the list returned by `intersect_3D_box` has no entry twice and holds original primitive
indices below `n` only. -/
theorem box_query_no_duplicates (S : Selection K) (s0 : BVH K) (cornerlist : List (Box K))
    (hne : cornerlist ≠ []) :
    ∃ s, BVH.init S s0 cornerlist = .ok s
      ∧ s.new2old.Perm (List.range cornerlist.length)
      ∧ ∀ (q0 q1 : Vec3 K) (list : List Nat),
        (∃ tmp, box_search_recursive s.boxlist q0 q1 1 0 s.n_corners [] = .ok tmp ∧ tmp.Nodup)
        ∧ ∃ out, s.intersect_3D_box q0 q1 list = .ok out ∧ out.Nodup
          ∧ ∀ i ∈ out, i < cornerlist.length := by
  obtain ⟨s, hs, hidx⟩ := init_isIndex S s0 cornerlist hne
  refine ⟨s, hs, hidx.perm, fun q0 q1 list => ⟨?_, _, intersect_3D_box_index hidx q0 q1 list,
    nodup_translated hidx _, ?_⟩⟩
  · refine ⟨_, ?_, (List.nodup_range' 0 cornerlist.length).filter
      (leaf_test (box_box_overlap q0 q1) (leaf_box cornerlist s.new2old))⟩
    rw [box_search_eq_pruned, hidx.count, pruned_search_tree (box_box_overlap q0 q1)
      (box_box_overlap_mono q0 q1) hidx.tree []]
    simp
  · intro i hi
    obtain ⟨bx, hbx, _⟩ := (mem_translated hidx _ i).mp hi
    exact (List.getElem?_eq_some_iff.mp hbx).1

/-- C5, at a list of two boxes. -/
theorem box_query_no_duplicates_witness :
    ∃ s, BVH.init sort_selection BVH.default two_boxes = .ok s
      ∧ s.new2old.Perm (List.range two_boxes.length)
      ∧ ∀ (q0 q1 : Vec3 ℚ) (list : List Nat),
        (∃ tmp, box_search_recursive s.boxlist q0 q1 1 0 s.n_corners [] = .ok tmp ∧ tmp.Nodup)
        ∧ ∃ out, s.intersect_3D_box q0 q1 list = .ok out ∧ out.Nodup
          ∧ ∀ i ∈ out, i < two_boxes.length :=
  box_query_no_duplicates sort_selection BVH.default two_boxes (by simp [two_boxes])

/-- On an index built from a non-empty list of boxes, a ray query that is handed an empty list
returns exactly the original indices of the primitives whose box contains a point `O + t * D`
with `t` in `[0, tmax]`, each once. -/
theorem ray_query_exact_from_empty_list (S : Selection K) (s0 : BVH K)
    (cornerlist : List (Box K)) (hne : cornerlist ≠ []) :
    ∃ s, BVH.init S s0 cornerlist = .ok s ∧
      ∀ (R : Ray K) (tmax : K), ∃ out,
        s.ray_intersection R [] tmax = .ok out ∧ out.Nodup
        ∧ ∀ i, i ∈ out ↔ ∃ bx, cornerlist[i]? = some bx ∧ Ray.Hits R tmax bx := by
  obtain ⟨s, hs, hidx⟩ := init_isIndex S s0 cornerlist hne
  refine ⟨s, hs, fun R tmax => ⟨_, ray_intersection_index hidx R [] tmax (by simp), ?_, ?_⟩⟩
  · rw [List.nil_append]; exact nodup_translated hidx _
  · intro i
    rw [List.nil_append, mem_translated hidx]
    simp only [ray_box_intersection_iff]

theorem ray_box_intersection_tmax_mono (R : Ray K) (bx : Box K) (t1 t2 : K) (h12 : t1 ≤ t2)
    (h : ray_box_intersection R
      ⟨Dbl.recip R.direction.x, Dbl.recip R.direction.y, Dbl.recip R.direction.z⟩ bx t1
        = true) :
    ray_box_intersection R
      ⟨Dbl.recip R.direction.x, Dbl.recip R.direction.y, Dbl.recip R.direction.z⟩ bx t2
        = true := by
  rw [ray_box_intersection_iff] at h ⊢
  obtain ⟨t, h0, h1, hm⟩ := h
  exact ⟨t, h0, le_trans h1 h12, hm⟩

/-- C10. On an index built from a non-empty list of boxes, for every ray, every list handed in
(of positions of the index) and all bounds `t1 <= t2`, negative ones included, both ray queries return and every index
returned with the bound `t1` is also returned with the bound `t2`; in particular the query with
the default bound `DBL_MAX` returns every index returned with a bound `t1 <= DBL_MAX`. -/
theorem ray_bound_monotone (S : Selection K) (s0 : BVH K) (cornerlist : List (Box K))
    (hne : cornerlist ≠ []) :
    ∃ s, BVH.init S s0 cornerlist = .ok s ∧
      ∀ (R : Ray K) (list : List Nat) (t1 t2 : K), t1 ≤ t2 →
        (∀ p ∈ list, p < cornerlist.length) →
        ∃ out1 out2 outd,
          s.ray_intersection R list t1 = .ok out1
          ∧ s.ray_intersection R list t2 = .ok out2
          ∧ s.ray_intersection R list DBL_MAX = .ok outd
          ∧ (∀ i ∈ out1, i ∈ out2)
          ∧ (t1 ≤ DBL_MAX → ∀ i ∈ out1, i ∈ outd) := by
  obtain ⟨s, hs, hidx⟩ := init_isIndex S s0 cornerlist hne
  refine ⟨s, hs, fun R list t1 t2 h12 hv => ⟨_, _, _, ray_intersection_index hidx R list t1 hv,
    ray_intersection_index hidx R list t2 hv, ray_intersection_index hidx R list DBL_MAX hv,
    ?_, ?_⟩⟩
  · intro i hi
    obtain ⟨p, hp, rfl⟩ := List.mem_map.mp hi
    refine List.mem_map.mpr ⟨p, ?_, rfl⟩
    rcases List.mem_append.mp hp with hp | hp
    · exact List.mem_append_left _ hp
    · exact List.mem_append_right _ (passing_positions_subset _ _
        (fun bx => ray_box_intersection_tmax_mono R bx t1 t2 h12) _ _ p hp)
  · intro hd i hi
    obtain ⟨p, hp, rfl⟩ := List.mem_map.mp hi
    refine List.mem_map.mpr ⟨p, ?_, rfl⟩
    rcases List.mem_append.mp hp with hp | hp
    · exact List.mem_append_left _ hp
    · exact List.mem_append_right _ (passing_positions_subset _ _
        (fun bx => ray_box_intersection_tmax_mono R bx t1 DBL_MAX hd) _ _ p hp)

/-- C10, at a list of two boxes. -/
theorem ray_bound_monotone_witness :
    ∃ s, BVH.init sort_selection BVH.default two_boxes = .ok s ∧
      ∀ (R : Ray ℚ) (list : List Nat) (t1 t2 : ℚ), t1 ≤ t2 →
        (∀ p ∈ list, p < two_boxes.length) →
        ∃ out1 out2 outd,
          s.ray_intersection R list t1 = .ok out1
          ∧ s.ray_intersection R list t2 = .ok out2
          ∧ s.ray_intersection R list DBL_MAX = .ok outd
          ∧ (∀ i ∈ out1, i ∈ out2)
          ∧ (t1 ≤ DBL_MAX → ∀ i ∈ out1, i ∈ outd) :=
  ray_bound_monotone sort_selection BVH.default two_boxes (by simp [two_boxes])

end RayClaims

section TetrahedronRay

theorem tetra_boxes_ne_nil : tetra_boxes ≠ [] := by simp [tetra_boxes]

/-- The ray of the test meets the boxes of the faces `1` and `3` of the tetrahedron and misses
those of the faces `0` and `2`. -/
theorem tetra_ray_hits (i : Nat) (bx : Box ℚ) (h : tetra_boxes[i]? = some bx) :
    Ray.Hits tetra_ray DBL_MAX bx ↔ i = 1 ∨ i = 3 := by
  match i, h with
  | 0, h =>
    simp only [tetra_boxes, List.getElem?_cons_zero, Option.some.injEq] at h
    subst h
    constructor
    · rintro ⟨t, _, _, _, _, hz⟩
      norm_num [face_box, tetra_ray, tetra_tol, Vec3.add, Vec3.smul] at hz
    · intro h; omega
  | 1, h =>
    simp only [tetra_boxes, List.getElem?_cons_succ, List.getElem?_cons_zero,
      Option.some.injEq] at h
    subst h
    constructor
    · intro _; exact Or.inl rfl
    · intro _
      refine ⟨1, by norm_num, by norm_num [DBL_MAX], ?_⟩
      norm_num [Box.Mem, face_box, tetra_ray, tetra_tol, Vec3.add, Vec3.smul]
  | 2, h =>
    simp only [tetra_boxes, List.getElem?_cons_succ, List.getElem?_cons_zero,
      Option.some.injEq] at h
    subst h
    constructor
    · rintro ⟨t, _, _, hx, _, _⟩
      norm_num [face_box, tetra_ray, tetra_tol, Vec3.add, Vec3.smul] at hx
    · intro h; omega
  | 3, h =>
    simp only [tetra_boxes, List.getElem?_cons_succ, List.getElem?_cons_zero,
      Option.some.injEq] at h
    subst h
    constructor
    · intro _; exact Or.inr rfl
    · intro _
      refine ⟨1, by norm_num, by norm_num [DBL_MAX], ?_⟩
      norm_num [Box.Mem, face_box, tetra_ray, tetra_tol, Vec3.add, Vec3.smul]
  | i + 4, h =>
    simp [tetra_boxes] at h

/-- C4. The index built from the tetrahedron of `test_ray_mesh_intersection` (tolerance
`1e-10`), queried with the ray of the test and the default bound: handed an empty list the
query returns `2` faces, but handed a list that still holds the entries `0, 1, 2, 3` it keeps
them, translated like emitted positions: the list returned has `6` entries and contains the
face `0`, whose box the ray does not meet. -/
theorem ray_query_keeps_callers_entries :
    ∃ s out0 out,
      BVH.init_mesh sort_selection BVH.default tetra_V tetra_F tetra_tol = .ok s
      ∧ s.ray_intersection tetra_ray [] DBL_MAX = .ok out0 ∧ out0.length = 2
      ∧ s.ray_intersection tetra_ray [0, 1, 2, 3] DBL_MAX = .ok out ∧ out.length = 6
      ∧ 0 ∈ out
      ∧ ∃ bx, tetra_boxes[0]? = some bx ∧ ¬ Ray.Hits tetra_ray DBL_MAX bx := by
  obtain ⟨s, hs, hidx⟩ := init_isIndex sort_selection BVH.default tetra_boxes tetra_boxes_ne_nil
  have hlen : s.new2old.length = 4 := by
    rw [hidx.perm.length_eq, List.length_range]; rfl
  have h0 := ray_intersection_index hidx tetra_ray [] DBL_MAX (by simp)
  have h4 := ray_intersection_index hidx tetra_ray [0, 1, 2, 3] DBL_MAX (by
    intro p hp
    have : tetra_boxes.length = 4 := rfl
    simp only [List.mem_cons, List.mem_singleton, List.not_mem_nil, or_false] at hp
    omega)
  have hmem : ∀ i, i ∈ (passing_positions (fun bx => ray_box_intersection tetra_ray
      ⟨Dbl.recip tetra_ray.direction.x, Dbl.recip tetra_ray.direction.y,
        Dbl.recip tetra_ray.direction.z⟩ bx DBL_MAX) tetra_boxes s.new2old).map
        (old_index s.new2old) ↔ i ∈ [1, 3] := by
    intro i
    rw [mem_translated hidx]
    simp only [ray_box_intersection_iff, List.mem_cons, List.mem_singleton, List.not_mem_nil,
      or_false]
    constructor
    · rintro ⟨bx, hbx, hh⟩
      exact (tetra_ray_hits i bx hbx).mp hh
    · intro hi
      have hi4 : i < tetra_boxes.length := by
        have : tetra_boxes.length = 4 := rfl
        omega
      exact ⟨tetra_boxes[i], List.getElem?_eq_getElem hi4,
        (tetra_ray_hits i _ (List.getElem?_eq_getElem hi4)).mpr hi⟩
  have hlen2 : ((passing_positions (fun bx => ray_box_intersection tetra_ray
      ⟨Dbl.recip tetra_ray.direction.x, Dbl.recip tetra_ray.direction.y,
        Dbl.recip tetra_ray.direction.z⟩ bx DBL_MAX) tetra_boxes s.new2old).map
        (old_index s.new2old)).length = 2 :=
    ((List.perm_ext_iff_of_nodup (nodup_translated hidx _) (by decide)).mpr hmem).length_eq
  refine ⟨s, _, _, ?_, h0, ?_, h4, ?_, ?_, ?_⟩
  · rw [init_mesh_eq _ _ _ _ _ _ tetra_face_boxes]; exact hs
  · rw [List.nil_append]; exact hlen2
  · rw [List.map_append, List.length_append, hlen2]; rfl
  · have hin : 0 ∈ s.new2old := hidx.perm.mem_iff.mpr (by
      have : tetra_boxes.length = 4 := rfl
      rw [this]; decide)
    obtain ⟨p, hp⟩ := List.mem_iff_getElem?.mp hin
    obtain ⟨hpl, _⟩ := List.getElem?_eq_some_iff.mp hp
    have hidxp := old_index_eq _ _ hpl
    rw [hp] at hidxp
    refine List.mem_map.mpr ⟨p, List.mem_append_left _ ?_, ?_⟩
    · simp only [List.mem_cons, List.mem_singleton, List.not_mem_nil, or_false]
      omega
    · exact (Option.some.inj hidxp).symm
  · refine ⟨tetra_boxes[0], rfl, ?_⟩
    intro hh
    have := (tetra_ray_hits 0 _ rfl).mp hh
    omega

end TetrahedronRay

section TriangleClaims

variable {K : Type} [LinearOrderedField K]

/-- With a determinant other than zero, a point common to the ray and the triangle's plane has
the parameters of the specification: the solution of `O + t * D = A + u * (B - A) + v * (C - A)`
is unique. -/
theorem ray_triangle_unique (O D A B C : Vec3 K) (t u v : K) (hdet : tri_det D A B C ≠ 0)
    (heq : O.add (D.smul t) = (A.add ((B.sub A).smul u)).add ((C.sub A).smul v)) :
    t = tri_t O D A B C ∧ u = tri_u O D A B C ∧ v = tri_v O D A B C := by
  simp only [Vec3.add, Vec3.smul, Vec3.sub, Vec3.mk.injEq] at heq
  obtain ⟨h1, h2, h3⟩ := heq
  have hd : -(D.x * ((B.y - A.y) * (C.z - A.z) - (B.z - A.z) * (C.y - A.y))
      + D.y * ((B.z - A.z) * (C.x - A.x) - (B.x - A.x) * (C.z - A.z))
      + D.z * ((B.x - A.x) * (C.y - A.y) - (B.y - A.y) * (C.x - A.x))) ≠ 0 := hdet
  refine ⟨?_, ?_, ?_⟩
  · simp only [tri_t, tri_det, tri_normal, Vec3.sub, Vec3.cross, Vec3.dot]
    rw [eq_div_iff hd]
    linear_combination
      (-((B.y - A.y) * (C.z - A.z) - (B.z - A.z) * (C.y - A.y))) * h1
      + (-((B.z - A.z) * (C.x - A.x) - (B.x - A.x) * (C.z - A.z))) * h2
      + (-((B.x - A.x) * (C.y - A.y) - (B.y - A.y) * (C.x - A.x))) * h3
  · simp only [tri_u, tri_det, tri_normal, Vec3.sub, Vec3.cross, Vec3.dot]
    rw [eq_div_iff hd]
    linear_combination
      ((C.y - A.y) * D.z - (C.z - A.z) * D.y) * h1
      + ((C.z - A.z) * D.x - (C.x - A.x) * D.z) * h2
      + ((C.x - A.x) * D.y - (C.y - A.y) * D.x) * h3
  · simp only [tri_v, tri_det, tri_normal, Vec3.sub, Vec3.cross, Vec3.dot]
    rw [eq_div_iff hd]
    linear_combination
      (-((B.y - A.y) * D.z - (B.z - A.z) * D.y)) * h1
      + (-((B.z - A.z) * D.x - (B.x - A.x) * D.z)) * h2
      + (-((B.x - A.x) * D.y - (B.y - A.y) * D.x)) * h3

theorem tri_det_ne_zero_of_eps (D A B C : Vec3 K) (h : det_eps ≤ |tri_det D A B C|) :
    tri_det D A B C ≠ 0 := by
  intro h0
  rw [h0, abs_zero] at h
  exact absurd h (not_le.mpr det_eps_pos)

/-- C12. Scenario C: on the triangle `(0,0,0), (1,0,0), (0,1,0)` the ray from `(1/4, 1/4, 1)`
in direction `(0,0,-1)` is accepted with `t = 1`, `u = 1/4`, `v = 1/4` exactly and
`N = (0,0,1)`. -/
theorem scenario_c_hit :
    (ray_triangle_intersection (⟨1 / 4, 1 / 4, 1⟩ : Vec3 K) ⟨0, 0, -1⟩ ⟨0, 0, 0⟩ ⟨1, 0, 0⟩
        ⟨0, 1, 0⟩).hit = true
    ∧ (ray_triangle_intersection (⟨1 / 4, 1 / 4, 1⟩ : Vec3 K) ⟨0, 0, -1⟩ ⟨0, 0, 0⟩ ⟨1, 0, 0⟩
        ⟨0, 1, 0⟩).t = .fin 1
    ∧ (ray_triangle_intersection (⟨1 / 4, 1 / 4, 1⟩ : Vec3 K) ⟨0, 0, -1⟩ ⟨0, 0, 0⟩ ⟨1, 0, 0⟩
        ⟨0, 1, 0⟩).u = .fin (1 / 4)
    ∧ (ray_triangle_intersection (⟨1 / 4, 1 / 4, 1⟩ : Vec3 K) ⟨0, 0, -1⟩ ⟨0, 0, 0⟩ ⟨1, 0, 0⟩
        ⟨0, 1, 0⟩).v = .fin (1 / 4)
    ∧ (ray_triangle_intersection (⟨1 / 4, 1 / 4, 1⟩ : Vec3 K) ⟨0, 0, -1⟩ ⟨0, 0, 0⟩ ⟨1, 0, 0⟩
        ⟨0, 1, 0⟩).N = ⟨0, 0, 1⟩ := by
  have hdet : tri_det (⟨0, 0, -1⟩ : Vec3 K) ⟨0, 0, 0⟩ ⟨1, 0, 0⟩ ⟨0, 1, 0⟩ = 1 := by
    norm_num [tri_det, tri_normal, Vec3.sub, Vec3.cross, Vec3.dot]
  have hne : tri_det (⟨0, 0, -1⟩ : Vec3 K) ⟨0, 0, 0⟩ ⟨1, 0, 0⟩ ⟨0, 1, 0⟩ ≠ 0 := by
    rw [hdet]; exact one_ne_zero
  have ht : tri_t (⟨1 / 4, 1 / 4, 1⟩ : Vec3 K) ⟨0, 0, -1⟩ ⟨0, 0, 0⟩ ⟨1, 0, 0⟩ ⟨0, 1, 0⟩ = 1 := by
    norm_num [tri_t, tri_det, tri_normal, Vec3.sub, Vec3.cross, Vec3.dot]
  have hu : tri_u (⟨1 / 4, 1 / 4, 1⟩ : Vec3 K) ⟨0, 0, -1⟩ ⟨0, 0, 0⟩ ⟨1, 0, 0⟩ ⟨0, 1, 0⟩
      = 1 / 4 := by
    norm_num [tri_u, tri_det, tri_normal, Vec3.sub, Vec3.cross, Vec3.dot]
  have hv : tri_v (⟨1 / 4, 1 / 4, 1⟩ : Vec3 K) ⟨0, 0, -1⟩ ⟨0, 0, 0⟩ ⟨1, 0, 0⟩ ⟨0, 1, 0⟩
      = 1 / 4 := by
    norm_num [tri_v, tri_det, tri_normal, Vec3.sub, Vec3.cross, Vec3.dot]
  obtain ⟨e1, e2, e3⟩ := ray_triangle_outputs (⟨1 / 4, 1 / 4, 1⟩ : Vec3 K) ⟨0, 0, -1⟩
    ⟨0, 0, 0⟩ ⟨1, 0, 0⟩ ⟨0, 1, 0⟩ hne
  rw [ht] at e1; rw [hu] at e2; rw [hv] at e3
  refine ⟨?_, e1, e2, e3, ?_⟩
  · rw [ray_triangle_hit_iff, hdet, ht, hu, hv]
    norm_num [det_eps]
  · simp [ray_triangle_intersection, Vec3.sub, Vec3.cross]

/-- C17. For a ray and a triangle with `|det| >= 1e-20`: whenever some `t' >= 0`, `u' >= 0`,
`v' >= 0` with `u' + v' <= 1` satisfy `O + t' * D = A + u' * (B - A) + v' * (C - A)`,
`ray_triangle_intersection` returns true and its outputs are `t = t'`, `u = u'`, `v = v'`. -/
theorem ray_triangle_intersection_complete (O D A B C : Vec3 K) (t' u' v' : K)
    (hdet : det_eps ≤ |tri_det D A B C|) (ht : 0 ≤ t') (hu : 0 ≤ u') (hv : 0 ≤ v')
    (huv : u' + v' ≤ 1)
    (heq : O.add (D.smul t') = (A.add ((B.sub A).smul u')).add ((C.sub A).smul v')) :
    (ray_triangle_intersection O D A B C).hit = true
    ∧ (ray_triangle_intersection O D A B C).t = .fin t'
    ∧ (ray_triangle_intersection O D A B C).u = .fin u'
    ∧ (ray_triangle_intersection O D A B C).v = .fin v' := by
  have hne := tri_det_ne_zero_of_eps D A B C hdet
  obtain ⟨e1, e2, e3⟩ := ray_triangle_unique O D A B C t' u' v' hne heq
  obtain ⟨o1, o2, o3⟩ := ray_triangle_outputs O D A B C hne
  refine ⟨?_, by rw [o1, e1], by rw [o2, e2], by rw [o3, e3]⟩
  rw [ray_triangle_hit_iff, ← e1, ← e2, ← e3]
  exact ⟨hdet, ht, hu, hv, huv⟩

/-- C17, at the triangle `(0,0,0), (1,0,0), (0,1,0)`: the point `(1/2, 1/4, 0)` has the
weights `u' = 1/2`, `v' = 1/4` and lies at `t' = 2` on the ray from `(1/2, 1/4, 2)` in
direction `(0,0,-1)`. -/
theorem ray_triangle_intersection_complete_witness :
    (ray_triangle_intersection (⟨1 / 2, 1 / 4, 2⟩ : Vec3 ℚ) ⟨0, 0, -1⟩ ⟨0, 0, 0⟩ ⟨1, 0, 0⟩
        ⟨0, 1, 0⟩).hit = true
    ∧ (ray_triangle_intersection (⟨1 / 2, 1 / 4, 2⟩ : Vec3 ℚ) ⟨0, 0, -1⟩ ⟨0, 0, 0⟩ ⟨1, 0, 0⟩
        ⟨0, 1, 0⟩).t = .fin 2
    ∧ (ray_triangle_intersection (⟨1 / 2, 1 / 4, 2⟩ : Vec3 ℚ) ⟨0, 0, -1⟩ ⟨0, 0, 0⟩ ⟨1, 0, 0⟩
        ⟨0, 1, 0⟩).u = .fin (1 / 2)
    ∧ (ray_triangle_intersection (⟨1 / 2, 1 / 4, 2⟩ : Vec3 ℚ) ⟨0, 0, -1⟩ ⟨0, 0, 0⟩ ⟨1, 0, 0⟩
        ⟨0, 1, 0⟩).v = .fin (1 / 4) :=
  ray_triangle_intersection_complete _ _ _ _ _ 2 (1 / 2) (1 / 4)
    (by norm_num [tri_det, tri_normal, Vec3.sub, Vec3.cross, Vec3.dot, det_eps])
    (by norm_num) (by norm_num) (by norm_num) (by norm_num)
    (by norm_num [Vec3.add, Vec3.smul, Vec3.sub])

end TriangleClaims

section TranslationClaims

variable {K : Type} [LinearOrderedField K]

/-- C15. Whenever the traversal `box_search_recursive(q, 1, 0, n_corners)` emits the positions
`tmp = [p_0, ..., p_(k-1)]` (all of them positions of the permutation, as in every built
index), `intersect_3D_box` returns a list of exactly `k` entries whose entry `i` is
`new2old[p_i]`, and it returns that same list whatever the caller's list held before. -/
theorem intersect_3D_box_translates (s : BVH K) (q0 q1 : Vec3 K) (list tmp : List Nat)
    (htrav : box_search_recursive s.boxlist q0 q1 1 0 s.n_corners [] = .ok tmp)
    (hpos : ∀ p ∈ tmp, p < s.new2old.length) :
    ∃ out, s.intersect_3D_box q0 q1 list = .ok out
      ∧ out.length = tmp.length
      ∧ (∀ i p : Nat, tmp[i]? = some p → out[i]? = s.new2old[p]?)
      ∧ ∀ other : List Nat, s.intersect_3D_box q0 q1 other = .ok out := by
  have hcall : ∀ l : List Nat,
      s.intersect_3D_box q0 q1 l = .ok (tmp.map (old_index s.new2old)) := by
    intro l
    unfold BVH.intersect_3D_box
    rw [htrav]
    simp only [Nat.zero_le, not_true_eq_false, if_false]
    have hloop := intersect_3D_box_loop_eq s.new2old tmp hpos tmp.length 0
      (vector_resize l tmp.length) (by simp) (vector_resize_length _ _)
    simp only [List.take_zero, List.nil_append, List.drop_zero] at hloop
    exact hloop
  refine ⟨_, hcall list, by simp, ?_, hcall⟩
  intro i p hp
  rw [List.getElem?_map, hp, Option.map_some']
  exact (old_index_eq s.new2old p (hpos p (List.mem_iff_getElem?.mpr ⟨i, hp⟩))).symm

/-- C15, on the index built from two boxes, queried with a box that meets both and a caller's
list that holds three stale entries. -/
theorem intersect_3D_box_translates_witness :
    ∃ (s : BVH ℚ) (tmp : List Nat),
      BVH.init sort_selection BVH.default two_boxes = .ok s
      ∧ box_search_recursive s.boxlist ⟨0, 0, 0⟩ ⟨3, 1, 1⟩ 1 0 s.n_corners [] = .ok tmp
      ∧ ∃ out, s.intersect_3D_box ⟨0, 0, 0⟩ ⟨3, 1, 1⟩ [7, 8, 9] = .ok out
        ∧ out.length = tmp.length
        ∧ (∀ i p : Nat, tmp[i]? = some p → out[i]? = s.new2old[p]?)
        ∧ ∀ other : List Nat, s.intersect_3D_box ⟨0, 0, 0⟩ ⟨3, 1, 1⟩ other = .ok out := by
  obtain ⟨s, hs, hidx⟩ := init_isIndex sort_selection BVH.default two_boxes
    (by simp [two_boxes])
  have hlen : s.new2old.length = two_boxes.length := by
    rw [hidx.perm.length_eq, List.length_range]
  have htrav : box_search_recursive s.boxlist (⟨0, 0, 0⟩ : Vec3 ℚ) ⟨3, 1, 1⟩ 1 0 s.n_corners []
      = .ok (passing_positions (box_box_overlap ⟨0, 0, 0⟩ ⟨3, 1, 1⟩) two_boxes s.new2old) := by
    rw [box_search_eq_pruned, hidx.count, pruned_search_tree _
      (box_box_overlap_mono ⟨0, 0, 0⟩ ⟨3, 1, 1⟩) hidx.tree []]
    simp [passing_positions]
  exact ⟨s, _, hs, htrav, intersect_3D_box_translates s _ _ [7, 8, 9] _ htrav
    (fun p hp => by rw [hlen]; exact passing_positions_lt _ _ _ p hp)⟩

/-- C19. On the index built from the tetrahedron of the tests, with the ray of the test and
the default bound, the list left by `ray_intersection` depends on what the caller's list held:
the two calls end in different lists. From an empty list the call leaves the translated
positions that the traversal emitted; from the list `[0]` it leaves one entry more, in front:
the caller's `0` kept and translated to `new2old[0]`. The box query leaves the same list from
both. -/
theorem ray_query_depends_on_callers_list :
    ∃ s out0 out1,
      BVH.init_mesh sort_selection BVH.default tetra_V tetra_F tetra_tol = .ok s
      ∧ s.ray_intersection tetra_ray [] DBL_MAX = .ok out0
      ∧ s.ray_intersection tetra_ray [0] DBL_MAX = .ok out1
      ∧ out1 = old_index s.new2old 0 :: out0
      ∧ out1 ≠ out0
      ∧ ∀ (q0 q1 : Vec3 ℚ), s.intersect_3D_box q0 q1 [] = s.intersect_3D_box q0 q1 [0] := by
  obtain ⟨s, hs, hidx⟩ := init_isIndex sort_selection BVH.default tetra_boxes tetra_boxes_ne_nil
  have h0 := ray_intersection_index hidx tetra_ray [] DBL_MAX (by simp)
  have h1 := ray_intersection_index hidx tetra_ray [0] DBL_MAX (by
    intro p hp
    have : tetra_boxes.length = 4 := rfl
    simp only [List.mem_singleton] at hp
    omega)
  refine ⟨s, _, _, ?_, h0, h1, ?_, ?_, ?_⟩
  · rw [init_mesh_eq _ _ _ _ _ _ tetra_face_boxes]; exact hs
  · simp
  · intro hc
    have := congrArg List.length hc
    simp at this
  · intro q0 q1
    rw [intersect_3D_box_index hidx q0 q1 [], intersect_3D_box_index hidx q0 q1 [0]]

end TranslationClaims

section RecursionLemmas

theorem builder_nodes_leaf (n b : Nat) : builder_nodes n b (b + 1) = [n] := by
  rw [builder_nodes]; simp

theorem builder_nodes_node (n b e : Nat) (h : b + 1 < e) :
    builder_nodes n b e = builder_nodes (2 * n) b ((b + e) / 2)
      ++ builder_nodes (2 * n + 1) ((b + e) / 2) e ++ [n] := by
  rw [builder_nodes]
  have h1 : ¬ e ≤ b := by omega
  have h2 : ¬ b + 1 = e := by omega
  simp only [h1, h2, if_false]

theorem leaf_nodes_leaf (n b : Nat) : leaf_nodes n b (b + 1) = [n] := by
  rw [leaf_nodes]; simp

theorem leaf_nodes_node (n b e : Nat) (h : b + 1 < e) :
    leaf_nodes n b e = leaf_nodes (2 * n) b ((b + e) / 2)
      ++ leaf_nodes (2 * n + 1) ((b + e) / 2) e := by
  rw [leaf_nodes]
  have h1 : ¬ e ≤ b := by omega
  have h2 : ¬ b + 1 = e := by omega
  simp only [h1, h2, if_false]

/-- The sizing function returns the largest node index among the leaves of the recursion. -/
theorem max_node_index_leaves (n b e : Nat) (h : b < e) :
    ∃ k, max_node_index n b e = .ok k ∧ k ∈ leaf_nodes n b e
      ∧ ∀ x ∈ leaf_nodes n b e, x ≤ k := by
  generalize hm : e - b = m
  induction m using Nat.strong_induction_on generalizing n b e with
  | _ m ih =>
    by_cases hl : b + 1 = e
    · subst hl
      refine ⟨n, max_node_index_leaf n b, ?_, ?_⟩
      · rw [leaf_nodes_leaf]; simp
      · intro x hx
        rw [leaf_nodes_leaf] at hx
        simp only [List.mem_singleton] at hx
        omega
    · have hlt : b + 1 < e := by omega
      obtain ⟨l, hl1, hl2, hl3⟩ := ih ((b + e) / 2 - b) (by omega) (2 * n) b ((b + e) / 2)
        (by omega) rfl
      obtain ⟨r, hr1, hr2, hr3⟩ := ih (e - (b + e) / 2) (by omega) (2 * n + 1)
        ((b + e) / 2) e (by omega) rfl
      refine ⟨max l r, ?_, ?_, ?_⟩
      · rw [max_node_index_node n b e hlt, hl1, hr1]
      · rw [leaf_nodes_node n b e hlt, List.mem_append]
        rcases le_total l r with hlr | hlr
        · rw [max_eq_right hlr]; exact Or.inr hr2
        · rw [max_eq_left hlr]; exact Or.inl hl2
      · intro x hx
        rw [leaf_nodes_node n b e hlt, List.mem_append] at hx
        rcases hx with hx | hx
        · exact le_trans (hl3 x hx) (le_max_left l r)
        · exact le_trans (hr3 x hx) (le_max_right l r)

theorem leaf_nodes_ge (n b e : Nat) : ∀ y ∈ leaf_nodes n b e, n ≤ y := by
  generalize hm : e - b = m
  induction m using Nat.strong_induction_on generalizing n b e with
  | _ m ih =>
    intro y hy
    rw [leaf_nodes] at hy
    by_cases h0 : e ≤ b
    · simp [h0] at hy
    · by_cases hl : b + 1 = e
      · simp only [h0, hl, if_false, if_true, List.mem_singleton] at hy
        omega
      · simp only [h0, hl, if_false, List.mem_append] at hy
        rcases hy with hy | hy
        · have := ih ((b + e) / 2 - b) (by omega) (2 * n) b ((b + e) / 2) rfl y hy
          omega
        · have := ih (e - (b + e) / 2) (by omega) (2 * n + 1) ((b + e) / 2) e rfl y hy
          omega

/-- Every leaf of the recursion is a node the builder stores at, and every node the builder
stores at lies at or above a leaf with an index at least as large. -/
theorem builder_nodes_leaves (n b e : Nat) (h : b < e) :
    (∀ x ∈ leaf_nodes n b e, x ∈ builder_nodes n b e)
    ∧ (∀ x ∈ builder_nodes n b e, ∃ y ∈ leaf_nodes n b e, x ≤ y) := by
  generalize hm : e - b = m
  induction m using Nat.strong_induction_on generalizing n b e with
  | _ m ih =>
    by_cases hl : b + 1 = e
    · subst hl
      rw [leaf_nodes_leaf, builder_nodes_leaf]
      exact ⟨fun x hx => hx, fun x hx => ⟨x, hx, le_refl x⟩⟩
    · have hlt : b + 1 < e := by omega
      obtain ⟨l1, l2⟩ := ih ((b + e) / 2 - b) (by omega) (2 * n) b ((b + e) / 2)
        (by omega) rfl
      obtain ⟨r1, r2⟩ := ih (e - (b + e) / 2) (by omega) (2 * n + 1)
        ((b + e) / 2) e (by omega) rfl
      rw [leaf_nodes_node n b e hlt, builder_nodes_node n b e hlt]
      refine ⟨?_, ?_⟩
      · intro x hx
        rcases List.mem_append.mp hx with hx | hx
        · exact List.mem_append_left _ (List.mem_append_left _ (l1 x hx))
        · exact List.mem_append_left _ (List.mem_append_right _ (r1 x hx))
      · intro x hx
        rcases List.mem_append.mp hx with hx | hx
        · rcases List.mem_append.mp hx with hx | hx
          · obtain ⟨y, hy, hxy⟩ := l2 x hx
            exact ⟨y, List.mem_append_left _ hy, hxy⟩
          · obtain ⟨y, hy, hxy⟩ := r2 x hx
            exact ⟨y, List.mem_append_right _ hy, hxy⟩
        · simp only [List.mem_singleton] at hx
          subst hx
          obtain ⟨k, _, hk, _⟩ := max_node_index_leaves (2 * x) b ((b + e) / 2) (by omega)
          have hle := leaf_nodes_ge (2 * x) b ((b + e) / 2) k hk
          exact ⟨k, List.mem_append_left _ hk, by omega⟩

end RecursionLemmas

section BuilderNodes

variable {K : Type} [LinearOrderedField K]

/-- A call of the builder that returns has kept the size of the node array, has left every
slot other than the nodes it stores at as it was, and has found all those nodes inside the
array. -/
theorem init_boxes_recursive_ok_inv (S : Selection K) (cornerlist : List (Box K))
    (n b e : Nat) (s s' : BVH K)
    (h : init_boxes_recursive S cornerlist n b e s = .ok s') :
    s'.boxlist.length = s.boxlist.length
    ∧ (∀ x, x ∉ builder_nodes n b e → s'.boxlist[x]? = s.boxlist[x]?)
    ∧ (∀ x ∈ builder_nodes n b e, x < s.boxlist.length) := by
  generalize hm : e - b = m
  induction m using Nat.strong_induction_on generalizing n b e s s' with
  | _ m ih =>
    rw [init_boxes_recursive] at h
    by_cases h0 : e ≤ b
    · simp [h0] at h
    · by_cases hl : b + 1 = e
      · subst hl
        simp only [h0, if_false, if_true] at h
        split at h
        · cases h
        · split at h
          · cases h
          · split at h
            · cases h
              rw [builder_nodes_leaf]
              refine ⟨by simp, ?_, ?_⟩
              · intro x hx
                simp only [List.mem_singleton] at hx
                exact List.getElem?_set_ne (Ne.symm hx)
              · intro x hx
                simp only [List.mem_singleton] at hx
                subst hx
                assumption
            · cases h
      · have hlt : b + 1 < e := by omega
        simp only [h0, hl, if_false] at h
        split at h
        · cases h
        · split at h
          · cases h
          · split at h
            · cases h
            · split at h
              · cases h
              · next s2 hs2 =>
                split at h
                · cases h
                · next s3 hs3 =>
                  obtain ⟨a1, a2, a3⟩ := ih ((b + e) / 2 - b) (by omega) _ _ _ _ _ hs2 rfl
                  obtain ⟨b1, b2, b3⟩ := ih (e - (b + e) / 2) (by omega) _ _ _ _ _ hs3 rfl
                  split at h
                  · split at h
                    · next hnl =>
                      cases h
                      rw [builder_nodes_node n b e hlt]
                      refine ⟨?_, ?_, ?_⟩
                      · simp only [List.length_set]; rw [b1, a1]
                      · intro x hx
                        simp only [List.mem_append, List.mem_singleton, not_or] at hx
                        show (s3.boxlist.set n _)[x]? = s.boxlist[x]?
                        rw [List.getElem?_set_ne (Ne.symm hx.2), b2 x hx.1.2, a2 x hx.1.1]
                      · intro x hx
                        simp only [List.mem_append, List.mem_singleton] at hx
                        rcases hx with (hx | hx) | hx
                        · exact a3 x hx
                        · have := b3 x hx
                          rw [a1] at this
                          exact this
                        · subst hx
                          rw [b1, a1] at hnl
                          exact hnl
                    · cases h
                  · cases h

theorem range_union_error (cornerlist : List (Box K)) (new2old : List Nat) :
    ∀ (k b : Nat) (acc : Box K) (f : Fault),
      range_union cornerlist new2old k b acc = .error f → f = .out_of_range := by
  intro k
  induction k with
  | zero =>
    intro b acc f h
    simp [range_union] at h
  | succ k ih =>
    intro b acc f h
    rw [range_union] at h
    split at h
    · cases h; rfl
    · split at h
      · cases h; rfl
      · exact ih _ _ _ h

/-- On a range that is not empty, the only way the builder fails is an access out of range. -/
theorem init_boxes_recursive_error (S : Selection K) (cornerlist : List (Box K))
    (n b e : Nat) (s : BVH K) (f : Fault) (hbe : b < e)
    (h : init_boxes_recursive S cornerlist n b e s = .error f) : f = .out_of_range := by
  generalize hm : e - b = m
  induction m using Nat.strong_induction_on generalizing n b e s f with
  | _ m ih =>
    rw [init_boxes_recursive] at h
    have h0 : ¬ e ≤ b := by omega
    by_cases hl : b + 1 = e
    · subst hl
      simp only [h0, if_false, if_true] at h
      split at h
      · cases h; rfl
      · split at h
        · cases h; rfl
        · split at h
          · cases h
          · cases h; rfl
    · have hlt : b + 1 < e := by omega
      simp only [h0, hl, if_false] at h
      split at h
      · cases h; rfl
      · split at h
        · cases h; rfl
        · split at h
          · next f' hf' =>
            cases h
            exact range_union_error _ _ _ _ _ _ hf'
          · split at h
            · next f' hf' =>
              cases h
              exact ih ((b + e) / 2 - b) (by omega) _ _ _ _ _ (by omega) hf' rfl
            · split at h
              · next f' hf' =>
                cases h
                exact ih (e - (b + e) / 2) (by omega) _ _ _ _ _ (by omega) hf' rfl
              · split at h
                · split at h
                  · cases h
                  · cases h; rfl
                · cases h; rfl

/-- When a node the builder stores at lies outside the node array, the builder fails with an
access out of range. -/
theorem init_boxes_recursive_too_small (S : Selection K) (cornerlist : List (Box K))
    (n b e : Nat) (s : BVH K) (hbe : b < e) (x : Nat) (hx : x ∈ builder_nodes n b e)
    (hlen : s.boxlist.length ≤ x) :
    init_boxes_recursive S cornerlist n b e s = .error .out_of_range := by
  cases hres : init_boxes_recursive S cornerlist n b e s with
  | error f => rw [init_boxes_recursive_error S cornerlist n b e s f hbe hres]
  | ok s' =>
    have := (init_boxes_recursive_ok_inv S cornerlist n b e s s' hres).2.2 x hx
    omega

end BuilderNodes

section SizingClaims

variable {K : Type} [LinearOrderedField K]

/-- The pruned descent over a tree returns, whatever the test: every box it reads is there. -/
theorem pruned_search_tree_ok (test : Box K → Bool)
    {boxlist : List (Box K)} {leaf : Nat → Option (Box K)} {n b e : Nat}
    (h : IsTree boxlist leaf n b e) :
    ∀ list, ∃ out, pruned_search test boxlist n b e list = .ok out := by
  induction h with
  | leaf n b bx h1 h2 =>
    intro list
    obtain ⟨hn, hbx⟩ := List.getElem?_eq_some_iff.mp h1
    rw [pruned_search]
    by_cases ht : test bx = true
    · exact ⟨list ++ [b], by simp [hn, hbx, ht]⟩
    · exact ⟨list, by simp [hn, hbx, ht]⟩
  | node n b e l r hlt t1 t2 hl hr hn ih1 ih2 =>
    intro list
    obtain ⟨hnl, hbx⟩ := List.getElem?_eq_some_iff.mp hn
    rw [pruned_search]
    by_cases ht : test (l.union r) = true
    · have hne : ¬ (b + 1 = e) := by omega
      have hg : ¬ (n = 0 ∧ e ≤ b) := by omega
      obtain ⟨o1, ho1⟩ := ih1 list
      obtain ⟨o2, ho2⟩ := ih2 o1
      refine ⟨o2, ?_⟩
      simp only [hnl, hbx, ht, hne, hg, dite_true, dite_false, if_false, ho1, ho2]
      simp
    · exact ⟨list, by simp [hnl, hbx, ht]⟩

/-- Construction from a non-empty list of boxes returns an index whose node array has one slot
more than the value of the sizing function. -/
theorem init_sized (S : Selection K) (s0 : BVH K) (cornerlist : List (Box K))
    (hc : cornerlist ≠ []) :
    ∃ k s, max_node_index 1 0 cornerlist.length = .ok k
      ∧ BVH.init S s0 cornerlist = .ok s ∧ IsIndex cornerlist s
      ∧ s.boxlist.length = k + 1 := by
  have hpos : 0 < cornerlist.length := List.length_pos.mpr hc
  obtain ⟨k, hk, _⟩ := max_node_index_total 1 0 cornerlist.length hpos
  obtain ⟨s, hs, r⟩ := init_boxes_recursive_spec S cornerlist 1 0 cornerlist.length
    { boxlist := boxlist_resize s0.boxlist (k + 1)
      new2old := List.range cornerlist.length
      n_corners := cornerlist.length }
    hpos (by simp) (fun i hi => List.mem_range.mp hi) (le_refl 1)
    (fun k' hk' => by
      have hkk : k = k' := by simpa [hk] using hk'
      show k' < (boxlist_resize s0.boxlist (k + 1)).length
      rw [boxlist_resize_length]; omega)
  refine ⟨k, s, hk, ?_, ⟨r.count, r.perm, r.tree⟩, ?_⟩
  · unfold BVH.init
    simp only [hk]
    exact hs
  · rw [r.boxlen]
    exact boxlist_resize_length _ _

/-- The value of the sizing function is a node the builder stores at and the largest of
them. -/
theorem max_node_index_builder_nodes (n b e : Nat) (h : b < e) :
    ∃ k, max_node_index n b e = .ok k ∧ k ∈ builder_nodes n b e
      ∧ ∀ x ∈ builder_nodes n b e, x ≤ k := by
  obtain ⟨k, hk1, hk2, hk3⟩ := max_node_index_leaves n b e h
  obtain ⟨l1, l2⟩ := builder_nodes_leaves n b e h
  refine ⟨k, hk1, l1 k hk2, fun x hx => ?_⟩
  obtain ⟨y, hy, hxy⟩ := l2 x hx
  exact le_trans hxy (hk3 y hy)

/-- C13. For every node `n >= 1` and range `b < e`, `max_node_index(n, b, e)` returns the
largest node index at which `init_boxes_recursive(n, b, e)` stores a box: with a node array
that has this index the builder returns and changes no other slot, with a shorter one it fails
with an access out of range. Hence `init`, which sizes the array to
`max_node_index(1, 0, count) + 1`, returns, its last slot is one the builder stores at, and
both traversals read inside the array. -/
theorem sizing_correct (n b e : Nat) (hn : 1 ≤ n) (hbe : b < e) :
    (∃ k, max_node_index n b e = .ok k
      ∧ k ∈ builder_nodes n b e ∧ (∀ x ∈ builder_nodes n b e, x ≤ k)
      ∧ ∀ (S : Selection K) (cornerlist : List (Box K)) (s : BVH K),
          e ≤ s.new2old.length → (∀ i ∈ s.new2old, i < cornerlist.length) →
          (k < s.boxlist.length →
            ∃ s', init_boxes_recursive S cornerlist n b e s = .ok s'
              ∧ s'.boxlist.length = s.boxlist.length
              ∧ ∀ x, x ∉ builder_nodes n b e → s'.boxlist[x]? = s.boxlist[x]?)
          ∧ (s.boxlist.length ≤ k →
            init_boxes_recursive S cornerlist n b e s = .error .out_of_range))
    ∧ ∀ (S : Selection K) (s0 : BVH K) (cornerlist : List (Box K)), cornerlist ≠ [] →
        ∃ k1 s, max_node_index 1 0 cornerlist.length = .ok k1
          ∧ BVH.init S s0 cornerlist = .ok s
          ∧ s.boxlist.length = k1 + 1
          ∧ k1 ∈ builder_nodes 1 0 cornerlist.length
          ∧ (∀ (q0 q1 : Vec3 K) (list : List Nat), ∃ out,
              box_search_recursive s.boxlist q0 q1 1 0 s.n_corners list = .ok out)
          ∧ (∀ (R : Ray K) (dirinv : Vec3 (Dbl K)) (tmax : K) (list : List Nat), ∃ out,
              ray_intersection_recursive s.boxlist R dirinv tmax 1 0 s.n_corners list
                = .ok out) := by
  refine ⟨?_, ?_⟩
  · obtain ⟨k, hk1, hk2, hk3⟩ := max_node_index_builder_nodes n b e hbe
    refine ⟨k, hk1, hk2, hk3, fun S cornerlist s he hvalid => ⟨fun hlen => ?_, fun hlen => ?_⟩⟩
    · obtain ⟨s', hs', _⟩ := init_boxes_recursive_spec S cornerlist n b e s hbe he hvalid hn
        (fun k' hk' => by
          have hkk : k = k' := by simpa [hk1] using hk'
          omega)
      obtain ⟨a1, a2, _⟩ := init_boxes_recursive_ok_inv S cornerlist n b e s s' hs'
      exact ⟨s', hs', a1, a2⟩
    · exact init_boxes_recursive_too_small S cornerlist n b e s hbe k hk2 hlen
  · intro S s0 cornerlist hc
    obtain ⟨k1, s, hk, hs, hidx, hlen⟩ := init_sized S s0 cornerlist hc
    obtain ⟨k2, hk2, hmem, _⟩ := max_node_index_builder_nodes 1 0 cornerlist.length
      (List.length_pos.mpr hc)
    have hkk : k1 = k2 := by simpa [hk] using hk2
    refine ⟨k1, s, hk, hs, hlen, by rw [hkk]; exact hmem, ?_, ?_⟩
    · intro q0 q1 list
      rw [box_search_eq_pruned, hidx.count]
      exact pruned_search_tree_ok _ hidx.tree list
    · intro R dirinv tmax list
      rw [ray_search_eq_pruned, hidx.count]
      exact pruned_search_tree_ok _ hidx.tree list

/-- C13, at node `1` over the range `[0, 5)`. -/
theorem sizing_correct_witness :
    ∃ k, max_node_index 1 0 5 = .ok k
      ∧ k ∈ builder_nodes 1 0 5 ∧ (∀ x ∈ builder_nodes 1 0 5, x ≤ k)
      ∧ ∀ (S : Selection ℚ) (cornerlist : List (Box ℚ)) (s : BVH ℚ),
          5 ≤ s.new2old.length → (∀ i ∈ s.new2old, i < cornerlist.length) →
          (k < s.boxlist.length →
            ∃ s', init_boxes_recursive S cornerlist 1 0 5 s = .ok s'
              ∧ s'.boxlist.length = s.boxlist.length
              ∧ ∀ x, x ∉ builder_nodes 1 0 5 → s'.boxlist[x]? = s.boxlist[x]?)
          ∧ (s.boxlist.length ≤ k →
            init_boxes_recursive S cornerlist 1 0 5 s = .error .out_of_range) :=
  (sizing_correct 1 0 5 (by norm_num) (by norm_num)).1

end SizingClaims

section HeightClaims

theorem clog_halves (s : Nat) (hs : 2 ≤ s) :
    Nat.clog 2 s = Nat.clog 2 ((s + 1) / 2) + 1
    ∧ Nat.clog 2 (s / 2) ≤ Nat.clog 2 ((s + 1) / 2) := by
  refine ⟨?_, Nat.clog_mono_right 2 (by omega)⟩
  have h := Nat.clog_of_two_le (b := 2) (n := s) (by norm_num) hs
  have e1 : (s + 2 - 1) / 2 = (s + 1) / 2 := by
    congr 1
  rw [e1] at h
  exact h

/-- Every leaf of the recursion from node `k` over a range of `s` positions has a node index
below `(k + 1) * 2 ^ ceil(log2 s)`. -/
theorem leaf_nodes_upper (k b e : Nat) (h : b < e) :
    ∀ x ∈ leaf_nodes k b e, x < (k + 1) * 2 ^ Nat.clog 2 (e - b) := by
  generalize hm : e - b = m
  induction m using Nat.strong_induction_on generalizing k b e with
  | _ m ih =>
    by_cases hl : b + 1 = e
    · subst hl
      intro x hx
      rw [leaf_nodes_leaf] at hx
      simp only [List.mem_singleton] at hx
      have h1 : m = 1 := by omega
      subst h1
      rw [Nat.clog_one_right]
      omega
    · have hlt : b + 1 < e := by omega
      obtain ⟨c1, c2⟩ := clog_halves m (by omega)
      have hL : (b + e) / 2 - b = m / 2 := by omega
      have hR : e - (b + e) / 2 = (m + 1) / 2 := by omega
      have hpow : 2 ^ Nat.clog 2 (m / 2) ≤ 2 ^ Nat.clog 2 ((m + 1) / 2) :=
        Nat.pow_le_pow_right (by norm_num) c2
      intro x hx
      rw [leaf_nodes_node k b e hlt, List.mem_append] at hx
      rw [c1, pow_succ]
      rcases hx with hx | hx
      · have := ih (m / 2) (by omega) (2 * k) b ((b + e) / 2) (by omega) hL x hx
        calc x < (2 * k + 1) * 2 ^ Nat.clog 2 (m / 2) := this
          _ ≤ (2 * k + 1) * 2 ^ Nat.clog 2 ((m + 1) / 2) := Nat.mul_le_mul_left _ hpow
          _ ≤ (2 * k + 2) * 2 ^ Nat.clog 2 ((m + 1) / 2) :=
            Nat.mul_le_mul_right _ (by omega)
          _ = (k + 1) * (2 ^ Nat.clog 2 ((m + 1) / 2) * 2) := by ring
      · have := ih ((m + 1) / 2) (by omega) (2 * k + 1) ((b + e) / 2) e (by omega) hR x hx
        calc x < (2 * k + 1 + 1) * 2 ^ Nat.clog 2 ((m + 1) / 2) := this
          _ = (k + 1) * (2 ^ Nat.clog 2 ((m + 1) / 2) * 2) := by ring

/-- Some leaf of the recursion from node `k` over a range of `s` positions has a node index of
at least `k * 2 ^ ceil(log2 s)`. -/
theorem leaf_nodes_deep (k b e : Nat) (h : b < e) :
    ∃ x ∈ leaf_nodes k b e, k * 2 ^ Nat.clog 2 (e - b) ≤ x := by
  generalize hm : e - b = m
  induction m using Nat.strong_induction_on generalizing k b e with
  | _ m ih =>
    by_cases hl : b + 1 = e
    · subst hl
      have h1 : m = 1 := by omega
      subst h1
      refine ⟨k, by rw [leaf_nodes_leaf]; simp, ?_⟩
      rw [Nat.clog_one_right]
      omega
    · have hlt : b + 1 < e := by omega
      obtain ⟨c1, _⟩ := clog_halves m (by omega)
      have hR : e - (b + e) / 2 = (m + 1) / 2 := by omega
      obtain ⟨x, hx, hle⟩ := ih ((m + 1) / 2) (by omega) (2 * k + 1) ((b + e) / 2) e
        (by omega) hR
      refine ⟨x, by rw [leaf_nodes_node k b e hlt]; exact List.mem_append_right _ hx, ?_⟩
      rw [c1, pow_succ]
      calc k * (2 ^ Nat.clog 2 ((m + 1) / 2) * 2)
          = (2 * k) * 2 ^ Nat.clog 2 ((m + 1) / 2) := by ring
        _ ≤ (2 * k + 1) * 2 ^ Nat.clog 2 ((m + 1) / 2) := Nat.mul_le_mul_right _ (by omega)
        _ ≤ x := hle

/-- C16. For every primitive count `n >= 1` the recursion started at node `1` over `[0, n)`
has depth `ceil(log2 n)`: every leaf has a node index below `2 ^ (ceil(log2 n) + 1)`, some leaf
has a node index of at least `2 ^ ceil(log2 n)`, and so the value of `max_node_index(1, 0, n)`
lies in `[2 ^ ceil(log2 n), 2 ^ (ceil(log2 n) + 1))`. -/
theorem tree_height (n : Nat) (hn : 1 ≤ n) :
    (∀ x ∈ leaf_nodes 1 0 n, x < 2 ^ (Nat.clog 2 n + 1))
    ∧ (∃ x ∈ leaf_nodes 1 0 n, 2 ^ Nat.clog 2 n ≤ x)
    ∧ ∃ k, max_node_index 1 0 n = .ok k ∧ 2 ^ Nat.clog 2 n ≤ k
        ∧ k < 2 ^ (Nat.clog 2 n + 1) := by
  have hup := leaf_nodes_upper 1 0 n (by omega)
  obtain ⟨y, hy, hdeep⟩ := leaf_nodes_deep 1 0 n (by omega)
  simp only [Nat.sub_zero, Nat.one_mul] at hup hdeep
  have hup' : ∀ x ∈ leaf_nodes 1 0 n, x < 2 ^ (Nat.clog 2 n + 1) := by
    intro x hx
    have := hup x hx
    rw [pow_succ]
    omega
  obtain ⟨k, hk1, hk2, hk3⟩ := max_node_index_leaves 1 0 n (by omega)
  exact ⟨hup', ⟨y, hy, hdeep⟩, k, hk1, le_trans hdeep (hk3 y hy), hup' k hk2⟩

/-- C16, at five primitives, where `ceil(log2 5) = 3`. -/
theorem tree_height_witness :
    (∀ x ∈ leaf_nodes 1 0 5, x < 2 ^ (Nat.clog 2 5 + 1))
    ∧ (∃ x ∈ leaf_nodes 1 0 5, 2 ^ Nat.clog 2 5 ≤ x)
    ∧ ∃ k, max_node_index 1 0 5 = .ok k ∧ 2 ^ Nat.clog 2 5 ≤ k
        ∧ k < 2 ^ (Nat.clog 2 5 + 1) :=
  tree_height 5 (by norm_num)

end HeightClaims

section TightnessClaims

variable {K : Type} [LinearOrderedField K]

theorem Box.union_assoc (a b c : Box K) : (a.union b).union c = a.union (b.union c) := by
  simp [Box.union, min_assoc, max_assoc]

theorem Box.union_comm (a b : Box K) : a.union b = b.union a := by
  simp [Box.union, min_comm, max_comm]

theorem union_fold_some (l : List (Box K)) : ∀ a : Box K,
    l.foldl (fun acc bx =>
        match acc with
        | none => some bx
        | some a => some (a.union bx)) (some a)
      = some (match Box.union_all l with
        | none => a
        | some u => a.union u) := by
  induction l with
  | nil => intro a; rfl
  | cons b l ih =>
    intro a
    have h1 : Box.union_all (b :: l) = l.foldl (fun acc bx =>
        match acc with
        | none => some bx
        | some a => some (a.union bx)) (some b) := rfl
    rw [List.foldl_cons, ih, h1, ih]
    cases Box.union_all l with
    | none => rfl
    | some u => simp only [Box.union_assoc]

theorem Box.union_all_singleton (bx : Box K) : Box.union_all [bx] = some bx := rfl

theorem Box.union_all_append (l1 l2 : List (Box K)) (u1 u2 : Box K)
    (h1 : Box.union_all l1 = some u1) (h2 : Box.union_all l2 = some u2) :
    Box.union_all (l1 ++ l2) = some (u1.union u2) := by
  have h : Box.union_all (l1 ++ l2) = l2.foldl (fun acc bx =>
      match acc with
      | none => some bx
      | some a => some (a.union bx)) (Box.union_all l1) := by
    unfold Box.union_all
    rw [List.foldl_append]
  rw [h, h1, union_fold_some, h2]

theorem Box.union_all_perm (l1 l2 : List (Box K)) (h : l1.Perm l2) :
    Box.union_all l1 = Box.union_all l2 := by
  unfold Box.union_all
  refine List.Perm.foldl_eq' h ?_ none
  intro x _ y _ z
  cases z with
  | none => simp only [Box.union_comm x y]
  | some a =>
    simp only [Box.union_assoc, Box.union_comm x y]

omit [LinearOrderedField K] in
theorem position_boxes_split (leaf : Nat → Option (Box K)) (b m e : Nat) (h1 : b ≤ m)
    (h2 : m ≤ e) :
    position_boxes leaf b e = position_boxes leaf b m ++ position_boxes leaf m e := by
  unfold position_boxes
  rw [range_split b m e h1 h2, List.filterMap_append]

/-- Tightness of a tree: the box of its root is the union of the boxes of the primitives in
its range, none of which is missing. -/
theorem IsTree.union_of_range {boxlist : List (Box K)} {leaf : Nat → Option (Box K)}
    {n b e : Nat} (h : IsTree boxlist leaf n b e) :
    (position_boxes leaf b e).length = e - b
    ∧ boxlist[n]? = Box.union_all (position_boxes leaf b e) := by
  induction h with
  | leaf n b bx h1 h2 =>
    have hp : position_boxes leaf b (b + 1) = [bx] := by
      have hr : List.range' b (b + 1 - b) = [b] := by
        have : b + 1 - b = 1 := by omega
        rw [this]; rfl
      simp [position_boxes, hr, h2]
    rw [hp, h1]
    exact ⟨by simp, rfl⟩
  | node n b e l r hlt t1 t2 hl hr hn ih1 ih2 =>
    have hb1 := t1.range_lt
    have hb2 := t2.range_lt
    rw [position_boxes_split leaf b ((b + e) / 2) e (by omega) (by omega)]
    refine ⟨?_, ?_⟩
    · rw [List.length_append, ih1.1, ih2.1]; omega
    · rw [hn, Box.union_all_append _ _ l r (by rw [← ih1.2, hl]) (by rw [← ih2.2, hr])]

/-- Every call of the recursion below the root of a tree is the root of a tree itself. -/
theorem IsTree.of_builtOver {boxlist : List (Box K)} {leaf : Nat → Option (Box K)}
    {n0 b0 e0 n b e : Nat} (h : IsTree boxlist leaf n0 b0 e0)
    (hb : BuiltOver n0 b0 e0 n b e) : IsTree boxlist leaf n b e := by
  induction hb with
  | root => exact h
  | left n b e _ hlt ih =>
    cases ih with
    | leaf _ _ bx h1 h2 => omega
    | node _ _ _ l r _ t1 t2 _ _ _ => exact t1
  | right n b e _ hlt ih =>
    cases ih with
    | leaf _ _ bx h1 h2 => omega
    | node _ _ _ l r _ t1 t2 _ _ _ => exact t2

theorem filterMap_range_getElem? {α β : Type} (g : α → Option β) (l : List α) :
    (List.range l.length).filterMap (fun p => (l[p]?).bind g) = l.filterMap g := by
  induction l with
  | nil => rfl
  | cons a l ih =>
    rw [List.length_cons, List.range_succ_eq_map, List.filterMap_cons, List.filterMap_map]
    simp only [List.getElem?_cons_zero, Function.comp_def, List.getElem?_cons_succ]
    rw [ih]
    rfl

/-- In an index the boxes of the positions `0, ..., n - 1` are the input boxes, rearranged. -/
theorem position_boxes_perm {cornerlist : List (Box K)} {s : BVH K}
    (h : IsIndex cornerlist s) :
    (position_boxes (leaf_box cornerlist s.new2old) 0 cornerlist.length).Perm cornerlist := by
  have hlen : s.new2old.length = cornerlist.length := by
    rw [h.perm.length_eq, List.length_range]
  have hleaf : leaf_box cornerlist s.new2old
      = fun p : Nat => (s.new2old[p]?).bind (fun i : Nat => cornerlist[i]?) := by
    funext p
    unfold leaf_box
    cases s.new2old[p]? <;> rfl
  have e1 : position_boxes (leaf_box cornerlist s.new2old) 0 cornerlist.length
      = s.new2old.filterMap (fun i => cornerlist[i]?) := by
    unfold position_boxes
    rw [hleaf, Nat.sub_zero, ← List.range_eq_range', ← hlen]
    exact filterMap_range_getElem? (fun i => cornerlist[i]?) s.new2old
  have e2 : (List.range cornerlist.length).filterMap (fun i => cornerlist[i]?)
      = cornerlist := by
    have h3 := filterMap_range_getElem? (fun b : Box K => some b) cornerlist
    rw [List.filterMap_some] at h3
    have h4 : (fun p : Nat => (cornerlist[p]?).bind (fun b : Box K => some b))
        = fun p : Nat => cornerlist[p]? := by
      funext p
      cases cornerlist[p]? <;> rfl
    rw [h4] at h3
    exact h3
  rw [e1]
  have hp := List.Perm.filterMap (fun i => cornerlist[i]?) h.perm
  rw [e2] at hp
  exact hp

theorem BuiltOver.trans {n0 b0 e0 n1 b1 e1 n b e : Nat} (h1 : BuiltOver n0 b0 e0 n1 b1 e1)
    (h2 : BuiltOver n1 b1 e1 n b e) : BuiltOver n0 b0 e0 n b e := by
  induction h2 with
  | root => exact h1
  | left n b e _ hlt ih => exact BuiltOver.left n b e ih hlt
  | right n b e _ hlt ih => exact BuiltOver.right n b e ih hlt

/-- Every node at which the builder stores a box is the node of one of the calls of the
recursion. -/
theorem builder_nodes_builtOver (n b e x : Nat) (hx : x ∈ builder_nodes n b e) :
    ∃ b1 e1, BuiltOver n b e x b1 e1 := by
  generalize hm : e - b = m
  induction m using Nat.strong_induction_on generalizing n b e with
  | _ m ih =>
    by_cases h0 : e ≤ b
    · rw [builder_nodes, if_pos h0] at hx
      simp at hx
    · by_cases h1 : b + 1 = e
      · subst h1
        rw [builder_nodes_leaf] at hx
        rw [List.mem_singleton] at hx
        subst hx
        exact ⟨_, _, BuiltOver.root⟩
      · have hlt : b + 1 < e := by omega
        rw [builder_nodes_node n b e hlt, List.mem_append, List.mem_append] at hx
        rcases hx with (hx | hx) | hx
        · obtain ⟨b1, e1, h⟩ := ih ((b + e) / 2 - b) (by omega) _ _ _ hx rfl
          exact ⟨b1, e1, BuiltOver.trans (BuiltOver.left n b e BuiltOver.root hlt) h⟩
        · obtain ⟨b1, e1, h⟩ := ih (e - (b + e) / 2) (by omega) _ _ _ hx rfl
          exact ⟨b1, e1, BuiltOver.trans (BuiltOver.right n b e BuiltOver.root hlt) h⟩
        · rw [List.mem_singleton] at hx
          subst hx
          exact ⟨_, _, BuiltOver.root⟩

/-- C14. Tightness: `BVH::init` on a non-empty list of boxes returns, and in the index it
leaves, every node `n` that the recursion builds over a range `[b, e)` (the root call
`(1, 0, n)` and, from a call over more than one position, the calls `(2n, b, m)` and
`(2n + 1, m, e)` with `m = (b + e) / 2`) holds the componentwise union of the boxes of the
`e - b` primitives placed at the positions `b, ..., e - 1`, none of them missing; a leaf holds
exactly the box of its primitive; and the root box `boxlist[1]` is the union of all the input
boxes. -/
theorem tightness (S : Selection K) (s0 : BVH K) (cornerlist : List (Box K))
    (hne : cornerlist ≠ []) :
    ∃ s, BVH.init S s0 cornerlist = .ok s
      ∧ (∀ n b e, BuiltOver 1 0 cornerlist.length n b e →
          (position_boxes (leaf_box cornerlist s.new2old) b e).length = e - b
          ∧ (∃ bx, s.boxlist[n]? = some bx
              ∧ Box.union_all (position_boxes (leaf_box cornerlist s.new2old) b e) = some bx)
          ∧ (b + 1 = e → s.boxlist[n]? = leaf_box cornerlist s.new2old b))
      ∧ ∃ root, s.boxlist[1]? = some root ∧ Box.union_all cornerlist = some root := by
  obtain ⟨s, hs, hidx⟩ := init_isIndex S s0 cornerlist hne
  refine ⟨s, hs, ?_, ?_⟩
  · intro n b e hb
    have ht := IsTree.of_builtOver hidx.tree hb
    obtain ⟨bx, hbx⟩ := ht.root_box
    refine ⟨ht.union_of_range.1, ⟨bx, hbx, ?_⟩, ?_⟩
    · rw [← ht.union_of_range.2, hbx]
    · intro hbe
      cases ht with
      | leaf _ _ bx h1 h2 => rw [h1, h2]
      | node _ _ _ l r hlt _ _ _ _ _ => omega
  · obtain ⟨bx, hbx⟩ := hidx.tree.root_box
    refine ⟨bx, hbx, ?_⟩
    rw [← Box.union_all_perm _ _ (position_boxes_perm hidx), ← hidx.tree.union_of_range.2, hbx]

/-- C14, at a list of two boxes: the root box is the box from `(0, 0, 0)` to `(3, 1, 1)`. -/
theorem tightness_witness :
    Box.union_all two_boxes = some ⟨⟨0, 0, 0⟩, ⟨3, 1, 1⟩⟩
    ∧ ∃ s, BVH.init sort_selection BVH.default two_boxes = .ok s
      ∧ (∀ n b e, BuiltOver 1 0 two_boxes.length n b e →
          (position_boxes (leaf_box two_boxes s.new2old) b e).length = e - b
          ∧ (∃ bx, s.boxlist[n]? = some bx
              ∧ Box.union_all (position_boxes (leaf_box two_boxes s.new2old) b e) = some bx)
          ∧ (b + 1 = e → s.boxlist[n]? = leaf_box two_boxes s.new2old b))
      ∧ ∃ root, s.boxlist[1]? = some root ∧ Box.union_all two_boxes = some root :=
  ⟨by norm_num [Box.union_all, two_boxes, Box.union],
    tightness sort_selection BVH.default two_boxes (by simp [two_boxes])⟩

end TightnessClaims

section Binary64

/-! ## The ray-triangle predicate on `double`s -/

theorem F64.scaled_val (s : Bool) (m : Nat) (e g : Int) (h : g ≤ e) :
    ((F64.scaled s m (e - g).toNat : Int) : ℚ) * 2 ^ g = F64.val (.fin s m e) := by
  have hk : (((e - g).toNat : Nat) : Int) = e - g := Int.toNat_of_nonneg (by omega)
  have h2 : ((2 : ℚ) ^ (e - g).toNat) * 2 ^ g = 2 ^ e := by
    rw [← zpow_natCast, hk, ← zpow_add₀ (by norm_num : (2 : ℚ) ≠ 0)]
    congr 1
    omega
  unfold F64.scaled F64.val
  cases s
  · simp only [Bool.false_eq_true, if_false]
    push_cast
    rw [← h2]
    ring
  · simp only [if_true]
    push_cast
    rw [← h2]
    ring

/-- The comparison of two finite `double`s is the comparison of their values. -/
theorem F64.le_fin_iff (s : Bool) (m : Nat) (e : Int) (t : Bool) (n : Nat) (f : Int) :
    F64.le (.fin s m e) (.fin t n f) = true ↔ F64.val (.fin s m e) ≤ F64.val (.fin t n f) := by
  have hp : (0 : ℚ) < 2 ^ (min e f) := zpow_pos (by norm_num) _
  rw [← F64.scaled_val s m e (min e f) (min_le_left e f),
    ← F64.scaled_val t n f (min e f) (min_le_right e f), mul_le_mul_right hp, Int.cast_le]
  simp only [F64.le, decide_eq_true_eq]

theorem F64.val_det_eps_pos : 0 < F64.val F64.det_eps := by
  norm_num [F64.val, F64.det_eps]

theorem F64.val_fabs (s : Bool) (m : Nat) (e : Int) :
    F64.val (.fin false m e) = |F64.val (.fin s m e)| := by
  have hp : (0 : ℚ) ≤ (m : ℚ) * 2 ^ e :=
    mul_nonneg (Nat.cast_nonneg m) (le_of_lt (zpow_pos (by norm_num) _))
  cases s
  · simp only [F64.val, Bool.false_eq_true, if_false, one_mul]
    rw [abs_of_nonneg hp]
  · simp only [F64.val, Bool.false_eq_true, if_false, if_true, one_mul, neg_one_mul, neg_mul,
      abs_neg]
    rw [abs_of_nonneg hp]

/-- The guard `fabs(det) >= 1e-20` is false exactly for NaN and for the finite numbers of
absolute value below the literal. -/
theorem F64.guard_false_iff (d : F64) :
    F64.ge (F64.fabs d) F64.det_eps = false ↔ F64.BelowEps d := by
  cases d with
  | nan => simp [F64.ge, F64.fabs, F64.le, F64.BelowEps, F64.det_eps]
  | inf s => simp [F64.ge, F64.fabs, F64.le, F64.BelowEps, F64.det_eps]
  | fin s m e =>
    have h := F64.le_fin_iff false 6646139978924579 (-119) false m e
    rw [F64.val_fabs s m e] at h
    unfold F64.ge F64.fabs F64.BelowEps
    constructor
    · intro hf
      refine Or.inr ⟨s, m, e, rfl, ?_⟩
      by_contra hc
      rw [not_lt] at hc
      have := h.mpr hc
      unfold F64.det_eps at hf
      rw [this] at hf
      exact absurd hf (by simp)
    · rintro (hn | ⟨s', m', e', heq, hlt⟩)
      · exact absurd hn (by simp)
      · rw [Bool.eq_false_iff]
        intro hc
        exact absurd (h.mp hc) (not_le.mpr hlt)

theorem F64.round_zero (s : Bool) (e : Int) : F64.round s 0 e = .fin s 0 0 := by
  simp [F64.round]

theorem F64.mul_zero_left (a b : F64) (h : F64.IsZero a) :
    F64.IsZero (F64.mul a b) ∨ F64.mul a b = .nan := by
  cases a with
  | nan => exact absurd h (by simp [F64.IsZero])
  | inf s => exact absurd h (by simp [F64.IsZero])
  | fin s m e =>
    have hm : m = 0 := h
    subst hm
    cases b with
    | nan => right; rfl
    | inf t => right; simp [F64.mul]
    | fin t n f => left; simp [F64.mul, F64.round_zero, F64.IsZero]

theorem F64.mul_zero_right (a b : F64) (h : F64.IsZero b) :
    F64.IsZero (F64.mul a b) ∨ F64.mul a b = .nan := by
  cases b with
  | nan => exact absurd h (by simp [F64.IsZero])
  | inf s => exact absurd h (by simp [F64.IsZero])
  | fin t n f =>
    have hn : n = 0 := h
    subst hn
    cases a with
    | nan => right; rfl
    | inf s => right; simp [F64.mul]
    | fin s m e => left; simp [F64.mul, F64.round_zero, F64.IsZero]

theorem F64.scaled_zero (s : Bool) (k : Nat) : F64.scaled s 0 k = 0 := by
  cases s <;> simp [F64.scaled]

theorem F64.add_zero_or_nan (a b : F64) (ha : F64.IsZero a ∨ a = .nan)
    (hb : F64.IsZero b ∨ b = .nan) : F64.IsZero (F64.add a b) ∨ F64.add a b = .nan := by
  rcases ha with ha | ha
  · rcases hb with hb | hb
    · cases a with
      | nan => exact absurd ha (by simp [F64.IsZero])
      | inf s => exact absurd ha (by simp [F64.IsZero])
      | fin s m e =>
        cases b with
        | nan => exact absurd hb (by simp [F64.IsZero])
        | inf t => exact absurd hb (by simp [F64.IsZero])
        | fin t n f =>
          have hm : m = 0 := ha
          have hn : n = 0 := hb
          subst hm
          subst hn
          left
          simp [F64.add, F64.scaled_zero, F64.IsZero]
    · subst hb
      right
      cases a <;> rfl
  · subst ha
    right
    cases b <;> rfl

theorem F64.neg_zero_or_nan (a : F64) (ha : F64.IsZero a ∨ a = .nan) :
    F64.IsZero (F64.neg a) ∨ F64.neg a = .nan := by
  rcases ha with ha | ha
  · cases a with
    | nan => exact absurd ha (by simp [F64.IsZero])
    | inf s => exact absurd ha (by simp [F64.IsZero])
    | fin s m e => left; exact ha
  · subst ha
    right
    rfl

theorem F64.sub_zero_or_nan (a b : F64) (ha : F64.IsZero a ∨ a = .nan)
    (hb : F64.IsZero b ∨ b = .nan) : F64.IsZero (F64.sub a b) ∨ F64.sub a b = .nan :=
  F64.add_zero_or_nan a (F64.neg b) ha (F64.neg_zero_or_nan b hb)

/-- The scalar product with a zero vector is a zero, or NaN when the other vector has a
coordinate that is not finite. -/
theorem F64.dot_zero_left (a b : Vec3 F64) (h : F64.IsZeroVec a) :
    F64.IsZero (F64.dot a b) ∨ F64.dot a b = .nan :=
  F64.add_zero_or_nan _ _
    (F64.add_zero_or_nan _ _ (F64.mul_zero_left _ _ h.1) (F64.mul_zero_left _ _ h.2.1))
    (F64.mul_zero_left _ _ h.2.2)

theorem F64.dot_zero_right (a b : Vec3 F64) (h : F64.IsZeroVec b) :
    F64.IsZero (F64.dot a b) ∨ F64.dot a b = .nan :=
  F64.add_zero_or_nan _ _
    (F64.add_zero_or_nan _ _ (F64.mul_zero_right _ _ h.1) (F64.mul_zero_right _ _ h.2.1))
    (F64.mul_zero_right _ _ h.2.2)

theorem F64.belowEps_of_zero_or_nan (d : F64) (h : F64.IsZero d ∨ d = .nan) :
    F64.BelowEps d := by
  rcases h with h | h
  · cases d with
    | nan => exact absurd h (by simp [F64.IsZero])
    | inf s => exact absurd h (by simp [F64.IsZero])
    | fin s m e =>
      have hm : m = 0 := h
      subst hm
      refine Or.inr ⟨s, 0, e, rfl, ?_⟩
      have h0 : F64.val (.fin s 0 e) = 0 := by simp [F64.val]
      rw [h0, abs_zero]
      exact F64.val_det_eps_pos
  · exact Or.inl h

/-- Dividing `1.0` by a zero gives the infinity with the sign of the zero. -/
theorem F64.div_one_zero (s : Bool) (e : Int) :
    F64.div F64.one (.fin s 0 e) = .inf s := by
  simp [F64.div, F64.one]

/-- A product with an infinity is an infinity or NaN. -/
theorem F64.mul_inf_notFinite (a : F64) (s : Bool) : F64.NotFinite (F64.mul a (.inf s)) := by
  cases a with
  | nan => simp [F64.mul, F64.NotFinite]
  | inf t => simp [F64.mul, F64.NotFinite]
  | fin t m e =>
    simp only [F64.mul]
    split_ifs <;> simp [F64.NotFinite]

/-- The `double` stored for the literal `1e-20` lies below the number `10^-20`, which is the
threshold of the exact model. -/
theorem F64.val_det_eps_lt : F64.val F64.det_eps < (SimpleBVH.det_eps : ℚ) := by
  norm_num [F64.val, F64.det_eps, SimpleBVH.det_eps]

/-- The arithmetic on a few known values: `0.1 + 0.2` is `0.30000000000000004`, `1.0 / 3.0` is
`0.333...` rounded down, `x - x` is `+0.0`, `1.0 / -0.0` is `-inf`, the largest `double` times
two overflows, and half the smallest positive `double` rounds to zero. -/
theorem F64.arithmetic_examples :
    F64.add dbl_0_1 dbl_0_2 = .fin false 5404319552844596 (-54)
    ∧ F64.div F64.one (.fin false 3 0) = .fin false 6004799503160661 (-54)
    ∧ F64.sub dbl_0_1 dbl_0_1 = .fin false 0 0
    ∧ F64.div F64.one (F64.neg F64.zero) = .inf true
    ∧ F64.mul (.fin false (2 ^ 53 - 1) 971) (.fin false 2 0) = .inf false
    ∧ F64.mul (.fin true 1 (-1074)) (.fin false 1 (-1)) = .fin true 0 0 := by
  refine ⟨by decide, by decide, by decide, by decide, by decide, by decide⟩

/-- A determinant equal to the stored literal `1e-20` passes the guard: with `A = (0,0,0)`,
`B = (1e-20, 0, 0)`, `C = (0, 1, 0)` and the ray from `(1e-20 / 4, 1/4, 1)` in direction
`(0, 0, -1)` the function computes `det = 1e-20` and returns true. -/
theorem F64.threshold_accepted :
    F64.tri_det line_D line_A ⟨F64.det_eps, F64.zero, F64.zero⟩ ⟨F64.zero, F64.one, F64.zero⟩
      = F64.det_eps
    ∧ (F64.ray_triangle_intersection
        ⟨.fin false 6646139978924579 (-121), .fin false 1 (-2), F64.one⟩ line_D line_A
        ⟨F64.det_eps, F64.zero, F64.zero⟩ ⟨F64.zero, F64.one, F64.zero⟩).hit = true := by
  refine ⟨?_, ?_⟩ <;> set_option maxRecDepth 100000 in decide

/-- The two calls of the vertex-order example on `double`s: with the ray from `(0,0,1)` in
direction `(1,0,0)` and the triangle `(0,0,0), (1,0,0), (0,1,0)` the determinant is `-0.0` in
both orders of the vertices, and `t` is `-inf` in the order given and `+inf` with `B` and `C`
swapped. -/
theorem F64.swap_changes_t :
    F64.tri_det ⟨F64.one, F64.zero, F64.zero⟩ line_A ⟨F64.one, F64.zero, F64.zero⟩
        ⟨F64.zero, F64.one, F64.zero⟩ = .fin true 0 0
    ∧ F64.tri_det ⟨F64.one, F64.zero, F64.zero⟩ line_A ⟨F64.zero, F64.one, F64.zero⟩
        ⟨F64.one, F64.zero, F64.zero⟩ = .fin true 0 0
    ∧ (F64.ray_triangle_intersection line_O ⟨F64.one, F64.zero, F64.zero⟩ line_A
        ⟨F64.one, F64.zero, F64.zero⟩ ⟨F64.zero, F64.one, F64.zero⟩).t = .inf true
    ∧ (F64.ray_triangle_intersection line_O ⟨F64.one, F64.zero, F64.zero⟩ line_A
        ⟨F64.zero, F64.one, F64.zero⟩ ⟨F64.one, F64.zero, F64.zero⟩).t = .inf false := by
  refine ⟨?_, ?_, ?_, ?_⟩ <;> set_option maxRecDepth 100000 in decide

/-- C11, as amended. For every ray and triangle of `double`s, infinities and NaN included,
`ray_triangle_intersection` returns false whenever the determinant it computes is NaN or has
an absolute value below the literal `1e-20`. That is the case when the direction is the zero
vector, when the normal it computes is the zero vector, and when the product `D . N` it
computes is a zero: the determinant is then a zero or NaN. When the determinant is a zero, the
quotient `1.0 / det` taken before the guard is the infinity with the sign of that zero, and
the outputs `t`, `u`, `v` are infinities or NaN. -/
theorem degenerate_inputs_rejected (O D A B C : Vec3 F64)
    (h : F64.BelowEps (F64.tri_det D A B C) ∨ F64.IsZeroVec D
      ∨ F64.IsZeroVec (F64.tri_normal A B C)
      ∨ F64.IsZero (F64.dot D (F64.tri_normal A B C))) :
    F64.BelowEps (F64.tri_det D A B C)
    ∧ (F64.ray_triangle_intersection O D A B C).hit = false
    ∧ (F64.IsZeroVec D ∨ F64.IsZeroVec (F64.tri_normal A B C)
        ∨ F64.IsZero (F64.dot D (F64.tri_normal A B C)) →
        F64.IsZero (F64.tri_det D A B C) ∨ F64.tri_det D A B C = .nan)
    ∧ ∀ (s : Bool) (e : Int), F64.tri_det D A B C = .fin s 0 e →
        F64.div F64.one (F64.tri_det D A B C) = .inf s
        ∧ F64.NotFinite (F64.ray_triangle_intersection O D A B C).t
        ∧ F64.NotFinite (F64.ray_triangle_intersection O D A B C).u
        ∧ F64.NotFinite (F64.ray_triangle_intersection O D A B C).v := by
  have hz : F64.IsZeroVec D ∨ F64.IsZeroVec (F64.tri_normal A B C)
      ∨ F64.IsZero (F64.dot D (F64.tri_normal A B C)) →
      F64.IsZero (F64.tri_det D A B C) ∨ F64.tri_det D A B C = .nan := by
    rintro (h1 | h1 | h1)
    · exact F64.neg_zero_or_nan _ (F64.dot_zero_left _ _ h1)
    · exact F64.neg_zero_or_nan _ (F64.dot_zero_right _ _ h1)
    · exact F64.neg_zero_or_nan _ (Or.inl h1)
  have hb : F64.BelowEps (F64.tri_det D A B C) := by
    rcases h with h1 | h1
    · exact h1
    · exact F64.belowEps_of_zero_or_nan _ (hz h1)
  refine ⟨hb, ?_, hz, ?_⟩
  · have hg := (F64.guard_false_iff _).mpr hb
    have hhit : (F64.ray_triangle_intersection O D A B C).hit
        = (F64.ge (F64.fabs (F64.tri_det D A B C)) F64.det_eps
          && F64.ge (F64.ray_triangle_intersection O D A B C).t F64.zero
          && F64.ge (F64.ray_triangle_intersection O D A B C).u F64.zero
          && F64.ge (F64.ray_triangle_intersection O D A B C).v F64.zero
          && F64.le (F64.add (F64.ray_triangle_intersection O D A B C).u
              (F64.ray_triangle_intersection O D A B C).v) F64.one) := rfl
    rw [hhit, hg]
    rfl
  · intro s e hd
    have ht : (F64.ray_triangle_intersection O D A B C).t
        = F64.mul (F64.dot (F64.vsub O A) (F64.tri_normal A B C))
            (F64.div F64.one (F64.tri_det D A B C)) := rfl
    have hu : (F64.ray_triangle_intersection O D A B C).u
        = F64.mul (F64.dot (F64.vsub C A) (F64.cross (F64.vsub O A) D))
            (F64.div F64.one (F64.tri_det D A B C)) := rfl
    have hv : (F64.ray_triangle_intersection O D A B C).v
        = F64.mul (F64.neg (F64.dot (F64.vsub B A) (F64.cross (F64.vsub O A) D)))
            (F64.div F64.one (F64.tri_det D A B C)) := rfl
    rw [ht, hu, hv, hd, F64.div_one_zero]
    exact ⟨rfl, F64.mul_inf_notFinite _ _, F64.mul_inf_notFinite _ _,
      F64.mul_inf_notFinite _ _⟩

/-- C11 as amended, at the vertices `(0,0,0), (1,1,1), (2,2,2)` with the ray from `(0,0,1)` in
direction `(0,0,-1)`: the normal the function computes is the zero vector, the determinant is
`-0.0`, and the quotient `1.0 / det` is `-inf`. -/
theorem degenerate_inputs_rejected_witness :
    F64.IsZeroVec (F64.tri_normal line_A line_B line_C)
    ∧ F64.tri_det line_D line_A line_B line_C = .fin true 0 0
    ∧ F64.div F64.one (F64.tri_det line_D line_A line_B line_C) = .inf true
    ∧ F64.BelowEps (F64.tri_det line_D line_A line_B line_C)
    ∧ (F64.ray_triangle_intersection line_O line_D line_A line_B line_C).hit = false
    ∧ (F64.IsZeroVec line_D ∨ F64.IsZeroVec (F64.tri_normal line_A line_B line_C)
        ∨ F64.IsZero (F64.dot line_D (F64.tri_normal line_A line_B line_C)) →
        F64.IsZero (F64.tri_det line_D line_A line_B line_C)
        ∨ F64.tri_det line_D line_A line_B line_C = .nan)
    ∧ ∀ (s : Bool) (e : Int), F64.tri_det line_D line_A line_B line_C = .fin s 0 e →
        F64.div F64.one (F64.tri_det line_D line_A line_B line_C) = .inf s
        ∧ F64.NotFinite (F64.ray_triangle_intersection line_O line_D line_A line_B line_C).t
        ∧ F64.NotFinite (F64.ray_triangle_intersection line_O line_D line_A line_B line_C).u
        ∧ F64.NotFinite (F64.ray_triangle_intersection line_O line_D line_A line_B line_C).v :=
  ⟨by unfold F64.IsZeroVec; set_option maxRecDepth 100000 in decide,
    by set_option maxRecDepth 100000 in decide,
    by set_option maxRecDepth 100000 in decide,
    degenerate_inputs_rejected line_O line_D line_A line_B line_C
      (Or.inr (Or.inr (Or.inl (by
        unfold F64.IsZeroVec; set_option maxRecDepth 100000 in decide))))⟩

/-- C11, as stated, fails on `double`s. The vertices `A = (0.1, 0.1, 0)`, `B = (0.3, 0.2, 0)`,
`C = (0.7, 0.4, 0)` are `double`s that lie on one line exactly (`C = A + 3 * (B - A)`), so the
triangle has area zero and the determinant of the specification is `0` for every direction.
The differences `B - A` and `C - A` are rounded, the normal the function computes is
`(0, 0, 2^-57)`, and for the ray from `(0.1, 0.1, 1)` in direction `(0, 0, -1)` the function
computes `det = 2^-57`, above the threshold, with `t = 1`, `u = 0`, `v = 0`: it returns
true. -/
theorem collinear_triangle_accepted :
    (F64.IsDoubleVec sliver_O ∧ F64.IsDoubleVec sliver_D ∧ F64.IsDoubleVec sliver_A
      ∧ F64.IsDoubleVec sliver_B ∧ F64.IsDoubleVec sliver_C)
    ∧ tri_normal (F64.vec sliver_A) (F64.vec sliver_B) (F64.vec sliver_C) = Vec3.zero
    ∧ tri_det (F64.vec sliver_D) (F64.vec sliver_A) (F64.vec sliver_B) (F64.vec sliver_C) = 0
    ∧ |tri_det (F64.vec sliver_D) (F64.vec sliver_A) (F64.vec sliver_B) (F64.vec sliver_C)|
        < det_eps
    ∧ (F64.ray_triangle_intersection sliver_O sliver_D sliver_A sliver_B sliver_C).hit
        = true := by
  have hn : tri_normal (F64.vec sliver_A) (F64.vec sliver_B) (F64.vec sliver_C)
      = Vec3.zero := by
    norm_num [tri_normal, F64.vec, F64.val, Vec3.sub, Vec3.cross, Vec3.zero, sliver_A, sliver_B,
      sliver_C, dbl_0_1, dbl_0_2, dbl_0_3, dbl_0_4, dbl_0_7, F64.zero]
  have hd : tri_det (F64.vec sliver_D) (F64.vec sliver_A) (F64.vec sliver_B)
      (F64.vec sliver_C) = 0 := by
    unfold tri_det
    rw [hn]
    simp [Vec3.dot, Vec3.zero]
  refine ⟨?_, hn, hd, ?_, ?_⟩
  · unfold F64.IsDoubleVec
    decide
  · rw [hd, abs_zero]
    exact det_eps_pos
  · set_option maxRecDepth 100000 in decide

end Binary64

end SimpleBVH
